import Mathlib

/-!
# A shallow embedding of the `inject` container (`container.go`)

The development models the registration, linking and resolution code of the
dependency container: `New`, `Provide`, `Package`, `Container.add`,
`Container.get`, `Container.compile`, `Container.Populate`, `Name`, `As` and
`provideOptions.definition`.

Modelling conventions.

* A Go `error` result is an `Option GoError` (`none` is `nil`); a function with
  the result list `(T, error)` returns a `Result T`, whose three cases are a
  normal return with a nil error, a normal return with a non-nil error, and a
  run-time panic.
* A `*definition` is an address in a heap of definitions (`Heap`): the maps of
  the container and the `in` edges hold addresses, as the Go code holds
  pointers, so that sharing and identity are the ones of the program.
* A Go map is an association list in insertion order, or `none` for the nil
  map; the order in which `range` visits a map is not fixed by the language
  and is a parameter (`Env.rangeNodes`).
* `newFuncProvider`, `newStructProvider` and `reflect.Type.Implements` are not
  part of `container.go`; they are parameters (`Env`).
* `definition.instance` is not part of `container.go` either: `Populate` takes
  it as a parameter, and `instanceFuel` models it from the specification, with
  the built instances and the log of provider invocations as a state
  (`Instances`).
-/

namespace inject

/-! ## Reflection: kinds, types, interface values -/

/-- The values of `reflect.Kind` that `container.go` compares against; every
other kind (booleans, numbers, strings, slices, maps, ...) is `Other`. -/
inductive Kind where
  | Func
  | Ptr
  | Struct
  | Interface
  | Other
  deriving DecidableEq, Repr

/-- A `reflect.Type` (non-nil). Types are compared by identity, here by name
and structure. -/
inductive GoType where
  | basic (name : String)
  | struct (name : String)
  | iface (name : String)
  | func (params results : List GoType)
  | ptr (elem : GoType)
  deriving Repr

mutual
/-- Identity of two types. -/
def GoType.decEq : (a b : GoType) → Decidable (a = b)
  | .basic n, .basic m =>
    if h : n = m then isTrue (by rw [h]) else isFalse (by intro e; cases e; exact h rfl)
  | .struct n, .struct m =>
    if h : n = m then isTrue (by rw [h]) else isFalse (by intro e; cases e; exact h rfl)
  | .iface n, .iface m =>
    if h : n = m then isTrue (by rw [h]) else isFalse (by intro e; cases e; exact h rfl)
  | .ptr a, .ptr b =>
    match GoType.decEq a b with
    | isTrue h => isTrue (by rw [h])
    | isFalse h => isFalse (by intro e; cases e; exact h rfl)
  | .func p r, .func p' r' =>
    match GoType.decEqList p p', GoType.decEqList r r' with
    | isTrue h, isTrue h' => isTrue (by rw [h, h'])
    | isFalse h, _ => isFalse (by intro e; cases e; exact h rfl)
    | _, isFalse h => isFalse (by intro e; cases e; exact h rfl)
  | .basic _, .struct _ | .basic _, .iface _ | .basic _, .func _ _ | .basic _, .ptr _
  | .struct _, .basic _ | .struct _, .iface _ | .struct _, .func _ _ | .struct _, .ptr _
  | .iface _, .basic _ | .iface _, .struct _ | .iface _, .func _ _ | .iface _, .ptr _
  | .func _ _, .basic _ | .func _ _, .struct _ | .func _ _, .iface _ | .func _ _, .ptr _
  | .ptr _, .basic _ | .ptr _, .struct _ | .ptr _, .iface _ | .ptr _, .func _ _ =>
    isFalse (by intro e; cases e)
/-- Identity of two lists of types. -/
def GoType.decEqList : (as bs : List GoType) → Decidable (as = bs)
  | [], [] => isTrue rfl
  | [], _ :: _ => isFalse (by intro e; cases e)
  | _ :: _, [] => isFalse (by intro e; cases e)
  | a :: as, b :: bs =>
    match GoType.decEq a b, GoType.decEqList as bs with
    | isTrue h, isTrue h' => isTrue (by rw [h, h'])
    | isFalse h, _ => isFalse (by intro e; cases e; exact h rfl)
    | _, isFalse h => isFalse (by intro e; cases e; exact h rfl)
end

instance : DecidableEq GoType := GoType.decEq

/-- The method `reflect.Type.Kind`. -/
def GoType.Kind : GoType → Kind
  | .basic _ => .Other
  | .struct _ => .Struct
  | .iface _ => .Interface
  | .func _ _ => .Func
  | .ptr _ => .Ptr

mutual
/-- The method `reflect.Type.String`, used for the `%s` verbs of messages: a
function type shows no result list when it has no result, the result alone
when it has one, and the results in parentheses otherwise. -/
def GoType.String : GoType → String
  | .basic n => n
  | .struct n => n
  | .iface n => n
  | .func ps [] => "func(" ++ GoType.StringList ps ++ ")"
  | .func ps [r] => "func(" ++ GoType.StringList ps ++ ") " ++ r.String
  | .func ps (r :: r' :: rs) =>
    "func(" ++ GoType.StringList ps ++ ") (" ++ GoType.StringList (r :: r' :: rs) ++ ")"
  | .ptr e => "*" ++ e.String
/-- The types of a parameter or result list, separated by commas. -/
def GoType.StringList : List GoType → String
  | [] => ""
  | [t] => t.String
  | t :: ts => t.String ++ ", " ++ GoType.StringList ts
end

/-- A non-nil `interface{}` value: its dynamic type and a word standing for
its data. -/
structure Value where
  typ : GoType
  data : Nat
  deriving DecidableEq, Repr

/-- An `interface{}` value; `none` is the nil interface. -/
abbrev Any := Option Value

/-- The function `reflect.TypeOf`: the dynamic type, nil for a nil interface. -/
def TypeOf (i : Any) : Option GoType := i.map Value.typ

/-! ## Errors (`github.com/pkg/errors`) and results -/

/-- A non-nil `error` value built by the `errors` package: `new` by
`errors.New` and `errors.Errorf`, `withStack` by `errors.WithStack`,
`withMessage` by `errors.Wrap` and `errors.Wrapf`. -/
inductive GoError where
  | new (msg : String)
  | withStack (cause : GoError)
  | withMessage (cause : GoError) (msg : String)
  deriving DecidableEq, Repr

/-- The functions `errors.Wrap` and `errors.Wrapf`: nil for a nil error,
whatever the message. -/
def Wrapf : Option GoError → String → Option GoError
  | none, _ => none
  | some e, msg => some (.withMessage e msg)

/-- The function `errors.Cause`: the innermost error. -/
def GoError.Cause : GoError → GoError
  | .new msg => .new msg
  | .withStack c => c.Cause
  | .withMessage c _ => c.Cause

/-- The sentinel `ErrIncorrectProviderType`. -/
def ErrIncorrectProviderType : GoError :=
  .new "provider must be a function with returned value and optional error"

/-- The outcome of a call: a return with a nil error, a return with a non-nil
error (and a zero value), or a panic. -/
inductive Result (α : Type) where
  | ok (v : α)
  | error (e : GoError)
  | panic (msg : String)
  deriving DecidableEq, Repr

/-- The statement `return err` for an error value `err` that may be nil: with
a nil `err` the caller sees a nil error, and `v` is the state it goes on
with. -/
def returnErr {α : Type} (err : Option GoError) (v : α) : Result α :=
  match err with
  | none => .ok v
  | some e => .error e

/-! ## Keys, wrappers, declarations, definitions -/

/-- The struct `key`: a type and a name. -/
structure key where
  typ : GoType
  name : String
  deriving DecidableEq, Repr

/-- Modelled from the spec: the text of a `key` under the `%s` verb of a
message. The type `key` and its formatting are not in `container.go`; the
specification names the errors by the key (`NotProvided(key)`, section 7), a
key being a type and a name (section 3), so the text shows both, the name in
brackets. Only the texts of messages depend on it. -/
def key.String (k : key) : String := k.typ.String ++ "[" ++ k.name ++ "]"

/-- The fields of `providerWrapper` that `container.go` reads. -/
structure providerWrapper where
  resultType : GoType
  args : List key
  deriving DecidableEq, Repr

/-- The struct `provideOptions`. -/
structure provideOptions where
  provider : Any
  name : String
  implements : List Any
  deriving DecidableEq, Repr

/-- An address of a `definition` in the heap. -/
abbrev Ptr := Nat

/-- The fields of `definition` that `container.go` reads and writes; `in_` is
the field `in`. -/
structure definition where
  key : key
  provider : providerWrapper
  implements : List inject.key
  in_ : List Ptr
  deriving DecidableEq, Repr

/-- The definitions allocated so far; the address of a definition is its
position. -/
abbrev Heap := List definition

/-- Allocation of a new definition (`&definition{...}`). -/
def Heap.alloc (h : Heap) (d : definition) : Heap × Ptr := (h ++ [d], h.length)

/-! ## Go maps -/

/-- The value stored under `k` in an association list. -/
def lookupEntries {K V : Type} [DecidableEq K] (k : K) : List (K × V) → Option V
  | [] => none
  | (k', v) :: rest => if k' = k then some v else lookupEntries k rest

/-- Storing `v` under `k`: in place when `k` is present, as a new entry
otherwise. -/
def setEntries {K V : Type} [DecidableEq K] (k : K) (v : V) : List (K × V) → List (K × V)
  | [] => [(k, v)]
  | (k', v') :: rest => if k' = k then (k, v) :: rest else (k', v') :: setEntries k v rest

/-- A Go map; `none` is the nil map. -/
abbrev GoMap (K V : Type) := Option (List (K × V))

/-- The entries of a map (none for the nil map). -/
def GoMap.entries {K V : Type} (m : GoMap K V) : List (K × V) := m.getD []

/-- The read `v, ok := m[k]`; a nil map has no entry. -/
def GoMap.get {K V : Type} [DecidableEq K] (m : GoMap K V) (k : K) : Option V :=
  lookupEntries k m.entries

/-- The write `m[k] = v`; `none` is the panic of a write to a nil map. -/
def GoMap.set {K V : Type} [DecidableEq K] (m : GoMap K V) (k : K) (v : V) :
    Option (GoMap K V) :=
  match m with
  | none => none
  | some l => some (some (setEntries k v l))

/-! ## The environment -/

/-- What `container.go` calls but does not define. The two wrapper
constructors have the result list `(*providerWrapper, error)`; they are taken
to return, with a wrapper or with an error. -/
structure Env where
  /-- The function `newFuncProvider`, called on a value of kind `Func`. -/
  newFuncProvider : Any → Except GoError providerWrapper
  /-- The function `newStructProvider`, called on a pointer to a struct. -/
  newStructProvider : Any → Except GoError providerWrapper
  /-- The method `reflect.Type.Implements` (receiver first). -/
  Implements : GoType → GoType → Bool
  /-- The order in which `range` visits the entries of the node table. -/
  rangeNodes : List (key × Ptr) → List (key × Ptr)

/-- A `range` over a map visits every entry exactly once. -/
def Env.RangeOk (env : Env) : Prop := ∀ l, (env.rangeNodes l).Perm l

/-! ## The container -/

/-- The struct `Container`; `init` is true once the `sync.Once` has run. -/
structure Container where
  init : Bool
  providers : List provideOptions
  nodes : GoMap key Ptr
  implementations : GoMap key (List Ptr)
  deriving DecidableEq, Repr

/-- The zero value `&Container{}`. -/
def Container.zero : Container :=
  { init := false, providers := [], nodes := none, implementations := none }

/-- The call `b.init.Do(...)` of `add`: the first call allocates both maps. -/
def Container.initDo (b : Container) : Container :=
  if b.init then b
  else { b with init := true, nodes := some [], implementations := some [] }

/-- The method `Container.get`. -/
def Container.get (b : Container) (k : key) : Result Ptr :=
  match b.nodes.get k with
  | some d => .ok d
  | none =>
    match (b.implementations.get k).getD [] with
    | d :: _ => .ok d
    | [] => .error (.new (k.String ++ " not provided yet"))

/-- The loop of `add` over `def.implements`. -/
def addImplements (p : Ptr) : List key → GoMap key (List Ptr) → Option (GoMap key (List Ptr))
  | [], m => some m
  | k :: ks, m =>
    match m.set k ((m.get k).getD [] ++ [p]) with
    | none => none
    | some m' => addImplements p ks m'

/-- The method `Container.add`, for the definition at address `p`. -/
def Container.add (b : Container) (h : Heap) (p : Ptr) : Result Container :=
  let err : Option GoError := none
  let b := b.initDo
  match h[p]? with
  | none => .panic "invalid memory address or nil pointer dereference"
  | some d =>
    match b.nodes.get d.key with
    | some _ => returnErr (Wrapf err (d.provider.resultType.String ++ " already provided")) b
    | none =>
      match b.nodes.set d.key p with
      | none => .panic "assignment to entry in nil map"
      | some nodes =>
        match addImplements p d.implements b.implementations with
        | none => .panic "assignment to entry in nil map"
        | some impls => .ok { b with nodes := nodes, implementations := impls }

/-! ## Declarations: `Name`, `As`, `definition` -/

/-- The closures returned by `Name` and `As`. -/
inductive ProvideOption where
  | Name (name : String)
  | As (ifaces : List Any)
  deriving DecidableEq, Repr

/-- The call `opt(po)`. -/
def ProvideOption.call : ProvideOption → provideOptions → provideOptions
  | .Name name, o => { o with name := name }
  | .As ifaces, o => { o with implements := o.implements ++ ifaces }

/-- The loop of `definition` over `o.implements`, from the index reached, with
the keys collected so far. -/
def implementsLoop (env : Env) (wrapper : providerWrapper) :
    List Any → List key → Result (List key)
  | [], implements => .ok implements
  | iface :: rest, implements =>
    match TypeOf iface with
    | none => .panic "invalid memory address or nil pointer dereference"
    | some ifaceType =>
      match ifaceType with
      | .ptr ifaceTypeElem =>
        if ifaceTypeElem.Kind ≠ Kind.Interface then
          .error (.new ("argument for As() must be pointer to interface type, got "
            ++ ifaceType.String))
        else if !env.Implements wrapper.resultType ifaceTypeElem then
          .error (.new (wrapper.resultType.String ++ " not implement "
            ++ ifaceTypeElem.String ++ " interface"))
        else
          implementsLoop env wrapper rest (implements ++ [{ typ := ifaceTypeElem, name := "" }])
      | _ =>
        .error (.new ("argument for As() must be pointer to interface type, got "
          ++ ifaceType.String))

/-- The part of `definition` after the `switch`: the error check on the
wrapper and the construction of the definition. -/
def definitionOf (env : Env) (o : provideOptions) (wrapped : Except GoError providerWrapper) :
    Result definition :=
  match wrapped with
  | .error err => .error (.withStack err)
  | .ok wrapper =>
    match implementsLoop env wrapper o.implements [] with
    | .panic msg => .panic msg
    | .error e => .error e
    | .ok implements =>
      .ok { key := { typ := wrapper.resultType, name := o.name },
            provider := wrapper,
            implements := implements,
            in_ := [] }

/-- The `switch` of `definition` on the type of the provider: the result of
the wrapper constructor chosen, or `none` in the `default` case. -/
def provideOptions.switchWrapper (env : Env) (o : provideOptions) (ptype : GoType) :
    Option (Except GoError providerWrapper) :=
  if ptype.Kind = Kind.Func then some (env.newFuncProvider o.provider)
  else
    match ptype with
    | .ptr elem =>
      if elem.Kind = Kind.Struct then some (env.newStructProvider o.provider) else none
    | _ => none

/-- The method `provideOptions.definition`; the result is the definition that
the returned pointer refers to. A nil `o.provider` makes `reflect.TypeOf`
return the nil type, whose method `Kind` cannot be called. -/
def provideOptions.definition (env : Env) (o : provideOptions) : Result definition :=
  match TypeOf o.provider with
  | none => .panic "invalid memory address or nil pointer dereference"
  | some ptype =>
    match o.switchWrapper env ptype with
    | none => .error (.withStack ErrIncorrectProviderType)
    | some wrapped => definitionOf env o wrapped

/-! ## Options: `Provide`, `Package` -/

/-- The closures returned by `Provide` and `Package`. -/
inductive Option_ where
  | Provide (provider : Any) (options : List ProvideOption)
  | Package (options : List Option_)

/-- The body of the closure of `Provide`: the declaration built from the
modifiers, in order. -/
def newProvideOptions (provider : Any) (options : List ProvideOption) : provideOptions :=
  options.foldl (fun po opt => opt.call po) { provider := provider, name := "", implements := [] }

mutual
/-- The method `apply` of an option. -/
def Option_.apply : Option_ → Container → Container
  | .Provide provider options, container =>
    { container with providers := container.providers ++ [newProvideOptions provider options] }
  | .Package options, container => applyAll options container
/-- The loop `for _, opt := range options { opt.apply(container) }`. -/
def applyAll : List Option_ → Container → Container
  | [], container => container
  | opt :: rest, container => applyAll rest (opt.apply container)
end

/-! ## Compilation -/

/-- The first loop of `compile` (register providers), from the declaration
reached. -/
def registerLoop (env : Env) : List provideOptions → Heap → Container → Result (Heap × Container)
  | [], h, b => .ok (h, b)
  | po :: rest, h, b =>
    if po.provider = none then .error (.new "could not provide nil")
    else
      match po.definition env with
      | .panic msg => .panic msg
      | .error err => returnErr (Wrapf (some err) "provide failed") (h, b)
      | .ok d =>
        let (h', def_) := h.alloc d
        match b.add h' def_ with
        | .panic msg => .panic msg
        | .error err => returnErr (Wrapf (some err) "could not add node") (h', b)
        | .ok b' => registerLoop env rest h' b'

/-- The inner loop of the second loop of `compile` (load arguments) for the
definition at `def_`, from the argument reached. -/
def linkArgs (b : Container) (def_ : Ptr) : List key → Heap → Result Heap
  | [], h => .ok h
  | k :: ks, h =>
    match b.get k with
    | .panic msg => .panic msg
    | .error err => .error (.withStack err)
    | .ok in_ =>
      match h[def_]? with
      | none => .panic "invalid memory address or nil pointer dereference"
      | some d => linkArgs b def_ ks (h.set def_ { d with in_ := d.in_ ++ [in_] })

/-- The second loop of `compile` (connect nodes), over the entries of the node
table in the order of the `range`. -/
def linkLoop (b : Container) : List (key × Ptr) → Heap → Result Heap
  | [], h => .ok h
  | (_, def_) :: rest, h =>
    match h[def_]? with
    | none => .panic "invalid memory address or nil pointer dereference"
    | some d =>
      match linkArgs b def_ d.provider.args h with
      | .panic msg => .panic msg
      | .error err => .error err
      | .ok h' => linkLoop b rest h'

/-- The method `Container.compile`, on a heap `h`. -/
def Container.compile (env : Env) (b : Container) (h : Heap) : Result (Heap × Container) :=
  match registerLoop env b.providers h b with
  | .panic msg => .panic msg
  | .error err => .error err
  | .ok (h', b') =>
    match linkLoop b' (env.rangeNodes b'.nodes.entries) h' with
    | .panic msg => .panic msg
    | .error err => .error err
    | .ok h'' => .ok (h'', b')

/-- The function `New`: the compiled container with the heap of its
definitions, or the error. -/
def New (env : Env) (options : List Option_) : Result (Heap × Container) :=
  let container := applyAll options Container.zero
  match container.compile env [] with
  | .panic msg => .panic msg
  | .error err => returnErr (Wrapf (some err) "could not compile container") ([], container)
  | .ok r => .ok r

/-! ## A concrete environment

The wrappers of the specification (section 4.1) and a table for interface
satisfaction, for evaluating the code on concrete declarations. -/

/-- The type `error`. -/
def errorInterface : GoType := .iface "error"

/-- Modelled from the spec: `newFuncProvider` is not in `container.go`. The
result type is the first result of the function, there is one unnamed
argument key per parameter, and a second result must be `error`; any other
shape is rejected. -/
def specNewFuncProvider (provider : Any) : Except GoError providerWrapper :=
  match TypeOf provider with
  | some (.func params [result]) =>
    .ok { resultType := result, args := params.map (fun t => { typ := t, name := "" }) }
  | some (.func params [result, err]) =>
    if err = errorInterface then
      .ok { resultType := result, args := params.map (fun t => { typ := t, name := "" }) }
    else .error ErrIncorrectProviderType
  | _ => .error ErrIncorrectProviderType

/-- Modelled from the spec: `newStructProvider` is not in `container.go`. The
result type is the pointed-to struct type and there are no argument keys. -/
def specNewStructProvider (provider : Any) : Except GoError providerWrapper :=
  match TypeOf provider with
  | some (.ptr (.struct name)) => .ok { resultType := .struct name, args := [] }
  | _ => .error ErrIncorrectProviderType

/-- The environment of the specification's wrappers, with interface
satisfaction given by the table `satisfies` (type, interface) and a `range`
that visits the node table in insertion order. -/
def specEnv (satisfies : List (GoType × GoType)) : Env :=
  { newFuncProvider := specNewFuncProvider,
    newStructProvider := specNewStructProvider,
    Implements := fun t i => decide ((t, i) ∈ satisfies),
    rangeNodes := fun l => l }

/-! ## The flattening of options, in the specification's words -/

mutual
/-- The declarations of one option: a `Provide` directive is one declaration,
a `Package` group the declarations of its members. -/
def Option_.declarations : Option_ → List provideOptions
  | .Provide provider options => [newProvideOptions provider options]
  | .Package options => flattenOptions options
/-- The left-to-right, depth-first flattening of a list of options into the
list of their `Provide` declarations. -/
def flattenOptions : List Option_ → List provideOptions
  | [] => []
  | opt :: rest => opt.declarations ++ flattenOptions rest
end

/-- The name that the modifiers of a `Provide` give: the one of the last
`Name`, the empty string when there is none. -/
def lastName (options : List ProvideOption) : String :=
  ((options.filterMap (fun o => match o with
    | .Name name => some name
    | .As _ => none)).getLast?).getD ""

/-! ## Notions used by the statements -/

/-- The definition at address `q` is the one the node table holds under its
key: it was registered, not dropped. -/
def Container.registered (b : Container) (h : Heap) (q : Ptr) : Bool :=
  match h[q]? with
  | some d => decide (b.nodes.get d.key = some q)
  | none => false

/-- The definition at address `q` declares the capability `c` (by `As`). -/
def declares (h : Heap) (c : key) (q : Ptr) : Bool :=
  match h[q]? with
  | some d => decide (c ∈ d.implements)
  | none => false

/-- The addresses of the registered definitions that declare `c`, in the order
of allocation, which is the order of the declarations. -/
def implementers (h : Heap) (b : Container) (c : key) : List Ptr :=
  (List.range h.length).filter (fun q => b.registered h q && declares h c q)

/-- An `As` argument is a pointer to the interface type `t`. -/
def isPtrToInterface (iface : Any) (t : GoType) : Prop :=
  ∃ data, iface = some { typ := .ptr t, data := data } ∧ t.Kind = Kind.Interface

/-- The entries of the binding registry after the loop of `add` over the
capabilities `ks` of the definition at `p`. -/
def addImplEntries (p : Ptr) : List key → List (key × List Ptr) → List (key × List Ptr)
  | [], l => l
  | k :: ks, l => addImplEntries p ks (setEntries k ((lookupEntries k l).getD [] ++ [p]) l)

/-- The registry list of `c` as the registration builds it: one occurrence of
the address of a registered definition for each time it declares `c`, in the
order of the addresses. -/
def implList (h : Heap) (b : Container) (c : key) : List Ptr :=
  (List.range h.length).flatMap (fun q =>
    if b.registered h q then
      match h[q]? with
      | some d => (d.implements.filter (fun k => k = c)).map (fun _ => q)
      | none => []
    else [])

/-- The state of the registration loop after the declarations `done`: the heap
holds their definitions in order, the node table binds every key of the heap
to the first address that has it, and the binding registry lists the
registered implementers in order. -/
structure RegInv (env : Env) (done : List provideOptions) (h : Heap) (b : Container) : Prop where
  maps : b.init = true → ∃ ns is, b.nodes = some ns ∧ b.implementations = some is
  fresh : b.init = false → b.nodes = none ∧ b.implementations = none
  heap_defs : List.Forall₂ (fun po d => po.definition env = .ok d) done h
  node_valid : ∀ k p, (k, p) ∈ b.nodes.entries → ∃ d, h[p]? = some d ∧ d.key = k
  node_nodup : (b.nodes.entries.map Prod.fst).Nodup
  bound : ∀ q d, h[q]? = some d → ∃ p, p ≤ q ∧ b.nodes.get d.key = some p
  impls : ∀ c, (b.implementations.get c).getD [] = implList h b c

/-- A definition without its edges: what registration gave it. -/
def definition.unlinked (d : definition) : definition := { d with in_ := [] }

/-! ## Example declarations -/

/-- The struct type `A`. -/
def tA : GoType := .struct "A"

/-- The struct type `B`. -/
def tB : GoType := .struct "B"

/-- The interface type `Logger`. -/
def tLogger : GoType := .iface "Logger"

/-- The value `&T{}` for a type `t`, and `new(T)` alike: a pointer to `t`. -/
def pointerTo (t : GoType) : Any := some { typ := .ptr t, data := 0 }

/-- A function value with the given parameter and result types. -/
def funcValue (params results : List GoType) : Any :=
  some { typ := .func params results, data := 1 }

/-- An environment in which `A` implements `Logger` and `B` does not. -/
def exampleEnv : Env := specEnv [(tA, tLogger)]

/-- An environment in which `A` and `B` implement `Logger`. -/
def loggerEnv : Env := specEnv [(tA, tLogger), (tB, tLogger)]

/-- The struct type `X`. -/
def tX : GoType := .struct "X"

/-- The struct type `Y`. -/
def tY : GoType := .struct "Y"

/-- The struct type `Z`. -/
def tZ : GoType := .struct "Z"

/-- The environment `exampleEnv` with a `range` that visits the node table in
the reverse of the insertion order. -/
def reversedEnv : Env := { exampleEnv with rangeNodes := List.reverse }

/-- The method `Error` of an error of the `errors` package: the message of a
wrapped error is the message of the wrapper, a colon and the message of the
cause; a stack adds nothing to the message. -/
def GoError.Error : GoError → String
  | .new msg => msg
  | .withStack cause => cause.Error
  | .withMessage cause msg => msg ++ ": " ++ cause.Error

/-! ## Resolution: `Populate`

The method `definition.instance` and the fields of `definition` that hold the
built instance are not in `container.go`. `Populate` takes the method as a
parameter; the instances built so far are a state of their own. -/

/-- Modelled from the spec: the instance caches of the definitions (section 3,
"Instance Cache entry"), which `container.go` does not declare. `cache` holds
the value built for an address, `calls` the addresses of the definitions whose
provider was invoked, one entry per invocation, in order. -/
structure Instances where
  cache : List (Ptr × Value)
  calls : List Ptr
  deriving DecidableEq, Repr

/-- The instances of a container that has resolved nothing yet. -/
def Instances.fresh : Instances := { cache := [], calls := [] }

/-- The argument `target` of `Populate`, as `reflect.ValueOf(target).Elem()`
sees it. -/
inductive Target where
  /-- The nil interface: `reflect.ValueOf` returns the zero `Value`. -/
  | nilInterface
  /-- A value of a type that is not a pointer type. -/
  | notPointer (typ : GoType)
  /-- A nil pointer to `elem`. -/
  | nilPointer (elem : GoType)
  /-- A pointer to a slot of type `elem`. -/
  | pointer (elem : GoType)
  deriving DecidableEq, Repr

/-- Assignability of a value of type `t` to a slot of type `slot`, as
`reflect.Value.Set` requires it: the same type, or an interface type that `t`
implements. -/
def assignable (env : Env) (t slot : GoType) : Bool :=
  decide (t = slot) || (decide (slot.Kind = Kind.Interface) && env.Implements t slot)

/-- What a call of `Populate` did: it returned `err` after storing `written`
in the target slot (`none`: the slot was not written) and leaving the
instances `instances`, or it panicked. -/
inductive Populated where
  | returned (err : Option GoError) (written : Option Value) (instances : Instances)
  | panic (msg : String)
  deriving DecidableEq, Repr

/-- The method `Container.Populate`, given the method `definition.instance` as
`inst` (`none`: the call does not return). `Populate` reads the container and
writes only the target slot; `options` is not used. -/
def Container.Populate (env : Env)
    (inst : Ptr → Instances → Option (Result Value × Instances))
    (b : Container) (s : Instances) (target : Target) (options : List ProvideOption) :
    Option Populated :=
  match target with
  | .nilInterface => some (.panic "reflect: call of reflect.Value.Elem on zero Value")
  | .notPointer typ =>
    some (.panic ("reflect: call of reflect.Value.Elem on " ++ typ.String ++ " Value"))
  | .nilPointer _ => some (.panic "reflect: call of reflect.Value.Type on zero Value")
  | .pointer typ =>
    match b.get { typ := typ, name := "" } with
    | .panic msg => some (.panic msg)
    | .error err => some (.returned (some (.withStack err)) none s)
    | .ok def_ =>
      match inst def_ s with
      | none => none
      | some (.panic msg, _) => some (.panic msg)
      | some (.error err, s') => some (.returned (Wrapf (some err) typ.String) none s')
      | some (.ok value, s') =>
        if assignable env value.typ typ then some (.returned none (some value) s')
        else some (.panic ("reflect.Set: value of type " ++ value.typ.String
          ++ " is not assignable to type " ++ typ.String))

/-- Modelled from the spec: the invocation procedure of the provider wrappers
(section 3, `invoke`), which `container.go` does not define; the wrapper is
the one of the definition at the given address. -/
abbrev Invoke := Ptr → List Value → Except GoError Value

/-- The resolution of a list of definitions in order with `resolve`, stopping
at the first that does not return a value. -/
def resolveAll (resolve : Ptr → Instances → Option (Result Value × Instances)) :
    List Ptr → Instances → Option (Result (List Value) × Instances)
  | [], s => some (.ok [], s)
  | q :: qs, s =>
    match resolve q s with
    | none => none
    | some (.panic msg, s') => some (.panic msg, s')
    | some (.error err, s') => some (.error err, s')
    | some (.ok v, s') =>
      match resolveAll resolve qs s' with
      | none => none
      | some (.panic msg, s'') => some (.panic msg, s'')
      | some (.error err, s'') => some (.error err, s'')
      | some (.ok vs, s'') => some (.ok (v :: vs), s'')

/-- Modelled from the spec: the method `definition.instance`, which is not in
`container.go`, after section 4.4 (steps 2 to 5): a built instance is
returned; otherwise the definitions of `in` are resolved in order, the
provider is invoked on their values, a failure is returned with the key of the
definition and nothing is cached, a value is cached and returned. The
recursion is bounded by `fuel`; `none` is a resolution that needs more. -/
def instanceFuel (invoke : Invoke) (h : Heap) :
    Nat → Ptr → Instances → Option (Result Value × Instances)
  | 0, _, _ => none
  | fuel + 1, p, s =>
    match lookupEntries p s.cache with
    | some v => some (.ok v, s)
    | none =>
      match h[p]? with
      | none => some (.panic "invalid memory address or nil pointer dereference", s)
      | some d =>
        match resolveAll (instanceFuel invoke h fuel) d.in_ s with
        | none => none
        | some (.panic msg, s') => some (.panic msg, s')
        | some (.error err, s') => some (.error err, s')
        | some (.ok args, s') =>
          match invoke p args with
          | .error err =>
            some (.error (.withMessage err d.key.String),
              { s' with calls := s'.calls ++ [p] })
          | .ok v =>
            some (.ok v, { cache := setEntries p v s'.cache, calls := s'.calls ++ [p] })

/-- The definition at `p` has the definition at `q` among its `in`. -/
def Edge (h : Heap) (p q : Ptr) : Prop := ∃ d, h[p]? = some d ∧ q ∈ d.in_

/-- The instances are closed: the `in` of a built definition are built. -/
def Closed (h : Heap) (s : Instances) : Prop :=
  ∀ p v, lookupEntries p s.cache = some v → ∀ q, Edge h p q →
    ∃ w, lookupEntries q s.cache = some w

/-- The definition at `q` is reached from the definition at `p` along `in`
edges. -/
def Reach (h : Heap) (p q : Ptr) : Prop := Relation.ReflTransGen (Edge h) p q

/-- What a resolution started at the definitions `roots` does to the
instances: built values stay, closed instances stay closed, the provider of a
definition that was built is not invoked, and only definitions reached from
the roots are invoked or built. -/
structure Resolves (h : Heap) (roots : List Ptr) (s s' : Instances) : Prop where
  mono : ∀ q v, lookupEntries q s.cache = some v → lookupEntries q s'.cache = some v
  closed : Closed h s → Closed h s'
  kept : ∀ x v, lookupEntries x s.cache = some v → s'.calls.count x = s.calls.count x
  reach : ∀ x, (s'.calls.count x ≠ s.calls.count x ∨
      (lookupEntries x s.cache = none ∧ lookupEntries x s'.cache ≠ none)) →
    ∃ r ∈ roots, Reach h r x

/-- A provider invocation that always fails. -/
def failingInvoke : Invoke := fun _ _ => .error (.new "provider failed")

/-- A provider invocation that returns a value of type `A` whose data is the
number of its arguments. -/
def exampleInvoke : Invoke := fun _ args => .ok { typ := tA, data := args.length }

/-- The heap of the container compiled from `Provide(func() (A, error))`. -/
def heapA : Heap :=
  [{ key := { typ := tA, name := "" }, provider := { resultType := tA, args := [] },
     implements := [], in_ := [] }]

/-- The container compiled from `Provide(func() (A, error))`. -/
def containerA : Container :=
  { init := true,
    providers := [{ provider := funcValue [] [tA, errorInterface], name := "",
                    implements := [] }],
    nodes := some [({ typ := tA, name := "" }, 0)],
    implementations := some [] }

/-- A provider invocation that returns a value of type `A` whose data tells
the address of the definition: 100 more than the address. -/
def addressInvoke : Invoke := fun p _ => .ok { typ := tA, data := 100 + p }

/-- The heap of the container compiled from
`Provide(&A{}, Name("x")), Provide(&A{})`. -/
def heapNamed : Heap :=
  [{ key := { typ := tA, name := "x" }, provider := { resultType := tA, args := [] },
     implements := [], in_ := [] },
   { key := { typ := tA, name := "" }, provider := { resultType := tA, args := [] },
     implements := [], in_ := [] }]

/-- The container compiled from `Provide(&A{}, Name("x")), Provide(&A{})`. -/
def containerNamed : Container :=
  { init := true,
    providers := [{ provider := pointerTo tA, name := "x", implements := [] },
                  { provider := pointerTo tA, name := "", implements := [] }],
    nodes := some [({ typ := tA, name := "x" }, 0), ({ typ := tA, name := "" }, 1)],
    implementations := some [] }

/-! # Theorems -/

/-! ## Association lists -/

section Maps
variable {K V : Type} [DecidableEq K]

theorem lookupEntries_eq_none_iff (k : K) (l : List (K × V)) :
    lookupEntries k l = none ↔ k ∉ l.map Prod.fst := by
  induction l with
  | nil => simp [lookupEntries]
  | cons x rest ih =>
    obtain ⟨k', v⟩ := x
    by_cases hk : k' = k
    · simp [lookupEntries, hk]
    · have hk' : ¬ k = k' := fun e => hk e.symm
      simp [lookupEntries, hk, hk', ih]

theorem mem_of_lookupEntries {k : K} {v : V} {l : List (K × V)}
    (h : lookupEntries k l = some v) : (k, v) ∈ l := by
  induction l with
  | nil => simp [lookupEntries] at h
  | cons x rest ih =>
    obtain ⟨k', v'⟩ := x
    by_cases hk : k' = k
    · simp [lookupEntries, hk] at h
      simp [hk, h]
    · simp [lookupEntries, hk] at h
      exact List.mem_cons_of_mem _ (ih h)

theorem lookupEntries_of_mem {k : K} {v : V} {l : List (K × V)}
    (hnd : (l.map Prod.fst).Nodup) (h : (k, v) ∈ l) : lookupEntries k l = some v := by
  induction l with
  | nil => simp at h
  | cons x rest ih =>
    obtain ⟨k', v'⟩ := x
    simp only [List.map_cons, List.nodup_cons] at hnd
    rcases List.mem_cons.mp h with e | hm
    · cases e
      simp [lookupEntries]
    · have hk : k' ≠ k := by
        intro e
        apply hnd.1
        rw [e]
        exact List.mem_map_of_mem Prod.fst hm
      simp [lookupEntries, hk, ih hnd.2 hm]

theorem setEntries_of_lookup_none {k : K} (v : V) {l : List (K × V)}
    (h : lookupEntries k l = none) : setEntries k v l = l ++ [(k, v)] := by
  induction l with
  | nil => simp [setEntries]
  | cons x rest ih =>
    obtain ⟨k', v'⟩ := x
    by_cases hk : k' = k
    · simp [lookupEntries, hk] at h
    · simp [lookupEntries, hk] at h
      simp [setEntries, hk, ih h]

theorem lookupEntries_setEntries_same (k : K) (v : V) (l : List (K × V)) :
    lookupEntries k (setEntries k v l) = some v := by
  induction l with
  | nil => simp [setEntries, lookupEntries]
  | cons x rest ih =>
    obtain ⟨k', v'⟩ := x
    by_cases hk : k' = k
    · simp [setEntries, lookupEntries, hk]
    · simp [setEntries, lookupEntries, hk, ih]

theorem lookupEntries_setEntries_ne {k k' : K} (v : V) (l : List (K × V)) (hne : k' ≠ k) :
    lookupEntries k' (setEntries k v l) = lookupEntries k' l := by
  induction l with
  | nil => simp [setEntries, lookupEntries, hne.symm]
  | cons x rest ih =>
    obtain ⟨k'', v'⟩ := x
    by_cases hk : k'' = k
    · have : ¬ k = k' := fun e => hne e.symm
      simp [setEntries, lookupEntries, hk, this]
    · by_cases hk2 : k'' = k'
      · subst hk2
        simp [setEntries, lookupEntries, hk]
      · simp [setEntries, lookupEntries, hk, hk2, ih]

theorem lookupEntries_append (k : K) (l l' : List (K × V)) :
    lookupEntries k (l ++ l') = (lookupEntries k l).orElse (fun _ => lookupEntries k l') := by
  induction l with
  | nil => simp [lookupEntries]
  | cons x rest ih =>
    obtain ⟨k', v'⟩ := x
    by_cases hk : k' = k
    · simp [lookupEntries, hk]
    · simp [lookupEntries, hk, ih]

end Maps

/-! ## Lookup (`get`) -/

theorem Container.get_of_node {b : Container} {k : key} {d : Ptr}
    (h : b.nodes.get k = some d) : b.get k = .ok d := by
  simp [Container.get, h]

theorem Container.get_of_no_node {b : Container} {k : key} (h : b.nodes.get k = none) :
    b.get k = match (b.implementations.get k).getD [] with
      | d :: _ => .ok d
      | [] => .error (.new (k.String ++ " not provided yet")) := by
  simp [Container.get, h]

theorem Container.get_ne_panic (b : Container) (k : key) (msg : String) :
    b.get k ≠ .panic msg := by
  unfold Container.get
  split
  · simp
  · split <;> simp

/-- C4. Lookup prefers the node table: with an entry for `k` in the node table
`get k` returns exactly that definition, whatever the binding registry is (the
registry is read only when the node table has no entry, and then its first
element is returned); and `get k` returns an error exactly when the node table
has no entry for `k` and the registry list of `k` is empty or absent. -/
theorem C4_get_prefers_node_table (b : Container) (k : key) :
    (∀ d, b.nodes.get k = some d →
      ∀ impls : GoMap key (List Ptr), ({ b with implementations := impls }).get k = .ok d) ∧
    (b.nodes.get k = none →
      ∀ d rest, (b.implementations.get k).getD [] = d :: rest → b.get k = .ok d) ∧
    ((∃ e, b.get k = .error e) ↔
      (b.nodes.get k = none ∧ (b.implementations.get k).getD [] = [])) := by
  refine ⟨?_, ?_, ?_⟩
  · intro d hd impls
    simp [Container.get, hd]
  · intro hn d rest hl
    simp [Container.get, hn, hl]
  · constructor
    · rintro ⟨e, he⟩
      cases hn : b.nodes.get k with
      | some d => simp [Container.get, hn] at he
      | none =>
        refine ⟨rfl, ?_⟩
        cases hl : (b.implementations.get k).getD [] with
        | nil => rfl
        | cons d rest => simp [Container.get, hn, hl] at he
    · rintro ⟨hn, hl⟩
      exact ⟨.new (k.String ++ " not provided yet"), by simp [Container.get, hn, hl]⟩

/-! ## Options -/

mutual
theorem Option_.apply_eq : ∀ (o : Option_) (b : Container),
    o.apply b = { b with providers := b.providers ++ o.declarations }
  | .Provide provider options, b => by simp [Option_.apply, Option_.declarations]
  | .Package options, b => by
    simp only [Option_.apply, Option_.declarations]
    exact applyAll_eq options b
theorem applyAll_eq : ∀ (os : List Option_) (b : Container),
    applyAll os b = { b with providers := b.providers ++ flattenOptions os }
  | [], b => by simp [applyAll, flattenOptions]
  | o :: rest, b => by
    simp only [applyAll, flattenOptions]
    rw [Option_.apply_eq o b, applyAll_eq rest]
    simp
end

theorem flattenOptions_append (os os' : List Option_) :
    flattenOptions (os ++ os') = flattenOptions os ++ flattenOptions os' := by
  induction os with
  | nil => simp [flattenOptions]
  | cons o rest ih => simp [flattenOptions, ih]

theorem New_eq (env : Env) (options : List Option_) :
    New env options =
      match ({ Container.zero with providers := flattenOptions options }).compile env [] with
      | .panic msg => .panic msg
      | .error err => .error (.withMessage err "could not compile container")
      | .ok r => .ok r := by
  simp only [New, applyAll_eq, Container.zero, List.nil_append]
  split <;> simp_all [returnErr, Wrapf]

/-- C9. Applying options only accumulates declarations: the container after
`applyAll` differs from the one before only by its `providers`, to which the
left-to-right, depth-first flattening of the options is appended (the node
table, the binding registry and the `sync.Once` are untouched); and `New` on a
`Package` group followed by other options is `New` on the members of the group
followed by those options. -/
theorem C9_options_only_accumulate (env : Env) (os rest : List Option_) (b : Container) :
    applyAll os b = { b with providers := b.providers ++ flattenOptions os } ∧
    (applyAll os b).nodes = b.nodes ∧
    (applyAll os b).implementations = b.implementations ∧
    flattenOptions (Option_.Package os :: rest) = flattenOptions (os ++ rest) ∧
    New env (Option_.Package os :: rest) = New env (os ++ rest) := by
  have hflat : flattenOptions (Option_.Package os :: rest) = flattenOptions (os ++ rest) := by
    simp [flattenOptions, Option_.declarations, flattenOptions_append]
  refine ⟨applyAll_eq os b, ?_, ?_, hflat, ?_⟩
  · rw [applyAll_eq]
  · rw [applyAll_eq]
  · rw [New_eq, New_eq, hflat]

/-! ## Building a definition -/

theorem newProvideOptions_foldl (options : List ProvideOption) (po : provideOptions) :
    (options.foldl (fun po opt => opt.call po) po).provider = po.provider ∧
    (options.foldl (fun po opt => opt.call po) po).name =
      ((options.filterMap (fun o => match o with
        | .Name name => some name
        | .As _ => none)).getLast?).getD po.name := by
  induction options generalizing po with
  | nil => simp
  | cons o rest ih =>
    obtain ⟨h1, h2⟩ := ih (o.call po)
    rw [List.foldl_cons, h1, h2]
    cases o with
    | Name name =>
      refine ⟨rfl, ?_⟩
      have hn : (ProvideOption.call (.Name name) po).name = name := rfl
      rw [hn, List.filterMap_cons]
      simp only
      rw [List.getLast?_cons]
      cases List.getLast? (List.filterMap (fun o => match o with
        | .Name name => some name
        | .As _ => none) rest) <;> simp
    | As ifaces =>
      refine ⟨rfl, ?_⟩
      have hn : (ProvideOption.call (.As ifaces) po).name = po.name := rfl
      rw [hn, List.filterMap_cons]

theorem newProvideOptions_provider (provider : Any) (options : List ProvideOption) :
    (newProvideOptions provider options).provider = provider :=
  (newProvideOptions_foldl options _).1

theorem newProvideOptions_name (provider : Any) (options : List ProvideOption) :
    (newProvideOptions provider options).name = lastName options := by
  unfold newProvideOptions lastName
  exact (newProvideOptions_foldl options _).2

/-- The loop over the `As` arguments, when it returns a list, has appended to
`acc` one key per argument, each argument being a pointer to an interface
type that the result type implements. -/
theorem implementsLoop_ok {env : Env} {w : providerWrapper} {ifaces : List Any}
    {acc impls : List key} (h : implementsLoop env w ifaces acc = .ok impls) :
    ∃ ts : List GoType, impls = acc ++ ts.map (fun t => { typ := t, name := "" }) ∧
      List.Forall₂ (fun iface t => isPtrToInterface iface t ∧
        env.Implements w.resultType t = true) ifaces ts := by
  induction ifaces generalizing acc with
  | nil =>
    simp only [implementsLoop, Result.ok.injEq] at h
    exact ⟨[], by simp [h]⟩
  | cons iface rest ih =>
    cases iface with
    | none => simp [implementsLoop, TypeOf] at h
    | some v =>
      obtain ⟨typ, data⟩ := v
      cases typ with
      | ptr elem =>
        simp only [implementsLoop, TypeOf, Option.map_some'] at h
        by_cases hk : elem.Kind = Kind.Interface
        · by_cases hi : env.Implements w.resultType elem = true
          · simp only [hk, ne_eq, not_true_eq_false, ↓reduceIte, hi, Bool.not_true,
              Bool.false_eq_true] at h
            obtain ⟨ts, hts, hall⟩ := ih h
            refine ⟨elem :: ts, by simp [hts], ?_⟩
            exact List.Forall₂.cons ⟨⟨data, rfl, hk⟩, hi⟩ hall
          · simp [hk, hi] at h
        · simp [hk] at h
      | basic n => simp [implementsLoop, TypeOf] at h
      | struct n => simp [implementsLoop, TypeOf] at h
      | iface n => simp [implementsLoop, TypeOf] at h
      | func ps rs => simp [implementsLoop, TypeOf] at h

/-- On arguments that are all pointers to interface types the loop does not
panic: it returns the keys when every interface is implemented, an error
otherwise. -/
theorem implementsLoop_of_pointers (env : Env) (w : providerWrapper) (ifaces : List Any)
    (acc : List key) (hp : ∀ iface ∈ ifaces, ∃ t, isPtrToInterface iface t) :
    ((∀ iface ∈ ifaces, ∀ t, isPtrToInterface iface t → env.Implements w.resultType t = true) →
      ∃ impls, implementsLoop env w ifaces acc = .ok impls) ∧
    ((∃ iface ∈ ifaces, ∃ t, isPtrToInterface iface t ∧ env.Implements w.resultType t = false) →
      ∃ e, implementsLoop env w ifaces acc = .error e) := by
  induction ifaces generalizing acc with
  | nil => simp [implementsLoop]
  | cons iface rest ih =>
    obtain ⟨t, data, rfl, hk⟩ := hp iface (List.mem_cons_self _ _)
    have hrest : ∀ i ∈ rest, ∃ t, isPtrToInterface i t :=
      fun i hi => hp i (List.mem_cons_of_mem _ hi)
    by_cases hi : env.Implements w.resultType t = true
    · have hstep : ∀ acc, implementsLoop env w (some { typ := .ptr t, data := data } :: rest) acc
          = implementsLoop env w rest (acc ++ [{ typ := t, name := "" }]) := by
        intro acc
        simp [implementsLoop, TypeOf, hk, hi]
      rw [hstep]
      obtain ⟨ih1, ih2⟩ := ih (acc ++ [{ typ := t, name := "" }]) hrest
      constructor
      · intro hall
        exact ih1 (fun i hi' t' ht' => hall i (List.mem_cons_of_mem _ hi') t' ht')
      · rintro ⟨i, hmem, t', ht', hf⟩
        rcases List.mem_cons.mp hmem with e | hmem'
        · subst e
          obtain ⟨data', he, _⟩ := ht'
          simp only [Option.some.injEq, Value.mk.injEq, GoType.ptr.injEq] at he
          rw [← he.1, hi] at hf
          exact absurd hf (by simp)
        · exact ih2 ⟨i, hmem', t', ht', hf⟩
    · constructor
      · intro hall
        exact absurd (hall _ (List.mem_cons_self _ _) t ⟨data, rfl, hk⟩) hi
      · intro _
        exact ⟨_, by simp [implementsLoop, TypeOf, hk, hi]; rfl⟩

/-- What a successful `definition` returns. -/
theorem definition_ok {env : Env} {o : provideOptions} {d : definition}
    (h : o.definition env = .ok d) :
    ∃ ptype w impls, TypeOf o.provider = some ptype ∧
      o.switchWrapper env ptype = some (.ok w) ∧
      implementsLoop env w o.implements [] = .ok impls ∧
      d = { key := { typ := w.resultType, name := o.name }, provider := w,
            implements := impls, in_ := [] } := by
  unfold provideOptions.definition at h
  cases ht : TypeOf o.provider with
  | none => simp [ht] at h
  | some ptype =>
    simp only [ht] at h
    cases hs : o.switchWrapper env ptype with
    | none => simp [hs] at h
    | some wrapped =>
      simp only [hs] at h
      cases wrapped with
      | error e => simp [definitionOf] at h
      | ok w =>
        simp only [definitionOf] at h
        cases hl : implementsLoop env w o.implements [] with
        | panic m => simp [hl] at h
        | error e => simp [hl] at h
        | ok impls =>
          simp only [hl, Result.ok.injEq] at h
          exact ⟨ptype, w, impls, rfl, hs, hl, h.symm⟩

theorem definition_ok_in (env : Env) {o : provideOptions} {d : definition}
    (h : o.definition env = .ok d) : d.in_ = [] := by
  obtain ⟨_, _, _, _, _, _, rfl⟩ := definition_ok h
  rfl

/-! ## Registration (`add`) -/

theorem addImplements_some (p : Ptr) (ks : List key) (l : List (key × List Ptr)) :
    addImplements p ks (some l) = some (some (addImplEntries p ks l)) := by
  induction ks generalizing l with
  | nil => rfl
  | cons k ks ih =>
    simp only [addImplements, GoMap.set, GoMap.get, GoMap.entries, Option.getD_some,
      addImplEntries]
    exact ih _

theorem lookup_addImplEntries (p : Ptr) (c : key) (ks : List key) (l : List (key × List Ptr)) :
    (lookupEntries c (addImplEntries p ks l)).getD [] =
      (lookupEntries c l).getD [] ++ (ks.filter (fun k => k = c)).map (fun _ => p) := by
  induction ks generalizing l with
  | nil => simp [addImplEntries]
  | cons k ks ih =>
    rw [addImplEntries, ih]
    by_cases hk : k = c
    · subst hk
      simp [lookupEntries_setEntries_same]
    · have hk' : c ≠ k := fun e => hk e.symm
      simp [lookupEntries_setEntries_ne _ _ hk', hk]

theorem Container.initDo_init (b : Container) : b.initDo.init = true := by
  unfold Container.initDo
  split <;> simp_all

theorem Container.initDo_providers (b : Container) : b.initDo.providers = b.providers := by
  unfold Container.initDo
  split <;> simp_all

/-- The two outcomes of `add` on a container whose maps are allocated once its
`sync.Once` has run: the key is present and nothing changes, or the definition
is stored under its key and listed under each of its capabilities. -/
theorem Container.add_spec {b : Container} {h : Heap} {p : Ptr} {d : definition}
    (hd : h[p]? = some d)
    (hmaps : b.init = true → ∃ ns is, b.nodes = some ns ∧ b.implementations = some is) :
    ∃ ns is, b.initDo.nodes = some ns ∧ b.initDo.implementations = some is ∧
      ((∃ q, lookupEntries d.key ns = some q ∧ b.add h p = .ok b.initDo) ∨
       (lookupEntries d.key ns = none ∧
        b.add h p = .ok { b.initDo with
          nodes := some (ns ++ [(d.key, p)]),
          implementations := some (addImplEntries p d.implements is) })) := by
  have hinit : ∃ ns is, b.initDo.nodes = some ns ∧ b.initDo.implementations = some is := by
    unfold Container.initDo
    by_cases hi : b.init = true
    · simpa [hi] using hmaps hi
    · simp [hi]
  obtain ⟨ns, is, hns, his⟩ := hinit
  refine ⟨ns, is, hns, his, ?_⟩
  cases hl : lookupEntries d.key ns with
  | some q =>
    left
    refine ⟨q, rfl, ?_⟩
    simp [Container.add, hd, hns, GoMap.get, GoMap.entries, hl, returnErr, Wrapf]
  | none =>
    right
    refine ⟨rfl, ?_⟩
    simp [Container.add, hd, hns, his, GoMap.get, GoMap.set, GoMap.entries, hl,
      setEntries_of_lookup_none, addImplements_some]

/-- The duplicate branch of `add` returns a nil error. -/
theorem Container.add_duplicate {b : Container} {h : Heap} {p q : Ptr} {d : definition}
    (hd : h[p]? = some d) (hq : b.initDo.nodes.get d.key = some q) :
    b.add h p = .ok b.initDo := by
  simp [Container.add, hd, hq, returnErr, Wrapf]

theorem flatMap_congr_mem {α β : Type} (l : List α) (f g : α → List β)
    (h : ∀ x ∈ l, f x = g x) : l.flatMap f = l.flatMap g := by
  induction l with
  | nil => rfl
  | cons x rest ih =>
    simp only [List.flatMap_cons]
    rw [h x (List.mem_cons_self _ _), ih (fun y hy => h y (List.mem_cons_of_mem _ hy))]

theorem lt_of_getElem?_eq_some {α : Type} {l : List α} {n : Nat} {a : α}
    (h : l[n]? = some a) : n < l.length := by
  by_contra hlt
  rw [List.getElem?_eq_none (Nat.le_of_not_lt hlt)] at h
  exact absurd h (by simp)

theorem getElem?_append_singleton_some {α : Type} {l : List α} {n : Nat} {a x : α}
    (h : (l ++ [a])[n]? = some x) : (n < l.length ∧ l[n]? = some x) ∨ (n = l.length ∧ x = a) := by
  have hn : n < (l ++ [a]).length := lt_of_getElem?_eq_some h
  rw [List.length_append, List.length_singleton] at hn
  by_cases hlt : n < l.length
  · left
    rw [List.getElem?_append_left hlt] at h
    exact ⟨hlt, h⟩
  · right
    have hne : n = l.length := Nat.le_antisymm (Nat.le_of_lt_succ hn) (Nat.le_of_not_lt hlt)
    subst hne
    simp at h
    exact ⟨rfl, h.symm⟩

theorem RegInv.initDo_maps {env : Env} {done : List provideOptions} {h : Heap} {b : Container}
    (inv : RegInv env done h b) :
    b.initDo.nodes = some b.nodes.entries ∧
    b.initDo.implementations = some b.implementations.entries := by
  unfold Container.initDo
  by_cases hi : b.init = true
  · obtain ⟨ns, is, hns, his⟩ := inv.maps hi
    simp [hi, hns, his, GoMap.entries]
  · have hf : b.init = false := by simpa using hi
    obtain ⟨hns, his⟩ := inv.fresh hf
    simp [hf, hns, his, GoMap.entries]

theorem RegInv.lt_of_node {env : Env} {done : List provideOptions} {h : Heap} {b : Container}
    (inv : RegInv env done h b) {k : key} {p : Ptr} (hk : b.nodes.get k = some p) :
    ∃ d, h[p]? = some d ∧ d.key = k ∧ p < h.length := by
  obtain ⟨d, hd, hkey⟩ := inv.node_valid k p (mem_of_lookupEntries hk)
  exact ⟨d, hd, hkey, lt_of_getElem?_eq_some hd⟩

/-- The registration step on a key that the node table already has: the new
definition is allocated and the container is left as it is. -/
theorem RegInv.step_duplicate {env : Env} {done : List provideOptions} {h : Heap}
    {b : Container} (inv : RegInv env done h b) {po : provideOptions} {d : definition}
    (hpo : po.definition env = .ok d) {q : Ptr} (hq : b.nodes.get d.key = some q) :
    RegInv env (done ++ [po]) (h ++ [d]) b := by
  obtain ⟨dq, hdq, hkq, hqlt⟩ := inv.lt_of_node hq
  have hold : ∀ x, x < h.length → (h ++ [d])[x]? = h[x]? :=
    fun x hx => List.getElem?_append_left hx
  refine ⟨inv.maps, inv.fresh, ?_, ?_, inv.node_nodup, ?_, ?_⟩
  · exact List.rel_append inv.heap_defs (List.Forall₂.cons hpo List.Forall₂.nil)
  · intro k p hm
    obtain ⟨d', hd', hk'⟩ := inv.node_valid k p hm
    exact ⟨d', by rw [hold p (lt_of_getElem?_eq_some hd')]; exact hd', hk'⟩
  · intro x dx hx
    rcases getElem?_append_singleton_some hx with ⟨_, hx'⟩ | ⟨hxe, hdx⟩
    · exact inv.bound x dx hx'
    · subst hxe hdx
      exact ⟨q, Nat.le_of_lt hqlt, hq⟩
  · intro c
    rw [inv.impls c]
    unfold implList
    rw [List.length_append, List.length_singleton, List.range_succ, List.flatMap_append]
    have hnew : Container.registered b (h ++ [d]) h.length = false := by
      simp [Container.registered, hq]
      exact Nat.ne_of_lt hqlt
    simp only [List.flatMap_cons, List.flatMap_nil, hnew, Bool.false_eq_true, ↓reduceIte,
      List.append_nil]
    apply flatMap_congr_mem
    intro x hx
    have hxl : x < h.length := List.mem_range.mp hx
    simp only [Container.registered, hold x hxl]

theorem GoMap.entries_some {K V : Type} (l : List (K × V)) :
    GoMap.entries (some l : GoMap K V) = l := rfl

theorem GoMap.get_some {K V : Type} [DecidableEq K] (l : List (K × V)) (k : K) :
    GoMap.get (some l : GoMap K V) k = lookupEntries k l := rfl

theorem GoMap.get_eq {K V : Type} [DecidableEq K] (m : GoMap K V) (k : K) :
    m.get k = lookupEntries k m.entries := rfl

/-- The registration step on a key that the node table does not have: the new
definition is allocated, stored under its key and listed under each of its
capabilities. -/
theorem RegInv.step_fresh {env : Env} {done : List provideOptions} {h : Heap}
    {b : Container} (inv : RegInv env done h b) {po : provideOptions} {d : definition}
    (hpo : po.definition env = .ok d) (hq : lookupEntries d.key b.nodes.entries = none)
    {b' : Container} (hinit : b'.init = true)
    (hn : b'.nodes = some (b.nodes.entries ++ [(d.key, h.length)]))
    (hi : b'.implementations =
      some (addImplEntries h.length d.implements b.implementations.entries)) :
    RegInv env (done ++ [po]) (h ++ [d]) b' := by
  have hold : ∀ x, x < h.length → (h ++ [d])[x]? = h[x]? :=
    fun x hx => List.getElem?_append_left hx
  have hnewcell : (h ++ [d])[h.length]? = some d := by simp
  have hlook : ∀ k, b'.nodes.get k =
      (lookupEntries k b.nodes.entries).orElse
        (fun _ => if d.key = k then some h.length else none) := by
    intro k
    rw [hn, GoMap.get_some, lookupEntries_append]
    simp [lookupEntries]
  have hreg : ∀ x, x < h.length →
      Container.registered b' (h ++ [d]) x = Container.registered b h x := by
    intro x hx
    simp only [Container.registered, hold x hx]
    cases hc : h[x]? with
    | none => rfl
    | some dx =>
      simp only [hlook, GoMap.get_eq b.nodes]
      rw [decide_eq_decide]
      cases hl : lookupEntries dx.key b.nodes.entries with
      | some y => simp
      | none =>
        have hne : h.length ≠ x := Nat.ne_of_gt hx
        by_cases hk : d.key = dx.key <;> simp [hk, hne]
  refine ⟨?_, ?_, ?_, ?_, ?_, ?_, ?_⟩
  · intro _
    exact ⟨_, _, hn, hi⟩
  · intro hf
    rw [hinit] at hf
    exact absurd hf (by simp)
  · exact List.rel_append inv.heap_defs (List.Forall₂.cons hpo List.Forall₂.nil)
  · intro k p hm
    rw [hn, GoMap.entries_some] at hm
    simp only [List.mem_append, List.mem_singleton, Prod.mk.injEq] at hm
    rcases hm with hm | ⟨rfl, rfl⟩
    · obtain ⟨d', hd', hk'⟩ := inv.node_valid k p hm
      exact ⟨d', by rw [hold p (lt_of_getElem?_eq_some hd')]; exact hd', hk'⟩
    · exact ⟨d, hnewcell, rfl⟩
  · rw [hn, GoMap.entries_some]
    simp only [List.map_append, List.map_cons, List.map_nil]
    rw [List.nodup_append]
    refine ⟨inv.node_nodup, by simp, ?_⟩
    intro k hk hk'
    rw [List.mem_singleton] at hk'
    subst hk'
    exact (lookupEntries_eq_none_iff _ _).mp hq hk
  · intro x dx hx
    rcases getElem?_append_singleton_some hx with ⟨_, hx'⟩ | ⟨hxe, hdx⟩
    · obtain ⟨p, hp, hb⟩ := inv.bound x dx hx'
      refine ⟨p, hp, ?_⟩
      rw [GoMap.get_eq] at hb
      rw [hlook, hb]
      rfl
    · subst hxe hdx
      refine ⟨h.length, Nat.le_refl _, ?_⟩
      rw [hlook, hq]
      simp
  · intro c
    have hold_impl := inv.impls c
    rw [GoMap.get_eq] at hold_impl
    rw [hi, GoMap.get_some, lookup_addImplEntries, hold_impl]
    unfold implList
    rw [List.length_append, List.length_singleton, List.range_succ, List.flatMap_append]
    have hnew : Container.registered b' (h ++ [d]) h.length = true := by
      simp only [Container.registered, hnewcell, hlook, hq]
      simp
    simp only [List.flatMap_cons, List.flatMap_nil, hnew, ↓reduceIte, List.append_nil,
      hnewcell]
    congr 1
    apply flatMap_congr_mem
    intro x hx
    have hxl : x < h.length := List.mem_range.mp hx
    rw [hreg x hxl, hold x hxl]

/-- One iteration of the registration loop keeps the invariant and cannot
fail in `add`. -/
theorem RegInv.step {env : Env} {done : List provideOptions} {h : Heap}
    {b : Container} (inv : RegInv env done h b) {po : provideOptions} {d : definition}
    (hpo : po.definition env = .ok d) :
    ∃ b', b.add (h ++ [d]) h.length = .ok b' ∧ b'.providers = b.providers ∧
      RegInv env (done ++ [po]) (h ++ [d]) b' := by
  have hcell : (h ++ [d])[h.length]? = some d := by simp
  obtain ⟨hns, his⟩ := inv.initDo_maps
  obtain ⟨ns, is, hns', his', hcase⟩ := Container.add_spec hcell inv.maps
  rw [hns] at hns'
  rw [his] at his'
  cases hns'
  cases his'
  rcases hcase with ⟨q, hq, hadd⟩ | ⟨hq, hadd⟩
  · have hinit : b.init = true := by
      by_contra hf
      have hf' : b.init = false := by simpa using hf
      rw [(inv.fresh hf').1] at hq
      simp [GoMap.entries, lookupEntries] at hq
    have hb : b.initDo = b := by simp [Container.initDo, hinit]
    rw [hb] at hadd
    exact ⟨b, hadd, rfl, inv.step_duplicate hpo hq⟩
  · exact ⟨_, hadd, Container.initDo_providers b,
      inv.step_fresh hpo hq (Container.initDo_init b) rfl rfl⟩

/-! ## The registration loop -/

/-- The invariant holds of the empty heap and the zero container, whatever
its declarations. -/
theorem RegInv.zero (env : Env) (pos : List provideOptions) :
    RegInv env [] [] { Container.zero with providers := pos } := by
  refine ⟨?_, ?_, List.Forall₂.nil, ?_, ?_, ?_, ?_⟩
  · intro hi
    simp [Container.zero] at hi
  · intro _
    exact ⟨rfl, rfl⟩
  · intro k p hm
    simp [Container.zero, GoMap.entries] at hm
  · simp [Container.zero, GoMap.entries]
  · intro q d hq
    simp at hq
  · intro c
    simp [Container.zero, GoMap.get, GoMap.entries, lookupEntries, implList]

/-- A registration loop that returns normally ran every declaration through
`definition` and `add`: the invariant holds of the final state for all the
declarations, and the declarations of the container are as before. -/
theorem registerLoop_ok {env : Env} {pos done : List provideOptions} {h h' : Heap}
    {b b' : Container} (inv : RegInv env done h b)
    (hr : registerLoop env pos h b = .ok (h', b')) :
    RegInv env (done ++ pos) h' b' ∧ b'.providers = b.providers := by
  induction pos generalizing done h b with
  | nil =>
    simp only [registerLoop, Result.ok.injEq, Prod.mk.injEq] at hr
    obtain ⟨rfl, rfl⟩ := hr
    exact ⟨by simpa using inv, rfl⟩
  | cons po rest ih =>
    unfold registerLoop at hr
    by_cases hnil : po.provider = none
    · simp [hnil] at hr
    · simp only [hnil, ↓reduceIte] at hr
      cases hdef : po.definition env with
      | panic m => simp [hdef] at hr
      | error e => simp [hdef, returnErr, Wrapf] at hr
      | ok d =>
        obtain ⟨b1, hadd, hprov, inv1⟩ := inv.step hdef
        simp only [hdef, Heap.alloc, hadd] at hr
        obtain ⟨inv', hp'⟩ := ih inv1 hr
        exact ⟨by simpa using inv', hp'.trans hprov⟩

/-- A registration loop never returns normally when a declaration has a nil
provider or a `definition` that does not return a definition. -/
theorem registerLoop_ne_ok {env : Env} {pos : List provideOptions} {po : provideOptions}
    (hmem : po ∈ pos) (hbad : po.provider = none ∨ ∀ d, po.definition env ≠ .ok d)
    (h : Heap) (b : Container) (r : Heap × Container) :
    registerLoop env pos h b ≠ .ok r := by
  induction pos generalizing h b with
  | nil => simp at hmem
  | cons po' rest ih =>
    unfold registerLoop
    by_cases hnil : po'.provider = none
    · simp [hnil]
    · simp only [hnil, ↓reduceIte]
      cases hdef : po'.definition env with
      | panic m => simp
      | error e => simp [returnErr, Wrapf]
      | ok d =>
        simp only [Heap.alloc]
        cases hadd : b.add (h ++ [d]) h.length with
        | panic m => simp
        | error e => simp [returnErr, Wrapf]
        | ok b1 =>
          simp only
          rcases List.mem_cons.mp hmem with e | hmem'
          · subst e
            rcases hbad with hb | hb
            · exact absurd hb hnil
            · exact absurd hdef (hb d)
          · exact ih hmem' _ _

/-- A registration loop in which no `definition` panics returns an error as
soon as a declaration has a nil provider or a failing `definition`. -/
theorem registerLoop_error {env : Env} {pos done : List provideOptions} {h : Heap}
    {b : Container} (inv : RegInv env done h b)
    (hnp : ∀ po ∈ pos, po.provider ≠ none → ∀ m, po.definition env ≠ .panic m)
    {po : provideOptions} (hmem : po ∈ pos)
    (hbad : po.provider = none ∨ ∀ d, po.definition env ≠ .ok d) :
    ∃ e, registerLoop env pos h b = .error e := by
  induction pos generalizing done h b with
  | nil => simp at hmem
  | cons po' rest ih =>
    unfold registerLoop
    by_cases hnil : po'.provider = none
    · exact ⟨.new "could not provide nil", by simp [hnil]⟩
    · simp only [hnil, ↓reduceIte]
      cases hdef : po'.definition env with
      | panic m => exact absurd hdef (hnp po' (List.mem_cons_self _ _) hnil m)
      | error e => exact ⟨.withMessage e "provide failed", by simp [returnErr, Wrapf]⟩
      | ok d =>
        obtain ⟨b1, hadd, _, inv1⟩ := inv.step hdef
        simp only [Heap.alloc, hadd]
        rcases List.mem_cons.mp hmem with e | hmem'
        · subst e
          rcases hbad with hb | hb
          · exact absurd hb hnil
          · exact absurd hdef (hb d)
        · exact ih inv1 (fun p hp => hnp p (List.mem_cons_of_mem _ hp)) hmem'

/-- A registration loop in which every declaration has a provider and a
`definition` that returns a definition returns normally. -/
theorem registerLoop_total {env : Env} {pos done : List provideOptions} {h : Heap}
    {b : Container} (inv : RegInv env done h b)
    (hall : ∀ po ∈ pos, po.provider ≠ none ∧ ∃ d, po.definition env = .ok d) :
    ∃ r, registerLoop env pos h b = .ok r := by
  induction pos generalizing done h b with
  | nil => exact ⟨_, rfl⟩
  | cons po rest ih =>
    obtain ⟨hnil, d, hdef⟩ := hall po (List.mem_cons_self _ _)
    obtain ⟨b1, hadd, _, inv1⟩ := inv.step hdef
    unfold registerLoop
    simp only [hnil, ↓reduceIte, hdef, Heap.alloc, hadd]
    exact ih inv1 (fun p hp => hall p (List.mem_cons_of_mem _ hp))

/-! ## The linking loop -/

theorem set_getElem?_same {α : Type} {l : List α} {n : Nat} {a : α} (h : l[n]? = some a) :
    l.set n a = l := by
  apply List.ext_getElem?
  intro i
  by_cases hi : n = i
  · subst hi
    simp [List.getElem?_set, h, lt_of_getElem?_eq_some h]
  · simp [List.getElem?_set, hi]

theorem map_unlinked_set {h : Heap} {p : Ptr} {d d' : definition} (hd : h[p]? = some d)
    (hs : d'.unlinked = d.unlinked) :
    (h.set p d').map definition.unlinked = h.map definition.unlinked := by
  apply List.ext_getElem?
  intro i
  by_cases hi : p = i
  · subst hi
    rw [List.getElem?_map, List.getElem?_map, hd,
      List.getElem?_set_self (by simpa using lt_of_getElem?_eq_some hd)]
    simp [hs]
  · simp [List.getElem?_set, hi]

theorem getElem?_unlinked {h h' : Heap}
    (hs : h'.map definition.unlinked = h.map definition.unlinked) {p : Ptr} {d : definition}
    (hd : h[p]? = some d) : ∃ d', h'[p]? = some d' ∧ d'.unlinked = d.unlinked := by
  have := congrArg (fun l => l[p]?) hs
  simp only [List.getElem?_map, hd, Option.map_some'] at this
  cases hd' : h'[p]? with
  | none => simp [hd'] at this
  | some d' =>
    simp only [hd', Option.map_some', Option.some.injEq] at this
    exact ⟨d', rfl, this⟩

theorem unlinked_fields {d d' : definition} (hs : d'.unlinked = d.unlinked) :
    d'.key = d.key ∧ d'.provider = d.provider ∧ d'.implements = d.implements := by
  cases d
  cases d'
  simp only [definition.unlinked, definition.mk.injEq] at hs
  exact ⟨hs.1, hs.2.1, hs.2.2.1⟩

/-- The argument loop, when it returns normally, has appended to the `in` of
the definition at `p` the definitions that `get` returns for the keys, in
order, and has changed nothing else. -/
theorem linkArgs_ok {b : Container} {p : Ptr} {ks : List key} {h h' : Heap} {d : definition}
    (hd : h[p]? = some d) (hr : linkArgs b p ks h = .ok h') :
    ∃ qs, h' = h.set p { d with in_ := d.in_ ++ qs } ∧ ks.map b.get = qs.map Result.ok := by
  induction ks generalizing h d with
  | nil =>
    simp only [linkArgs, Result.ok.injEq] at hr
    subst hr
    refine ⟨[], ?_, rfl⟩
    simp only [List.append_nil]
    exact (set_getElem?_same hd).symm
  | cons k ks ih =>
    unfold linkArgs at hr
    cases hg : b.get k with
    | panic m => simp [hg] at hr
    | error e => simp [hg] at hr
    | ok q =>
      simp only [hg, hd] at hr
      have hd1 : (h.set p { d with in_ := d.in_ ++ [q] })[p]? =
          some { d with in_ := d.in_ ++ [q] } := by
        simp [List.getElem?_set, lt_of_getElem?_eq_some hd]
      obtain ⟨qs, hh, hq⟩ := ih hd1 hr
      refine ⟨q :: qs, ?_, by simp [hg, hq]⟩
      rw [hh]
      simp [List.set_set]

/-- The argument loop returns an error when `get` fails for one of the keys,
and never panics on a valid address. -/
theorem linkArgs_result {b : Container} {p : Ptr} (ks : List key) {h : Heap} {d : definition}
    (hd : h[p]? = some d) :
    (∃ h', linkArgs b p ks h = .ok h') ∨ (∃ e, linkArgs b p ks h = .error e) := by
  induction ks generalizing h d with
  | nil => exact Or.inl ⟨h, rfl⟩
  | cons k ks ih =>
    unfold linkArgs
    cases hg : b.get k with
    | panic m => exact absurd hg (Container.get_ne_panic b k m)
    | error e => exact Or.inr ⟨.withStack e, rfl⟩
    | ok q =>
      simp only [hd]
      have hd1 : (h.set p { d with in_ := d.in_ ++ [q] })[p]? =
          some { d with in_ := d.in_ ++ [q] } := by
        simp [List.getElem?_set, lt_of_getElem?_eq_some hd]
      exact ih hd1

theorem linkArgs_unlinked {b : Container} {p : Ptr} {ks : List key} {h h' : Heap}
    {d : definition} (hd : h[p]? = some d) (hr : linkArgs b p ks h = .ok h') :
    h'.map definition.unlinked = h.map definition.unlinked := by
  obtain ⟨qs, rfl, _⟩ := linkArgs_ok hd hr
  exact map_unlinked_set hd rfl

/-- Linking changes nothing of a definition but its `in`. -/
theorem linkLoop_unlinked {b : Container} {vs : List (key × Ptr)} {h h' : Heap}
    (hr : linkLoop b vs h = .ok h') :
    h'.map definition.unlinked = h.map definition.unlinked := by
  induction vs generalizing h with
  | nil =>
    simp only [linkLoop, Result.ok.injEq] at hr
    rw [hr]
  | cons kp rest ih =>
    obtain ⟨k, p⟩ := kp
    unfold linkLoop at hr
    cases hd : h[p]? with
    | none => simp [hd] at hr
    | some d =>
      simp only [hd] at hr
      cases hl : linkArgs b p d.provider.args h with
      | panic m => simp [hl] at hr
      | error e => simp [hl] at hr
      | ok h1 =>
        simp only [hl] at hr
        exact (ih hr).trans (linkArgs_unlinked hd hl)

/-- A linking loop that returns normally resolved every argument key of every
definition it visited. -/
theorem linkLoop_resolved {b : Container} {vs : List (key × Ptr)} {h h' : Heap}
    (hr : linkLoop b vs h = .ok h') {k : key} {p : Ptr} (hmem : (k, p) ∈ vs)
    {d : definition} (hd : h[p]? = some d) {a : key} (ha : a ∈ d.provider.args) :
    ∃ q, b.get a = .ok q := by
  induction vs generalizing h d with
  | nil => simp at hmem
  | cons kp rest ih =>
    obtain ⟨k', p'⟩ := kp
    unfold linkLoop at hr
    cases hd' : h[p']? with
    | none => simp [hd'] at hr
    | some d' =>
      simp only [hd'] at hr
      cases hl : linkArgs b p' d'.provider.args h with
      | panic m => simp [hl] at hr
      | error e => simp [hl] at hr
      | ok h1 =>
        simp only [hl] at hr
        rcases List.mem_cons.mp hmem with e | hmem'
        · simp only [Prod.mk.injEq] at e
          obtain ⟨_, rfl⟩ := e
          rw [hd] at hd'
          cases hd'
          obtain ⟨qs, _, hq⟩ := linkArgs_ok hd hl
          have hmap : b.get a ∈ d.provider.args.map b.get := List.mem_map_of_mem _ ha
          rw [hq] at hmap
          obtain ⟨q, _, hq'⟩ := List.mem_map.mp hmap
          exact ⟨q, hq'.symm⟩
        · obtain ⟨d1, hd1, hs⟩ := getElem?_unlinked (linkArgs_unlinked hd' hl) hd
          have hprov : d1.provider = d.provider := (unlinked_fields hs).2.1
          exact ih hr hmem' hd1 (by rw [hprov]; exact ha)

/-- On valid addresses the linking loop returns, normally or with an error. -/
theorem linkLoop_result {b : Container} (vs : List (key × Ptr)) {h : Heap}
    (hv : ∀ kp ∈ vs, kp.2 < h.length) :
    (∃ h', linkLoop b vs h = .ok h') ∨ (∃ e, linkLoop b vs h = .error e) := by
  induction vs generalizing h with
  | nil => exact Or.inl ⟨h, rfl⟩
  | cons kp rest ih =>
    obtain ⟨k, p⟩ := kp
    have hp : p < h.length := hv (k, p) (List.mem_cons_self _ _)
    have hd : h[p]? = some h[p] := List.getElem?_eq_getElem hp
    unfold linkLoop
    simp only [hd]
    rcases linkArgs_result (b := b) h[p].provider.args hd with ⟨h1, hl⟩ | ⟨e, hl⟩
    · simp only [hl]
      have hlen : h1.length = h.length := by
        have := congrArg List.length (linkArgs_unlinked hd hl)
        simpa using this
      exact ih (fun kp hkp => by rw [hlen]; exact hv kp (List.mem_cons_of_mem _ hkp))
    · exact Or.inr ⟨e, by simp only [hl]⟩

/-- A linking loop over distinct addresses, when it returns normally, has
filled the `in` of each visited definition once, with what `get` returns for
its argument keys, and has left the other definitions as they were. -/
theorem linkLoop_ok {b : Container} {vs : List (key × Ptr)} {h h' : Heap}
    (hnd : (vs.map Prod.snd).Nodup) (hr : linkLoop b vs h = .ok h') :
    (∀ p, p ∉ vs.map Prod.snd → h'[p]? = h[p]?) ∧
    (∀ kp ∈ vs, ∃ d qs, h[kp.2]? = some d ∧
      h'[kp.2]? = some { d with in_ := d.in_ ++ qs } ∧
      d.provider.args.map b.get = qs.map Result.ok) := by
  induction vs generalizing h with
  | nil =>
    simp only [linkLoop, Result.ok.injEq] at hr
    subst hr
    simp
  | cons kp rest ih =>
    obtain ⟨k, p⟩ := kp
    simp only [List.map_cons, List.nodup_cons] at hnd
    unfold linkLoop at hr
    cases hd : h[p]? with
    | none => simp [hd] at hr
    | some d =>
      simp only [hd] at hr
      cases hl : linkArgs b p d.provider.args h with
      | panic m => simp [hl] at hr
      | error e => simp [hl] at hr
      | ok h1 =>
        simp only [hl] at hr
        obtain ⟨qs, hh1, hq⟩ := linkArgs_ok hd hl
        obtain ⟨ih1, ih2⟩ := ih hnd.2 hr
        have hother : ∀ x, x ≠ p → h1[x]? = h[x]? := by
          intro x hx
          rw [hh1, List.getElem?_set_ne (fun e => hx e.symm)]
        have hself : h1[p]? = some { d with in_ := d.in_ ++ qs } := by
          rw [hh1, List.getElem?_set_self (lt_of_getElem?_eq_some hd)]
        constructor
        · intro x hx
          simp only [List.map_cons, List.mem_cons, not_or] at hx
          rw [ih1 x hx.2, hother x hx.1]
        · intro kp hkp
          rcases List.mem_cons.mp hkp with e | hmem
          · subst e
            exact ⟨d, qs, hd, by rw [ih1 p hnd.1, hself], hq⟩
          · have hne : kp.2 ≠ p := by
              intro e
              apply hnd.1
              rw [← e]
              exact List.mem_map_of_mem _ hmem
            obtain ⟨d', qs', hd', hd'', hq'⟩ := ih2 kp hmem
            rw [hother kp.2 hne] at hd'
            exact ⟨d', qs', hd', hd'', hq'⟩

/-! ## `compile` and `New` -/

/-- A `New` that returns a container ran the two loops of `compile` to their
ends on the flattened declarations. -/
theorem New_ok {env : Env} {options : List Option_} {h : Heap} {b : Container}
    (hr : New env options = .ok (h, b)) :
    ∃ h0, registerLoop env (flattenOptions options) []
        { Container.zero with providers := flattenOptions options } = .ok (h0, b) ∧
      linkLoop b (env.rangeNodes b.nodes.entries) h0 = .ok h := by
  rw [New_eq] at hr
  unfold Container.compile at hr
  simp only at hr
  cases hreg : registerLoop env (flattenOptions options) []
      { Container.zero with providers := flattenOptions options } with
  | panic m => simp [hreg] at hr
  | error e => simp [hreg] at hr
  | ok r =>
    obtain ⟨h0, b0⟩ := r
    simp only [hreg] at hr
    cases hl : linkLoop b0 (env.rangeNodes b0.nodes.entries) h0 with
    | panic m => simp [hl] at hr
    | error e => simp [hl] at hr
    | ok h1 =>
      simp only [hl, Result.ok.injEq, Prod.mk.injEq] at hr
      obtain ⟨rfl, rfl⟩ := hr
      exact ⟨h0, rfl, hl⟩

/-! ## The compiled container -/

theorem forall₂_getElem?_right {α β : Type} {R : α → β → Prop} {l : List α} {l' : List β}
    (hf : List.Forall₂ R l l') {i : Nat} {y : β} (hy : l'[i]? = some y) :
    ∃ x, l[i]? = some x ∧ R x y := by
  induction hf generalizing i with
  | nil => simp at hy
  | cons hr _ ih =>
    cases i with
    | zero =>
      simp only [List.getElem?_cons_zero, Option.some.injEq] at hy
      subst hy
      exact ⟨_, by simp, hr⟩
    | succ n =>
      simp only [List.getElem?_cons_succ] at hy
      obtain ⟨x, hx, hxy⟩ := ih hy
      exact ⟨x, by simpa using hx, hxy⟩

theorem forall₂_getElem?_left {α β : Type} {R : α → β → Prop} {l : List α} {l' : List β}
    (hf : List.Forall₂ R l l') {i : Nat} {x : α} (hx : l[i]? = some x) :
    ∃ y, l'[i]? = some y ∧ R x y := by
  induction hf generalizing i with
  | nil => simp at hx
  | cons hr _ ih =>
    cases i with
    | zero =>
      simp only [List.getElem?_cons_zero, Option.some.injEq] at hx
      subst hx
      exact ⟨_, by simp, hr⟩
    | succ n =>
      simp only [List.getElem?_cons_succ] at hx
      obtain ⟨y, hy, hxy⟩ := ih hx
      exact ⟨y, by simpa using hy, hxy⟩

/-- The state in which a `New` that returns a container left the registration
loop. -/
theorem New_ok_inv {env : Env} {options : List Option_} {h : Heap} {b : Container}
    (hr : New env options = .ok (h, b)) :
    ∃ h0, RegInv env (flattenOptions options) h0 b ∧
      linkLoop b (env.rangeNodes b.nodes.entries) h0 = .ok h := by
  obtain ⟨h0, hreg, hl⟩ := New_ok hr
  have inv := (registerLoop_ok (RegInv.zero env (flattenOptions options)) hreg).1
  exact ⟨h0, by simpa using inv, hl⟩

/-- The addresses of the node table are distinct. -/
theorem RegInv.nodup_addresses {env : Env} {done : List provideOptions} {h : Heap}
    {b : Container} (inv : RegInv env done h b) : (b.nodes.entries.map Prod.snd).Nodup := by
  have hnd : b.nodes.entries.Nodup := List.Nodup.of_map _ inv.node_nodup
  refine List.Nodup.map_on ?_ hnd
  rintro ⟨k, p⟩ hx ⟨k', p'⟩ hy hxy
  simp only at hxy
  subst hxy
  obtain ⟨d, hd, hk⟩ := inv.node_valid k p hx
  obtain ⟨d', hd', hk'⟩ := inv.node_valid k' p hy
  rw [hd] at hd'
  cases hd'
  rw [← hk, ← hk']

/-- C2. Fail-fast linking: when the registration loop of `New` succeeds and a
definition of the node table has an argument key that is neither a key of the
node table nor a key with a non-empty list in the binding registry, `New`
returns an error (and so no container). -/
theorem C2_unresolvable_argument_fails (env : Env) (hrange : env.RangeOk)
    (options : List Option_) (h0 : Heap) (b : Container)
    (hreg : registerLoop env (applyAll options Container.zero).providers []
      (applyAll options Container.zero) = .ok (h0, b))
    (k : key) (p : Ptr) (d : definition) (a : key)
    (hnode : b.nodes.get k = some p) (hd : h0[p]? = some d) (ha : a ∈ d.provider.args)
    (hno : b.nodes.get a = none) (himpl : (b.implementations.get a).getD [] = []) :
    ∃ e, New env options = .error e := by
  have happ : applyAll options Container.zero =
      { Container.zero with providers := flattenOptions options } := by
    rw [applyAll_eq]
    simp [Container.zero]
  have hreg' := hreg
  rw [happ] at hreg'
  have inv := (registerLoop_ok (RegInv.zero env (flattenOptions options)) hreg').1
  have hperm := hrange b.nodes.entries
  have hvalid : ∀ kp ∈ env.rangeNodes b.nodes.entries, kp.2 < h0.length := by
    intro kp hkp
    obtain ⟨d', hd', _⟩ := inv.node_valid kp.1 kp.2 (hperm.mem_iff.mp hkp)
    exact lt_of_getElem?_eq_some hd'
  have hmem : (k, p) ∈ env.rangeNodes b.nodes.entries :=
    hperm.mem_iff.mpr (mem_of_lookupEntries hnode)
  have hcompile : ∃ e, (applyAll options Container.zero).compile env [] = .error e := by
    unfold Container.compile
    simp only [hreg]
    rcases linkLoop_result (b := b) _ hvalid with ⟨h', hl⟩ | ⟨e, hl⟩
    · obtain ⟨q, hq⟩ := linkLoop_resolved hl hmem hd ha
      have : b.get a = .error (.new (a.String ++ " not provided yet")) := by
        simp [Container.get, hno, himpl]
      rw [this] at hq
      exact absurd hq (by simp)
    · exact ⟨e, by simp only [hl]⟩
  obtain ⟨e, he⟩ := hcompile
  exact ⟨.withMessage e "could not compile container", by simp [New, he, returnErr, Wrapf]⟩

/-- C5. A container that `New` returns is fully linked: for every definition
of its node table, the `in` list has one entry per argument key of the
provider, and the entry at each index is the definition that `get` returns for
the key at that index on the final node table and binding registry. -/
theorem C5_compiled_container_fully_linked (env : Env) (hrange : env.RangeOk)
    (options : List Option_) (h : Heap) (b : Container)
    (hnew : New env options = .ok (h, b)) (k : key) (p : Ptr)
    (hnode : b.nodes.get k = some p) :
    ∃ d, h[p]? = some d ∧ d.key = k ∧
      d.in_.length = d.provider.args.length ∧
      d.provider.args.map b.get = d.in_.map Result.ok := by
  obtain ⟨h0, inv, hl⟩ := New_ok_inv hnew
  have hperm := hrange b.nodes.entries
  have hnd : ((env.rangeNodes b.nodes.entries).map Prod.snd).Nodup :=
    (hperm.map Prod.snd).nodup_iff.mpr inv.nodup_addresses
  have hmem : (k, p) ∈ env.rangeNodes b.nodes.entries :=
    hperm.mem_iff.mpr (mem_of_lookupEntries hnode)
  obtain ⟨d0, qs, hd0, hd, hq⟩ := (linkLoop_ok hnd hl).2 (k, p) hmem
  obtain ⟨po, _, hpo⟩ := forall₂_getElem?_right inv.heap_defs hd0
  have hin : d0.in_ = [] := definition_ok_in env hpo
  obtain ⟨d', hd', hk'⟩ := inv.node_valid k p (mem_of_lookupEntries hnode)
  rw [hd0] at hd'
  cases hd'
  refine ⟨_, hd, hk', ?_, ?_⟩
  · have := congrArg List.length hq
    simp only [List.length_map] at this
    simp [hin, this]
  · simp only [hin, List.nil_append]
    exact hq

theorem specEnv_rangeOk (satisfies : List (GoType × GoType)) : (specEnv satisfies).RangeOk :=
  fun l => List.Perm.refl l

/-- C4, on a container whose node table and binding registry both have the
key: the node wins. -/
theorem C4_get_prefers_node_table_witness :
    ({ init := true, providers := [],
       nodes := some [({ typ := tLogger, name := "" }, 7)],
       implementations := some [({ typ := tLogger, name := "" }, [3])] } : Container).get
      { typ := tLogger, name := "" } = .ok 7 :=
  (C4_get_prefers_node_table
    { init := true, providers := [],
      nodes := some [({ typ := tLogger, name := "" }, 7)],
      implementations := some [({ typ := tLogger, name := "" }, [3])] }
    { typ := tLogger, name := "" }).1 7 (by decide)
    (some [({ typ := tLogger, name := "" }, [3])])

/-- C2, on `New(Provide(func(B) A))`: the argument `B` has no provider. -/
theorem C2_unresolvable_argument_fails_witness :
    ∃ e, New exampleEnv [.Provide (funcValue [tB] [tA]) []] = .error e :=
  C2_unresolvable_argument_fails exampleEnv (specEnv_rangeOk _)
    [.Provide (funcValue [tB] [tA]) []]
    [{ key := { typ := tA, name := "" },
       provider := { resultType := tA, args := [{ typ := tB, name := "" }] },
       implements := [], in_ := [] }]
    { init := true,
      providers := [{ provider := funcValue [tB] [tA], name := "", implements := [] }],
      nodes := some [({ typ := tA, name := "" }, 0)],
      implementations := some [] }
    (by decide) { typ := tA, name := "" } 0
    { key := { typ := tA, name := "" },
      provider := { resultType := tA, args := [{ typ := tB, name := "" }] },
      implements := [], in_ := [] }
    { typ := tB, name := "" } (by decide) (by decide) (by decide) (by decide) (by decide)

/-- C5, on `New(Provide(&A{}), Provide(func(A) B))`. -/
theorem C5_compiled_container_fully_linked_witness :
    ∃ d, ([{ key := { typ := tA, name := "" }, provider := { resultType := tA, args := [] },
             implements := [], in_ := [] },
           { key := { typ := tB, name := "" },
             provider := { resultType := tB, args := [{ typ := tA, name := "" }] },
             implements := [], in_ := [0] }] : Heap)[1]? = some d ∧
      d.key = { typ := tB, name := "" } ∧
      d.in_.length = d.provider.args.length ∧
      d.provider.args.map
        ({ init := true,
           providers := [{ provider := pointerTo tA, name := "", implements := [] },
                         { provider := funcValue [tA] [tB], name := "", implements := [] }],
           nodes := some [({ typ := tA, name := "" }, 0), ({ typ := tB, name := "" }, 1)],
           implementations := some [] } : Container).get = d.in_.map Result.ok :=
  C5_compiled_container_fully_linked exampleEnv (specEnv_rangeOk _)
    [.Provide (pointerTo tA) [], .Provide (funcValue [tA] [tB]) []] _ _ (by decide)
    { typ := tB, name := "" } 1 (by decide)

/-! ## The first implementer -/

theorem registered_of_unlinked {b : Container} {h h' : Heap}
    (hs : h'.map definition.unlinked = h.map definition.unlinked) (q : Ptr) :
    b.registered h' q = b.registered h q := by
  unfold Container.registered
  cases hd : h[q]? with
  | none =>
    have : h'[q]? = none := by
      have := congrArg (fun l => l[q]?) hs
      simpa [List.getElem?_map, hd] using this
    rw [this]
  | some d =>
    obtain ⟨d', hd', hu⟩ := getElem?_unlinked hs hd
    rw [hd']
    simp only [(unlinked_fields hu).1]

theorem declares_of_unlinked {h h' : Heap}
    (hs : h'.map definition.unlinked = h.map definition.unlinked) (c : key) (q : Ptr) :
    declares h' c q = declares h c q := by
  unfold declares
  cases hd : h[q]? with
  | none =>
    have : h'[q]? = none := by
      have := congrArg (fun l => l[q]?) hs
      simpa [List.getElem?_map, hd] using this
    rw [this]
  | some d =>
    obtain ⟨d', hd', hu⟩ := getElem?_unlinked hs hd
    rw [hd']
    simp only [(unlinked_fields hu).2.2]

theorem implementers_of_unlinked {b : Container} {h h' : Heap}
    (hs : h'.map definition.unlinked = h.map definition.unlinked) (c : key) :
    implementers h' b c = implementers h b c := by
  unfold implementers
  have hlen : h'.length = h.length := by simpa using congrArg List.length hs
  rw [hlen]
  apply List.filter_congr
  intro q _
  rw [registered_of_unlinked hs, declares_of_unlinked hs]

theorem head?_flatMap_filter {l : List Ptr} {f : Ptr → List Ptr} {pred : Ptr → Bool}
    (hnone : ∀ q, pred q = false → f q = [])
    (hsome : ∀ q, pred q = true → (f q).head? = some q) :
    (l.flatMap f).head? = (l.filter pred).head? := by
  induction l with
  | nil => rfl
  | cons x rest ih =>
    rw [List.flatMap_cons]
    cases hp : pred x with
    | false => simp [hnone x hp, hp, ih]
    | true =>
      have hx := hsome x hp
      cases hf : f x with
      | nil => simp [hf] at hx
      | cons y ys =>
        simp only [hf, List.head?_cons, Option.some.injEq] at hx
        simp [hp, hx]

/-- The registry list of `c` starts with the first registered definition that
declares `c`. -/
theorem head?_implList (h : Heap) (b : Container) (c : key) :
    (implList h b c).head? = (implementers h b c).head? := by
  unfold implList implementers
  apply head?_flatMap_filter
  · intro q hq
    simp only [Bool.and_eq_false_iff] at hq
    rcases hq with hq | hq
    · simp [hq]
    · unfold declares at hq
      cases hd : h[q]? with
      | none => simp
      | some d =>
        simp only [hd, decide_eq_false_iff_not] at hq
        have : d.implements.filter (fun k => decide (k = c)) = [] := by
          rw [List.filter_eq_nil_iff]
          intro k hk
          simp only [decide_eq_true_eq]
          intro e
          exact hq (e ▸ hk)
        simp [this]
  · intro q hq
    simp only [Bool.and_eq_true] at hq
    obtain ⟨hreg, hdec⟩ := hq
    unfold declares at hdec
    cases hd : h[q]? with
    | none => simp [hd] at hdec
    | some d =>
      simp only [hd, decide_eq_true_eq] at hdec
      simp only [hreg, ↓reduceIte]
      cases hf : d.implements.filter (fun k => decide (k = c)) with
      | nil =>
        rw [List.filter_eq_nil_iff] at hf
        exact absurd (hf c hdec) (by simp)
      | cons y ys => simp

theorem implementers_head_le {h : Heap} {b : Container} {c : key} {p : Ptr}
    (hp : (implementers h b c).head? = some p) : ∀ q ∈ implementers h b c, p ≤ q := by
  have hpw : (implementers h b c).Pairwise (fun x y => x < y) :=
    List.Pairwise.sublist (List.filter_sublist _) (List.pairwise_lt_range _)
  intro q hq
  cases hl : implementers h b c with
  | nil => simp [hl] at hq
  | cons x rest =>
    rw [hl] at hp hq hpw
    simp only [List.head?_cons, Option.some.injEq] at hp
    subst hp
    rcases List.mem_cons.mp hq with e | hm
    · exact Nat.le_of_eq e.symm
    · exact Nat.le_of_lt ((List.pairwise_cons.mp hpw).1 q hm)

/-- In a container that `New` returns, the address `q` holds the definition of
the declaration at position `q` of the flattened options: the order of the
addresses is the order of the declarations. -/
theorem New_ok_declaration {env : Env} {options : List Option_} {h : Heap} {b : Container}
    (hnew : New env options = .ok (h, b)) {q : Nat} {po : provideOptions}
    (hpo : (flattenOptions options)[q]? = some po) :
    ∃ d, po.definition env = .ok d ∧ (h[q]?).map definition.unlinked = some d := by
  obtain ⟨h0, inv, hl⟩ := New_ok_inv hnew
  obtain ⟨d, hd, hdef⟩ := forall₂_getElem?_left inv.heap_defs hpo
  obtain ⟨d', hd', hu⟩ := getElem?_unlinked (linkLoop_unlinked hl) hd
  refine ⟨d, hdef, ?_⟩
  rw [hd', Option.map_some', hu]
  have hin := definition_ok_in env hdef
  cases d
  simp only at hin
  simp [definition.unlinked, hin]

/-- C3. Deterministic tie-break: in a container that `New` returns, for a
capability key `c` that is not a key of the node table and that two or more
registered definitions declare, `get c` returns the first of them in the order
of the declarations (the least address, the address `q` holding the definition
of the declaration at position `q`). `get` reads the container and does not
change it, so every call returns this definition. -/
theorem C3_first_registered_implementer (env : Env) (options : List Option_) (h : Heap)
    (b : Container) (hnew : New env options = .ok (h, b)) (c : key)
    (hc : b.nodes.get c = none) (hN : 2 ≤ (implementers h b c).length) :
    ∃ p, b.get c = .ok p ∧ (implementers h b c).head? = some p ∧
      (∀ q ∈ implementers h b c, p ≤ q) ∧
      (∀ (q : Nat) (po : provideOptions), (flattenOptions options)[q]? = some po →
        ∃ d, po.definition env = .ok d ∧ (h[q]?).map definition.unlinked = some d) := by
  obtain ⟨h0, inv, hl⟩ := New_ok_inv hnew
  have hs := linkLoop_unlinked hl
  cases himp : implementers h b c with
  | nil => simp [himp] at hN
  | cons p rest =>
    have hhead : (implementers h b c).head? = some p := by simp [himp]
    refine ⟨p, ?_, by simp, ?_, fun q po hpo => New_ok_declaration hnew hpo⟩
    · have hlist : (implList h0 b c).head? = some p := by
        rw [head?_implList, ← implementers_of_unlinked hs, hhead]
      rw [Container.get_of_no_node hc, inv.impls c]
      cases hil : implList h0 b c with
      | nil => simp [hil] at hlist
      | cons x xs =>
        simp only [hil, List.head?_cons, Option.some.injEq] at hlist
        simp [hlist]
    · rw [← himp]
      exact implementers_head_le hhead

/-- C3, on `New(Provide(&A{}, As(new(Logger))), Provide(&B{}, As(new(Logger))))`:
`get` returns the definition of `A`. -/
theorem C3_first_registered_implementer_witness :
    ∃ p, ({ init := true,
            providers := [{ provider := pointerTo tA, name := "",
                            implements := [pointerTo tLogger] },
                          { provider := pointerTo tB, name := "",
                            implements := [pointerTo tLogger] }],
            nodes := some [({ typ := tA, name := "" }, 0), ({ typ := tB, name := "" }, 1)],
            implementations := some [({ typ := tLogger, name := "" }, [0, 1])] } : Container).get
          { typ := tLogger, name := "" } = .ok p ∧ p = 0 := by
  obtain ⟨p, hget, hhead, _, _⟩ := C3_first_registered_implementer loggerEnv
    [.Provide (pointerTo tA) [.As [pointerTo tLogger]],
     .Provide (pointerTo tB) [.As [pointerTo tLogger]]]
    [{ key := { typ := tA, name := "" }, provider := { resultType := tA, args := [] },
       implements := [{ typ := tLogger, name := "" }], in_ := [] },
     { key := { typ := tB, name := "" }, provider := { resultType := tB, args := [] },
       implements := [{ typ := tLogger, name := "" }], in_ := [] }]
    { init := true,
      providers := [{ provider := pointerTo tA, name := "", implements := [pointerTo tLogger] },
                    { provider := pointerTo tB, name := "", implements := [pointerTo tLogger] }],
      nodes := some [({ typ := tA, name := "" }, 0), ({ typ := tB, name := "" }, 1)],
      implementations := some [({ typ := tLogger, name := "" }, [0, 1])] }
    (by decide) { typ := tLogger, name := "" } (by decide) (by decide)
  refine ⟨p, hget, ?_⟩
  have : (some p : Option Ptr) = some 0 := by
    rw [← hhead]
    decide
  exact Option.some.inj this

/-! ## Failures of `definition` -/

/-- The loop over the `As` arguments panics only on a nil argument. -/
theorem implementsLoop_ne_panic (env : Env) (w : providerWrapper) (ifaces : List Any)
    (acc : List key) (hnn : ∀ i ∈ ifaces, i ≠ none) (msg : String) :
    implementsLoop env w ifaces acc ≠ .panic msg := by
  induction ifaces generalizing acc with
  | nil => simp [implementsLoop]
  | cons iface rest ih =>
    have hrest : ∀ i ∈ rest, i ≠ none := fun i hi => hnn i (List.mem_cons_of_mem _ hi)
    cases iface with
    | none => exact absurd rfl (hnn none (List.mem_cons_self _ _))
    | some v =>
      obtain ⟨typ, data⟩ := v
      cases typ with
      | ptr elem =>
        simp only [implementsLoop, TypeOf, Option.map_some']
        by_cases hk : elem.Kind = Kind.Interface
        · by_cases hi : env.Implements w.resultType elem = true
          · simp only [hk, ne_eq, not_true_eq_false, ↓reduceIte, hi, Bool.not_true,
              Bool.false_eq_true]
            exact ih _ hrest
          · simp [hk, hi]
        · simp [hk]
      | basic n => simp [implementsLoop, TypeOf]
      | struct n => simp [implementsLoop, TypeOf]
      | iface n => simp [implementsLoop, TypeOf]
      | func ps rs => simp [implementsLoop, TypeOf]

/-- The method `definition` panics only on a nil provider or a nil `As`
argument. -/
theorem definition_ne_panic (env : Env) (o : provideOptions) (hp : o.provider ≠ none)
    (hnn : ∀ i ∈ o.implements, i ≠ none) (msg : String) :
    o.definition env ≠ .panic msg := by
  unfold provideOptions.definition
  cases hv : o.provider with
  | none => exact absurd hv hp
  | some v =>
    simp only [TypeOf, Option.map_some']
    cases hs : o.switchWrapper env v.typ with
    | none => simp
    | some wrapped =>
      simp only
      cases wrapped with
      | error e => simp [definitionOf]
      | ok w =>
        simp only [definitionOf]
        have := implementsLoop_ne_panic env w o.implements [] hnn
        cases hl : implementsLoop env w o.implements [] with
        | panic m => exact absurd hl (this m)
        | error e => simp
        | ok impls => simp

/-- The loop over the `As` arguments rejects a non-nil argument that is not a
pointer to an interface type, once the arguments before it have passed. -/
theorem implementsLoop_invalid_argument (env : Env) (w : providerWrapper)
    (pre post : List Any) (v : Value) (acc : List key)
    (hpre : ∀ i ∈ pre, ∃ t, isPtrToInterface i t ∧ env.Implements w.resultType t = true)
    (hv : ∀ t, v.typ = .ptr t → t.Kind ≠ Kind.Interface) :
    implementsLoop env w (pre ++ some v :: post) acc =
      .error (.new ("argument for As() must be pointer to interface type, got "
        ++ v.typ.String)) := by
  induction pre generalizing acc with
  | nil =>
    obtain ⟨typ, data⟩ := v
    cases typ with
    | ptr elem =>
      have := hv elem rfl
      simp [implementsLoop, TypeOf, this]
    | basic n => simp [implementsLoop, TypeOf]
    | struct n => simp [implementsLoop, TypeOf]
    | iface n => simp [implementsLoop, TypeOf]
    | func ps rs => simp [implementsLoop, TypeOf]
  | cons i rest ih =>
    obtain ⟨t, ⟨data, rfl, hk⟩, hi⟩ := hpre i (List.mem_cons_self _ _)
    simp only [List.cons_append, implementsLoop, TypeOf, Option.map_some', hk, ne_eq,
      not_true_eq_false, ↓reduceIte, hi, Bool.not_true, Bool.false_eq_true]
    exact ih _ (fun j hj => hpre j (List.mem_cons_of_mem _ hj))

/-- The `switch` of `definition` sends a function to `newFuncProvider`, a
pointer to a struct to `newStructProvider`, and nothing else to a wrapper. -/
theorem switchWrapper_dispatch (env : Env) (o : provideOptions) (ptype : GoType) :
    (ptype.Kind = Kind.Func → o.switchWrapper env ptype = some (env.newFuncProvider o.provider)) ∧
    ((∃ elem, ptype = .ptr elem ∧ elem.Kind = Kind.Struct) →
      o.switchWrapper env ptype = some (env.newStructProvider o.provider)) ∧
    (ptype.Kind ≠ Kind.Func → (∀ elem, ptype = .ptr elem → elem.Kind ≠ Kind.Struct) →
      o.switchWrapper env ptype = none) := by
  refine ⟨?_, ?_, ?_⟩
  · intro hk
    simp [provideOptions.switchWrapper, hk]
  · rintro ⟨elem, rfl, hk⟩
    have hptr : (GoType.ptr elem).Kind = Kind.Ptr := rfl
    simp [provideOptions.switchWrapper, hptr, hk]
  · intro hk hs
    cases ptype with
    | ptr elem =>
      have := hs elem rfl
      have hptr : (GoType.ptr elem).Kind = Kind.Ptr := rfl
      simp [provideOptions.switchWrapper, hptr, this]
    | basic n => simp [provideOptions.switchWrapper, GoType.Kind]
    | struct n => simp [provideOptions.switchWrapper, GoType.Kind]
    | iface n => simp [provideOptions.switchWrapper, GoType.Kind]
    | func ps rs => simp [GoType.Kind] at hk

/-- A non-nil provider that is neither a function nor a pointer to a struct
makes `definition` return `ErrIncorrectProviderType` (with a stack). -/
theorem definition_incorrect_provider_type (env : Env) (o : provideOptions) (v : Value)
    (hp : o.provider = some v) (hk : v.typ.Kind ≠ Kind.Func)
    (hs : ∀ elem, v.typ = .ptr elem → elem.Kind ≠ Kind.Struct) :
    o.definition env = .error (.withStack ErrIncorrectProviderType) ∧
    (GoError.withStack ErrIncorrectProviderType).Cause = ErrIncorrectProviderType := by
  refine ⟨?_, rfl⟩
  unfold provideOptions.definition
  simp only [hp, TypeOf, Option.map_some']
  rw [(switchWrapper_dispatch env o v.typ).2.2 hk hs]

/-- With a wrapper and `As` arguments that are all pointers to interface
types, `definition` returns an error exactly when the result type does not
implement one of the interfaces, and a definition otherwise. -/
theorem definition_capabilities (env : Env) (o : provideOptions) (ptype : GoType)
    (w : providerWrapper) (ht : TypeOf o.provider = some ptype)
    (hw : o.switchWrapper env ptype = some (.ok w))
    (hp : ∀ iface ∈ o.implements, ∃ t, isPtrToInterface iface t) :
    ((∃ e, o.definition env = .error e) ↔
      ∃ iface ∈ o.implements, ∃ t, isPtrToInterface iface t ∧
        env.Implements w.resultType t = false) ∧
    ((∀ iface ∈ o.implements, ∀ t, isPtrToInterface iface t →
        env.Implements w.resultType t = true) →
      ∃ d, o.definition env = .ok d) := by
  obtain ⟨hok, herr⟩ := implementsLoop_of_pointers env w o.implements [] hp
  have hdef : o.definition env =
      match implementsLoop env w o.implements [] with
      | .panic msg => .panic msg
      | .error e => .error e
      | .ok implements =>
        .ok { key := { typ := w.resultType, name := o.name }, provider := w,
              implements := implements, in_ := [] } := by
    unfold provideOptions.definition
    simp only [ht, hw, definitionOf]
  have hsecond : (∀ iface ∈ o.implements, ∀ t, isPtrToInterface iface t →
      env.Implements w.resultType t = true) → ∃ d, o.definition env = .ok d := by
    intro hall
    obtain ⟨impls, hl⟩ := hok hall
    exact ⟨_, by rw [hdef, hl]⟩
  refine ⟨⟨?_, ?_⟩, hsecond⟩
  · rintro ⟨e, he⟩
    by_contra hne
    have hall : ∀ iface ∈ o.implements, ∀ t, isPtrToInterface iface t →
        env.Implements w.resultType t = true := by
      intro iface hi t ht'
      by_contra hf
      exact hne ⟨iface, hi, t, ht', by simpa using hf⟩
    obtain ⟨d, hd⟩ := hsecond hall
    rw [hd] at he
    exact absurd he (by simp)
  · intro hex
    obtain ⟨e, hl⟩ := herr hex
    exact ⟨e, by rw [hdef, hl]⟩

/-! ## Failures of `New` -/

/-- The result of `New` in terms of the registration loop: a registration that
does not return normally is the result of `New`, an error wrapped once more. -/
theorem New_of_registerLoop (env : Env) (options : List Option_) :
    (∀ msg, registerLoop env (flattenOptions options) []
        { Container.zero with providers := flattenOptions options } = .panic msg →
      New env options = .panic msg) ∧
    (∀ e, registerLoop env (flattenOptions options) []
        { Container.zero with providers := flattenOptions options } = .error e →
      New env options = .error (.withMessage e "could not compile container")) := by
  constructor
  · intro msg hr
    rw [New_eq]
    simp [Container.compile, hr]
  · intro e hr
    rw [New_eq]
    simp [Container.compile, hr]

/-- A declaration with a nil provider, or whose `definition` does not return a
definition, keeps `New` from returning a container. -/
theorem New_ne_ok_of_bad_declaration (env : Env) (options : List Option_)
    (po : provideOptions) (hmem : po ∈ flattenOptions options)
    (hbad : po.provider = none ∨ ∀ d, po.definition env ≠ .ok d) (r : Heap × Container) :
    New env options ≠ .ok r := by
  intro hr
  obtain ⟨h, b⟩ := r
  obtain ⟨h0, hreg, _⟩ := New_ok hr
  exact registerLoop_ne_ok hmem hbad _ _ _ hreg

/-- When no `As` argument of any declaration is nil, a declaration with a nil
provider, or whose `definition` does not return a definition, makes `New`
return an error. -/
theorem New_error_of_bad_declaration (env : Env) (options : List Option_)
    (hnn : ∀ po ∈ flattenOptions options, ∀ i ∈ po.implements, i ≠ none)
    (po : provideOptions) (hmem : po ∈ flattenOptions options)
    (hbad : po.provider = none ∨ ∀ d, po.definition env ≠ .ok d) :
    ∃ e, New env options = .error e := by
  obtain ⟨e, he⟩ := registerLoop_error (RegInv.zero env (flattenOptions options))
    (fun p hp hprov => definition_ne_panic env p hprov (hnn p hp)) hmem hbad
  exact ⟨_, (New_of_registerLoop env options).2 e he⟩

/-! ## Evaluations -/

/-- C1. On `New(Provide(&A{}), Provide(&A{}))` the two declarations have the
same key and `New` returns a container with a nil error: the second
definition is allocated and dropped, the node table holds the first. -/
theorem C1_duplicate_key_is_not_reported :
    (∃ d, (newProvideOptions (pointerTo tA) []).definition exampleEnv = .ok d ∧
      d.key = { typ := tA, name := "" }) ∧
    New exampleEnv [.Provide (pointerTo tA) [], .Provide (pointerTo tA) []] =
      .ok ([{ key := { typ := tA, name := "" }, provider := { resultType := tA, args := [] },
              implements := [], in_ := [] },
            { key := { typ := tA, name := "" }, provider := { resultType := tA, args := [] },
              implements := [], in_ := [] }],
           { init := true,
             providers := [{ provider := pointerTo tA, name := "", implements := [] },
                           { provider := pointerTo tA, name := "", implements := [] }],
             nodes := some [({ typ := tA, name := "" }, 0)],
             implementations := some [] }) := by
  refine ⟨⟨_, rfl, rfl⟩, ?_⟩
  decide

/-- C7. On `Provide(&A{}, As(nil))` the method `definition` panics, and so
does `New`: no error is returned. -/
theorem C7_nil_As_argument_panics :
    (newProvideOptions (pointerTo tA) [.As [none]]).definition exampleEnv =
      .panic "invalid memory address or nil pointer dereference" ∧
    New exampleEnv [.Provide (pointerTo tA) [.As [none]]] =
      .panic "invalid memory address or nil pointer dereference" := by
  constructor <;> decide

/-- C8. On `New(Provide(&A{}, As(nil)), Provide(nil))` the list has a nil
provider and `New` panics in the first declaration: no error is returned. -/
theorem C8_nil_provider_after_nil_As_panics :
    (newProvideOptions none []).provider = none ∧
    New exampleEnv [.Provide (pointerTo tA) [.As [none]], .Provide none []] =
      .panic "invalid memory address or nil pointer dereference" := by
  constructor <;> decide

/-- C6. On `New(Provide(&A{}, As(nil)), Provide(&B{}, As(new(Logger))))`, where
`B` does not implement `Logger`, the `definition` of the second declaration
returns an error and `New` panics in the first declaration: no error is
returned. -/
theorem C6_unimplemented_capability_after_nil_As_panics :
    (newProvideOptions (pointerTo tB) [.As [pointerTo tLogger]]).definition exampleEnv =
      .error (.new "B not implement Logger interface") ∧
    New exampleEnv [.Provide (pointerTo tA) [.As [none]],
        .Provide (pointerTo tB) [.As [pointerTo tLogger]]] =
      .panic "invalid memory address or nil pointer dereference" := by
  constructor <;> decide

/-! ## Keys -/

/-- C10, amended. The key of the definition of `Provide(provider, options...)`
is the result type of the wrapper that the `switch` built, with the name of
the last `Name` modifier (the empty string when there is none). Two such
declarations with the same result type and different names have different
keys, and in a container that `New` returns each of them is in the node table,
under its own key, when no earlier declaration of the list has its key. -/
theorem C10_key_is_result_type_and_name (env : Env) (provider₁ provider₂ : Any)
    (options₁ options₂ : List ProvideOption) (d₁ d₂ : definition)
    (h₁ : (newProvideOptions provider₁ options₁).definition env = .ok d₁)
    (h₂ : (newProvideOptions provider₂ options₂).definition env = .ok d₂) :
    d₁.key = { typ := d₁.provider.resultType, name := lastName options₁ } ∧
    (∃ ptype, TypeOf provider₁ = some ptype ∧
      (newProvideOptions provider₁ options₁).switchWrapper env ptype = some (.ok d₁.provider)) ∧
    (d₁.provider.resultType = d₂.provider.resultType → lastName options₁ ≠ lastName options₂ →
      d₁.key ≠ d₂.key ∧
      ∀ (options : List Option_) (h : Heap) (b : Container) (i j : Nat),
        New env options = .ok (h, b) →
        (flattenOptions options)[i]? = some (newProvideOptions provider₁ options₁) →
        (flattenOptions options)[j]? = some (newProvideOptions provider₂ options₂) →
        (∀ (x : Nat) (po : provideOptions) (d : definition), x < i →
          (flattenOptions options)[x]? = some po → po.definition env = .ok d →
          d.key ≠ d₁.key) →
        (∀ (x : Nat) (po : provideOptions) (d : definition), x < j →
          (flattenOptions options)[x]? = some po → po.definition env = .ok d →
          d.key ≠ d₂.key) →
        b.nodes.get d₁.key = some i ∧ b.nodes.get d₂.key = some j ∧
        (h[i]?).map definition.unlinked = some d₁ ∧
        (h[j]?).map definition.unlinked = some d₂) := by
  have hkey : ∀ (provider : Any) (opts : List ProvideOption) (d : definition),
      (newProvideOptions provider opts).definition env = .ok d →
      d.key = { typ := d.provider.resultType, name := lastName opts } ∧
      ∃ ptype, TypeOf provider = some ptype ∧
        (newProvideOptions provider opts).switchWrapper env ptype = some (.ok d.provider) := by
    intro provider opts d hd
    obtain ⟨ptype, w, impls, ht, hs, _, rfl⟩ := definition_ok hd
    rw [newProvideOptions_provider] at ht
    refine ⟨?_, ptype, ht, hs⟩
    simp only [newProvideOptions_name]
  obtain ⟨hk₁, hw₁⟩ := hkey provider₁ options₁ d₁ h₁
  obtain ⟨hk₂, _⟩ := hkey provider₂ options₂ d₂ h₂
  refine ⟨hk₁, hw₁, ?_⟩
  intro htyp hname
  have hne : d₁.key ≠ d₂.key := by
    rw [hk₁, hk₂]
    intro e
    simp only [key.mk.injEq] at e
    exact hname e.2
  refine ⟨hne, ?_⟩
  intro options h b i j hnew hi hj hbefore₁ hbefore₂
  obtain ⟨h0, inv, hl⟩ := New_ok_inv hnew
  have hcell : ∀ (x : Nat) (po : provideOptions) (d : definition),
      (flattenOptions options)[x]? = some po → po.definition env = .ok d →
      h0[x]? = some d := by
    intro x po d hx hd
    obtain ⟨d', hd', hdef⟩ := forall₂_getElem?_left inv.heap_defs hx
    rw [hd] at hdef
    cases hdef
    exact hd'
  have hbound : ∀ (x : Nat) (dx : definition), h0[x]? = some dx →
      (∀ (z : Nat) (po : provideOptions) (d : definition), z < x →
        (flattenOptions options)[z]? = some po → po.definition env = .ok d →
        d.key ≠ dx.key) →
      b.nodes.get dx.key = some x := by
    intro x dx hx hoth
    obtain ⟨p, hle, hp⟩ := inv.bound x dx hx
    obtain ⟨dp, hdp, hkp, _⟩ := inv.lt_of_node hp
    by_cases hpx : p = x
    · rw [← hpx]
      exact hp
    · exfalso
      obtain ⟨po, hpo, hdef⟩ := forall₂_getElem?_right inv.heap_defs hdp
      exact hoth p po dp (Nat.lt_of_le_of_ne hle hpx) hpo hdef hkp
  have hc₁ := hcell i _ d₁ hi h₁
  have hc₂ := hcell j _ d₂ hj h₂
  refine ⟨?_, ?_, ?_, ?_⟩
  · exact hbound i d₁ hc₁ hbefore₁
  · exact hbound j d₂ hc₂ hbefore₂
  · obtain ⟨d, hd, hu⟩ := New_ok_declaration hnew hi
    rw [h₁] at hd
    cases hd
    exact hu
  · obtain ⟨d, hd, hu⟩ := New_ok_declaration hnew hj
    rw [h₂] at hd
    cases hd
    exact hu

/-- C10, on `New(Provide(&A{}, Name("x")), Provide(&A{}, Name("y"), Name("z")))`:
the keys are `(A, "x")` and `(A, "z")`, both in the node table. -/
theorem C10_key_is_result_type_and_name_witness :
    ({ typ := tA, name := "x" } : key) = { typ := tA, name := lastName [.Name "x"] } ∧
    GoMap.get (some [(({ typ := tA, name := "x" } : key), 0), ({ typ := tA, name := "z" }, 1)] :
      GoMap key Ptr) { typ := tA, name := "x" } = some 0 ∧
    GoMap.get (some [(({ typ := tA, name := "x" } : key), 0), ({ typ := tA, name := "z" }, 1)] :
      GoMap key Ptr) { typ := tA, name := "z" } = some 1 := by
  have hC := C10_key_is_result_type_and_name exampleEnv (pointerTo tA) (pointerTo tA)
    [.Name "x"] [.Name "y", .Name "z"]
    { key := { typ := tA, name := "x" }, provider := { resultType := tA, args := [] },
      implements := [], in_ := [] }
    { key := { typ := tA, name := "z" }, provider := { resultType := tA, args := [] },
      implements := [], in_ := [] }
    (by decide) (by decide)
  obtain ⟨hk, _, hboth⟩ := hC
  have hin := (hboth rfl (by decide)).2
    [.Provide (pointerTo tA) [.Name "x"], .Provide (pointerTo tA) [.Name "y", .Name "z"]]
    [{ key := { typ := tA, name := "x" }, provider := { resultType := tA, args := [] },
       implements := [], in_ := [] },
     { key := { typ := tA, name := "z" }, provider := { resultType := tA, args := [] },
       implements := [], in_ := [] }]
    { init := true,
      providers := [{ provider := pointerTo tA, name := "x", implements := [] },
                    { provider := pointerTo tA, name := "z", implements := [] }],
      nodes := some [({ typ := tA, name := "x" }, 0), ({ typ := tA, name := "z" }, 1)],
      implementations := some [] }
    0 1 (by decide) (by decide) (by decide)
    (fun x _ _ hx => absurd hx (Nat.not_lt_zero x))
    (by
      intro x po d hx hpo hd
      have hx0 : x = 0 := by omega
      subst hx0
      have hpo' : (flattenOptions [.Provide (pointerTo tA) [.Name "x"],
          .Provide (pointerTo tA) [.Name "y", .Name "z"]])[0]? =
          some (newProvideOptions (pointerTo tA) [.Name "x"]) := rfl
      rw [hpo'] at hpo
      cases hpo
      have hd' : (newProvideOptions (pointerTo tA) [.Name "x"]).definition exampleEnv =
          .ok { key := { typ := tA, name := "x" }, provider := { resultType := tA, args := [] },
                implements := [], in_ := [] } := by decide
      rw [hd'] at hd
      cases hd
      decide)
  exact ⟨hk, hin.1, hin.2.1⟩

/-- C10. Two declarations with the same result type and different names do not
both enter the node table when an earlier declaration has the key of one: on
`New(Provide(&A{}, Name("x")), Provide(&A{}, Name("x")), Provide(&A{}, Name("y")))`
the second and the third declaration have the keys `(A, "x")` and `(A, "y")`,
`New` returns a container, and its node table holds the first declaration
under `(A, "x")`: the definition of the second, at address 1, is not in it. -/
theorem C10_colliding_declaration_does_not_enter :
    (newProvideOptions (pointerTo tA) [.Name "x"]).definition exampleEnv =
      .ok { key := { typ := tA, name := "x" }, provider := { resultType := tA, args := [] },
            implements := [], in_ := [] } ∧
    (newProvideOptions (pointerTo tA) [.Name "y"]).definition exampleEnv =
      .ok { key := { typ := tA, name := "y" }, provider := { resultType := tA, args := [] },
            implements := [], in_ := [] } ∧
    lastName [.Name "x"] ≠ lastName [.Name "y"] ∧
    New exampleEnv [.Provide (pointerTo tA) [.Name "x"], .Provide (pointerTo tA) [.Name "x"],
        .Provide (pointerTo tA) [.Name "y"]] =
      .ok ([{ key := { typ := tA, name := "x" }, provider := { resultType := tA, args := [] },
              implements := [], in_ := [] },
            { key := { typ := tA, name := "x" }, provider := { resultType := tA, args := [] },
              implements := [], in_ := [] },
            { key := { typ := tA, name := "y" }, provider := { resultType := tA, args := [] },
              implements := [], in_ := [] }],
           { init := true,
             providers := [{ provider := pointerTo tA, name := "x", implements := [] },
                           { provider := pointerTo tA, name := "x", implements := [] },
                           { provider := pointerTo tA, name := "y", implements := [] }],
             nodes := some [({ typ := tA, name := "x" }, 0), ({ typ := tA, name := "y" }, 2)],
             implementations := some [] }) ∧
    Container.registered
      { init := true,
        providers := [{ provider := pointerTo tA, name := "x", implements := [] },
                      { provider := pointerTo tA, name := "x", implements := [] },
                      { provider := pointerTo tA, name := "y", implements := [] }],
        nodes := some [({ typ := tA, name := "x" }, 0), ({ typ := tA, name := "y" }, 2)],
        implementations := some [] }
      [{ key := { typ := tA, name := "x" }, provider := { resultType := tA, args := [] },
         implements := [], in_ := [] },
       { key := { typ := tA, name := "x" }, provider := { resultType := tA, args := [] },
         implements := [], in_ := [] },
       { key := { typ := tA, name := "y" }, provider := { resultType := tA, args := [] },
         implements := [], in_ := [] }] 1 = false := by
  refine ⟨by decide, by decide, by decide, by decide, by decide⟩

/-! ## Ownership of keys -/

theorem getElem?_of_unlinked {h h' : Heap}
    (hs : h'.map definition.unlinked = h.map definition.unlinked) {p : Ptr} {d' : definition}
    (hd' : h'[p]? = some d') : ∃ d, h[p]? = some d ∧ d'.unlinked = d.unlinked := by
  obtain ⟨d, hd, hu⟩ := getElem?_unlinked hs.symm hd'
  exact ⟨d, hd, hu.symm⟩

/-- In a container that `New` returns, the definition under a key of the node
table has that key, on the final heap. -/
theorem New_ok_node {env : Env} {options : List Option_} {h : Heap} {b : Container}
    (hnew : New env options = .ok (h, b)) {k : key} {p : Ptr}
    (hnode : (k, p) ∈ b.nodes.entries) : ∃ d, h[p]? = some d ∧ d.key = k := by
  obtain ⟨h0, inv, hl⟩ := New_ok_inv hnew
  obtain ⟨d0, hd0, hk⟩ := inv.node_valid k p hnode
  obtain ⟨d, hd, hu⟩ := getElem?_unlinked (linkLoop_unlinked hl) hd0
  exact ⟨d, hd, by rw [(unlinked_fields hu).1, hk]⟩

/-- C15. In a container that `New` returns, at most one definition owns a
key: the node table maps a key to a definition whose key field is that key,
and two entries of the node table whose definitions have equal keys are the
same entry. -/
theorem C15_one_definition_per_key (env : Env) (options : List Option_) (h : Heap)
    (b : Container) (hnew : New env options = .ok (h, b)) :
    (∀ k p, b.nodes.get k = some p → ∃ d, h[p]? = some d ∧ d.key = k) ∧
    (∀ k₁ p₁ k₂ p₂ d₁ d₂, (k₁, p₁) ∈ b.nodes.entries → (k₂, p₂) ∈ b.nodes.entries →
      h[p₁]? = some d₁ → h[p₂]? = some d₂ → d₁.key = d₂.key → k₁ = k₂ ∧ p₁ = p₂) ∧
    (b.nodes.entries.map Prod.fst).Nodup := by
  obtain ⟨h0, inv, hl⟩ := New_ok_inv hnew
  refine ⟨?_, ?_, inv.node_nodup⟩
  · intro k p hk
    exact New_ok_node hnew (mem_of_lookupEntries hk)
  · intro k₁ p₁ k₂ p₂ d₁ d₂ hm₁ hm₂ hd₁ hd₂ hkey
    obtain ⟨e₁, he₁, hk₁⟩ := New_ok_node hnew hm₁
    obtain ⟨e₂, he₂, hk₂⟩ := New_ok_node hnew hm₂
    rw [hd₁] at he₁
    rw [hd₂] at he₂
    cases he₁
    cases he₂
    have hkk : k₁ = k₂ := by rw [← hk₁, ← hk₂, hkey]
    subst hkk
    have h1 := lookupEntries_of_mem inv.node_nodup hm₁
    have h2 := lookupEntries_of_mem inv.node_nodup hm₂
    rw [h1] at h2
    exact ⟨rfl, Option.some.inj h2⟩

/-- C15, on `New(Provide(&A{}), Provide(func(A) B))`. -/
theorem C15_one_definition_per_key_witness :
    (([({ typ := tA, name := "" }, 0), ({ typ := tB, name := "" }, 1)] :
      List (key × Ptr)).map Prod.fst).Nodup :=
  (C15_one_definition_per_key exampleEnv
    [.Provide (pointerTo tA) [], .Provide (funcValue [tA] [tB]) []]
    [{ key := { typ := tA, name := "" }, provider := { resultType := tA, args := [] },
       implements := [], in_ := [] },
     { key := { typ := tB, name := "" },
       provider := { resultType := tB, args := [{ typ := tA, name := "" }] },
       implements := [], in_ := [0] }]
    { init := true,
      providers := [{ provider := pointerTo tA, name := "", implements := [] },
                    { provider := funcValue [tA] [tB], name := "", implements := [] }],
      nodes := some [({ typ := tA, name := "" }, 0), ({ typ := tB, name := "" }, 1)],
      implementations := some [] }
    (by decide)).2.2

/-! ## Collisions in `add` -/

/-- C18. First wins: on a container whose maps are allocated by the
`sync.Once` only, `add` of a definition whose key the node table already has
returns with the container as it was (node table and binding registry
unchanged), so `get` answers every key as before; in particular a key that
`get` did not resolve stays unresolved. -/
theorem C18_add_collision_changes_nothing (b : Container) (h : Heap) (p q : Ptr)
    (d : definition) (hrep : b.init = false → b.nodes = none ∧ b.implementations = none)
    (hd : h[p]? = some d) (hq : b.nodes.get d.key = some q) :
    ∃ b', b.add h p = .ok b' ∧ b'.nodes = b.nodes ∧ b'.implementations = b.implementations ∧
      b'.nodes.get d.key = some q ∧
      (∀ c, b'.get c = b.get c) ∧
      (∀ c e, b.get c = .error e → b'.get c = .error e) := by
  have hinit : b.init = true := by
    by_contra hf
    have hf' : b.init = false := by simpa using hf
    rw [(hrep hf').1] at hq
    simp [GoMap.get, GoMap.entries, lookupEntries] at hq
  have hb : b.initDo = b := by simp [Container.initDo, hinit]
  have hadd : b.add h p = .ok b := by
    have := Container.add_duplicate (b := b) (h := h) (p := p) (q := q) hd (by rw [hb]; exact hq)
    rw [hb] at this
    exact this
  exact ⟨b, hadd, rfl, rfl, hq, fun _ => rfl, fun _ _ he => he⟩

/-- C18, on a container that holds `A` at address 0, for a second definition
of `A` at address 1 that declares `Logger`: the container is unchanged and
`Logger` stays unresolved. -/
theorem C18_add_collision_changes_nothing_witness :
    ∃ b', ({ init := true, providers := [],
             nodes := some [({ typ := tA, name := "" }, 0)],
             implementations := some [] } : Container).add
          [{ key := { typ := tA, name := "" }, provider := { resultType := tA, args := [] },
             implements := [], in_ := [] },
           { key := { typ := tA, name := "" }, provider := { resultType := tA, args := [] },
             implements := [{ typ := tLogger, name := "" }], in_ := [] }] 1 = .ok b' ∧
      b'.get { typ := tLogger, name := "" } =
        .error (.new (({ typ := tLogger, name := "" } : key).String ++ " not provided yet")) := by
  obtain ⟨b', hadd, _, _, _, _, herr⟩ := C18_add_collision_changes_nothing
    { init := true, providers := [],
      nodes := some [({ typ := tA, name := "" }, 0)],
      implementations := some [] }
    [{ key := { typ := tA, name := "" }, provider := { resultType := tA, args := [] },
       implements := [], in_ := [] },
     { key := { typ := tA, name := "" }, provider := { resultType := tA, args := [] },
       implements := [{ typ := tLogger, name := "" }], in_ := [] }] 1 0
    { key := { typ := tA, name := "" }, provider := { resultType := tA, args := [] },
      implements := [{ typ := tLogger, name := "" }], in_ := [] }
    (by decide) (by decide) (by decide)
  exact ⟨b', hadd, herr { typ := tLogger, name := "" } _ (by decide)⟩

/-! ## Closure of the compiled graph -/

theorem mem_implList {h : Heap} {b : Container} {c : key} {q : Ptr}
    (hq : q ∈ implList h b c) : b.registered h q = true ∧ declares h c q = true := by
  unfold implList at hq
  rw [List.mem_flatMap] at hq
  obtain ⟨x, _, hx⟩ := hq
  by_cases hreg : b.registered h x = true
  · simp only [hreg, ↓reduceIte] at hx
    cases hd : h[x]? with
    | none => simp [hd] at hx
    | some d =>
      simp only [hd, List.mem_map, List.mem_filter, decide_eq_true_eq] at hx
      obtain ⟨k, ⟨hk, rfl⟩, rfl⟩ := hx
      exact ⟨hreg, by simp [declares, hd, hk]⟩
  · simp [hreg] at hx

/-- What `get` returns on a state of the registration loop is a registered
definition. -/
theorem RegInv.get_registered {env : Env} {done : List provideOptions} {h : Heap}
    {b : Container} (inv : RegInv env done h b) {a : key} {q : Ptr}
    (hget : b.get a = .ok q) : b.registered h q = true := by
  cases hn : b.nodes.get a with
  | some p =>
    rw [Container.get_of_node hn] at hget
    cases hget
    obtain ⟨d, hd, hk, _⟩ := inv.lt_of_node hn
    simp [Container.registered, hd, hk, hn]
  | none =>
    rw [Container.get_of_no_node hn, inv.impls a] at hget
    cases hl : implList h b a with
    | nil => simp [hl] at hget
    | cons x xs =>
      simp only [hl, Result.ok.injEq] at hget
      subst hget
      exact (mem_implList (by rw [hl]; exact List.mem_cons_self _ _)).1

/-- In a container that `New` returns, the `in` of a definition of the node
table lists what `get` returns for the argument keys of its provider. -/
theorem New_ok_linked {env : Env} (hrange : env.RangeOk) {options : List Option_} {h : Heap}
    {b : Container} (hnew : New env options = .ok (h, b)) {k : key} {p : Ptr}
    (hnode : b.nodes.get k = some p) :
    ∃ d, h[p]? = some d ∧ d.provider.args.map b.get = d.in_.map Result.ok := by
  obtain ⟨h0, inv, hl⟩ := New_ok_inv hnew
  have hperm := hrange b.nodes.entries
  have hnd : ((env.rangeNodes b.nodes.entries).map Prod.snd).Nodup :=
    (hperm.map Prod.snd).nodup_iff.mpr inv.nodup_addresses
  have hmem : (k, p) ∈ env.rangeNodes b.nodes.entries :=
    hperm.mem_iff.mpr (mem_of_lookupEntries hnode)
  obtain ⟨d0, qs, hd0, hd, hq⟩ := (linkLoop_ok hnd hl).2 (k, p) hmem
  obtain ⟨po, _, hpo⟩ := forall₂_getElem?_right inv.heap_defs hd0
  have hin : d0.in_ = [] := definition_ok_in env hpo
  refine ⟨_, hd, ?_⟩
  simp only [hin, List.nil_append]
  exact hq

/-- C19. The compiled graph is closed: in a container that `New` returns,
every definition that the binding registry lists under a key `c` is
registered (the node table holds it under its own key) and declares `c`, and
every edge `in` of a definition of the node table is a registered definition.
No entry and no edge refers to a definition that registration dropped. -/
theorem C19_compiled_graph_is_closed (env : Env) (hrange : env.RangeOk)
    (options : List Option_) (h : Heap) (b : Container)
    (hnew : New env options = .ok (h, b)) :
    (∀ c l q, b.implementations.get c = some l → q ∈ l →
      b.registered h q = true ∧ declares h c q = true) ∧
    (∀ k p d q, b.nodes.get k = some p → h[p]? = some d → q ∈ d.in_ →
      b.registered h q = true) := by
  obtain ⟨h0, inv, hl⟩ := New_ok_inv hnew
  have hs := linkLoop_unlinked hl
  constructor
  · intro c l q hc hq
    have himp := inv.impls c
    rw [hc, Option.getD_some] at himp
    rw [himp] at hq
    obtain ⟨hr, hdec⟩ := mem_implList hq
    rw [registered_of_unlinked hs, declares_of_unlinked hs]
    exact ⟨hr, hdec⟩
  · intro k p d q hk hd hq
    obtain ⟨d', hd', hmap⟩ := New_ok_linked hrange hnew hk
    rw [hd] at hd'
    cases hd'
    have hmem : Result.ok q ∈ d.in_.map Result.ok := List.mem_map_of_mem _ hq
    rw [← hmap] at hmem
    obtain ⟨a, _, ha⟩ := List.mem_map.mp hmem
    rw [registered_of_unlinked hs]
    exact inv.get_registered ha

/-- C19, on `New(Provide(&A{}, As(new(Logger))), Provide(func(Logger) B))`: the
registry entry and the edge of `B` are the registered definition of `A`. -/
theorem C19_compiled_graph_is_closed_witness :
    Container.registered
      { init := true,
        providers := [{ provider := pointerTo tA, name := "", implements := [pointerTo tLogger] },
                      { provider := funcValue [tLogger] [tB], name := "", implements := [] }],
        nodes := some [({ typ := tA, name := "" }, 0), ({ typ := tB, name := "" }, 1)],
        implementations := some [({ typ := tLogger, name := "" }, [0])] }
      [{ key := { typ := tA, name := "" }, provider := { resultType := tA, args := [] },
         implements := [{ typ := tLogger, name := "" }], in_ := [] },
       { key := { typ := tB, name := "" },
         provider := { resultType := tB, args := [{ typ := tLogger, name := "" }] },
         implements := [], in_ := [0] }] 0 = true :=
  (C19_compiled_graph_is_closed exampleEnv (specEnv_rangeOk _)
    [.Provide (pointerTo tA) [.As [pointerTo tLogger]], .Provide (funcValue [tLogger] [tB]) []]
    _ _ (by decide)).2 { typ := tB, name := "" } 1
    { key := { typ := tB, name := "" },
      provider := { resultType := tB, args := [{ typ := tLogger, name := "" }] },
      implements := [], in_ := [0] } 0 (by decide) (by decide) (by decide)

/-! ## Cycles -/

/-- The argument loop returns normally when `get` resolves every key. -/
theorem linkArgs_total {b : Container} {p : Ptr} {ks : List key} {h : Heap} {d : definition}
    (hd : h[p]? = some d) (hres : ∀ a ∈ ks, ∃ q, b.get a = .ok q) :
    ∃ h', linkArgs b p ks h = .ok h' := by
  rcases linkArgs_result (b := b) ks hd with hok | ⟨e, he⟩
  · exact hok
  · exfalso
    induction ks generalizing h d with
    | nil => simp [linkArgs] at he
    | cons k ks ih =>
      obtain ⟨q, hq⟩ := hres k (List.mem_cons_self _ _)
      unfold linkArgs at he
      simp only [hq, hd] at he
      have hd1 : (h.set p { d with in_ := d.in_ ++ [q] })[p]? =
          some { d with in_ := d.in_ ++ [q] } := by
        simp [List.getElem?_set, lt_of_getElem?_eq_some hd]
      exact ih hd1 (fun a ha => hres a (List.mem_cons_of_mem _ ha)) he

/-- The linking loop returns normally when every visited address holds a
definition whose argument keys all resolve. -/
theorem linkLoop_total {b : Container} {vs : List (key × Ptr)} {h : Heap}
    (hres : ∀ kp ∈ vs, ∃ d, h[kp.2]? = some d ∧ ∀ a ∈ d.provider.args, ∃ q, b.get a = .ok q) :
    ∃ h', linkLoop b vs h = .ok h' := by
  induction vs generalizing h with
  | nil => exact ⟨h, rfl⟩
  | cons kp rest ih =>
    obtain ⟨k, p⟩ := kp
    obtain ⟨d, hd, hargs⟩ := hres (k, p) (List.mem_cons_self _ _)
    obtain ⟨h1, hl⟩ := linkArgs_total hd hargs
    unfold linkLoop
    simp only [hd, hl]
    apply ih
    intro kp hkp
    obtain ⟨d', hd', hargs'⟩ := hres kp (List.mem_cons_of_mem _ hkp)
    obtain ⟨d1, hd1, hu⟩ := getElem?_unlinked (linkArgs_unlinked hd hl) hd'
    exact ⟨d1, hd1, by rw [(unlinked_fields hu).2.1]; exact hargs'⟩

/-- C12. Compilation accepts cycles: when the registration loop of `New`
returns normally and `get` resolves every argument key of every definition of
the node table, `New` returns a container with a nil error, whatever the shape
of the resolved edges. The loops of `compile` run over the declarations, the
node table and the argument lists, so `New` always terminates. -/
theorem C12_resolvable_graph_compiles (env : Env) (hrange : env.RangeOk)
    (options : List Option_) (h0 : Heap) (b : Container)
    (hreg : registerLoop env (applyAll options Container.zero).providers []
      (applyAll options Container.zero) = .ok (h0, b))
    (hres : ∀ k p d a, b.nodes.get k = some p → h0[p]? = some d → a ∈ d.provider.args →
      ∃ q, b.get a = .ok q) :
    ∃ h, New env options = .ok (h, b) := by
  have happ : applyAll options Container.zero =
      { Container.zero with providers := flattenOptions options } := by
    rw [applyAll_eq]
    simp [Container.zero]
  have hreg' := hreg
  rw [happ] at hreg'
  have inv := (registerLoop_ok (RegInv.zero env (flattenOptions options)) hreg').1
  have hperm := hrange b.nodes.entries
  have hall : ∀ kp ∈ env.rangeNodes b.nodes.entries,
      ∃ d, h0[kp.2]? = some d ∧ ∀ a ∈ d.provider.args, ∃ q, b.get a = .ok q := by
    intro kp hkp
    have hmem : (kp.1, kp.2) ∈ b.nodes.entries := hperm.mem_iff.mp hkp
    obtain ⟨d, hd, _⟩ := inv.node_valid kp.1 kp.2 hmem
    exact ⟨d, hd, fun a ha =>
      hres kp.1 kp.2 d a (lookupEntries_of_mem inv.node_nodup hmem) hd ha⟩
  obtain ⟨h, hl⟩ := linkLoop_total hall
  refine ⟨h, ?_⟩
  simp [New, Container.compile, hreg, hl]

/-- C12, on the cycle `New(Provide(func(B) A), Provide(func(A) B))`: `New`
returns the container, in which each definition is the edge of the other. -/
theorem C12_resolvable_graph_compiles_witness :
    ∃ h, New exampleEnv [.Provide (funcValue [tB] [tA]) [], .Provide (funcValue [tA] [tB]) []] =
      .ok (h, { init := true,
                providers := [{ provider := funcValue [tB] [tA], name := "", implements := [] },
                              { provider := funcValue [tA] [tB], name := "", implements := [] }],
                nodes := some [({ typ := tA, name := "" }, 0), ({ typ := tB, name := "" }, 1)],
                implementations := some [] }) :=
  C12_resolvable_graph_compiles exampleEnv (specEnv_rangeOk _)
    [.Provide (funcValue [tB] [tA]) [], .Provide (funcValue [tA] [tB]) []]
    [{ key := { typ := tA, name := "" },
       provider := { resultType := tA, args := [{ typ := tB, name := "" }] },
       implements := [], in_ := [] },
     { key := { typ := tB, name := "" },
       provider := { resultType := tB, args := [{ typ := tA, name := "" }] },
       implements := [], in_ := [] }]
    _ (by decide)
    (by
      intro k p d a hk hd ha
      rcases p with _ | _ | p
      · simp only [List.getElem?_cons_zero, Option.some.injEq] at hd
        subst hd
        simp only [List.mem_singleton] at ha
        subst ha
        exact ⟨1, by decide⟩
      · simp only [List.getElem?_cons_succ, List.getElem?_cons_zero, Option.some.injEq] at hd
        subst hd
        simp only [List.mem_singleton] at ha
        subst ha
        exact ⟨0, by decide⟩
      · simp at hd)

/-- The cycles that `New` compiles: two definitions that depend on each other,
and a definition that depends on its own key. -/
theorem New_compiles_cycles :
    New exampleEnv [.Provide (funcValue [tB] [tA]) [], .Provide (funcValue [tA] [tB]) []] =
      .ok ([{ key := { typ := tA, name := "" },
              provider := { resultType := tA, args := [{ typ := tB, name := "" }] },
              implements := [], in_ := [1] },
            { key := { typ := tB, name := "" },
              provider := { resultType := tB, args := [{ typ := tA, name := "" }] },
              implements := [], in_ := [0] }],
           { init := true,
             providers := [{ provider := funcValue [tB] [tA], name := "", implements := [] },
                           { provider := funcValue [tA] [tB], name := "", implements := [] }],
             nodes := some [({ typ := tA, name := "" }, 0), ({ typ := tB, name := "" }, 1)],
             implementations := some [] }) ∧
    New exampleEnv [.Provide (funcValue [tA] [tA]) []] =
      .ok ([{ key := { typ := tA, name := "" },
              provider := { resultType := tA, args := [{ typ := tA, name := "" }] },
              implements := [], in_ := [0] }],
           { init := true,
             providers := [{ provider := funcValue [tA] [tA], name := "", implements := [] }],
             nodes := some [({ typ := tA, name := "" }, 0)],
             implementations := some [] }) := by
  constructor <;> decide

/-! ## The error of `New` -/

theorem registerLoop_cons (env : Env) (po : provideOptions) (rest : List provideOptions)
    (h : Heap) (b : Container) :
    registerLoop env (po :: rest) h b =
      if po.provider = none then .error (.new "could not provide nil")
      else
        match po.definition env with
        | .panic msg => .panic msg
        | .error err => .error (.withMessage err "provide failed")
        | .ok d =>
          match b.add (h ++ [d]) h.length with
          | .panic msg => .panic msg
          | .error err => .error (.withMessage err "could not add node")
          | .ok b' => registerLoop env rest (h ++ [d]) b' := by
  rw [registerLoop]
  by_cases hnil : po.provider = none
  · simp [hnil]
  · simp only [hnil, ↓reduceIte, Heap.alloc, returnErr, Wrapf]

/-- The registration loop over a list in two parts runs the first part, then
the second on the state the first part left. -/
theorem registerLoop_append (env : Env) (pre rest : List provideOptions) (h : Heap)
    (b : Container) :
    registerLoop env (pre ++ rest) h b =
      match registerLoop env pre h b with
      | .ok (h', b') => registerLoop env rest h' b'
      | .error e => .error e
      | .panic msg => .panic msg := by
  induction pre generalizing h b with
  | nil => simp [registerLoop]
  | cons po pre ih =>
    rw [List.cons_append, registerLoop_cons, registerLoop_cons]
    by_cases hnil : po.provider = none
    · simp [hnil]
    · simp only [hnil, ↓reduceIte]
      cases hdef : po.definition env with
      | panic m => simp
      | error e => simp
      | ok d =>
        simp only
        cases hadd : b.add (h ++ [d]) h.length with
        | panic m => simp
        | error e => simp
        | ok b1 =>
          simp only
          exact ih _ _

/-- The error of a failing `get`. -/
theorem Container.get_error {b : Container} {a : key} {e : GoError}
    (h : b.get a = .error e) :
    b.nodes.get a = none ∧ (b.implementations.get a).getD [] = [] ∧
      e = .new (a.String ++ " not provided yet") := by
  cases hn : b.nodes.get a with
  | some p => simp [Container.get, hn] at h
  | none =>
    cases hl : (b.implementations.get a).getD [] with
    | cons x xs => simp [Container.get, hn, hl] at h
    | nil =>
      simp only [Container.get, hn, hl, Result.error.injEq] at h
      exact ⟨rfl, rfl, h.symm⟩

/-- The argument loop returns the error of `get`, with a stack, for the first
key that `get` does not resolve. -/
theorem linkArgs_error {b : Container} {p : Ptr} {ks : List key} {h : Heap} {d : definition}
    {e : GoError} (hd : h[p]? = some d) (hr : linkArgs b p ks h = .error e) :
    ∃ as a bs e0, ks = as ++ a :: bs ∧ (∀ x ∈ as, ∃ q, b.get x = .ok q) ∧
      b.get a = .error e0 ∧ e = .withStack e0 := by
  induction ks generalizing h d with
  | nil => simp [linkArgs] at hr
  | cons k ks ih =>
    unfold linkArgs at hr
    cases hg : b.get k with
    | panic m => exact absurd hg (Container.get_ne_panic b k m)
    | error e0 =>
      simp only [hg, Result.error.injEq] at hr
      exact ⟨[], k, ks, e0, rfl, by simp, hg, hr.symm⟩
    | ok q =>
      simp only [hg, hd] at hr
      have hd1 : (h.set p { d with in_ := d.in_ ++ [q] })[p]? =
          some { d with in_ := d.in_ ++ [q] } := by
        simp [List.getElem?_set, lt_of_getElem?_eq_some hd]
      obtain ⟨as, a, bs, e0, hks, has, ha, he⟩ := ih hd1 hr
      refine ⟨k :: as, a, bs, e0, by simp [hks], ?_, ha, he⟩
      intro x hx
      rcases List.mem_cons.mp hx with rfl | hx'
      · exact ⟨q, hg⟩
      · exact has x hx'

/-- The linking loop returns the error of the first unresolved argument key,
in the order of the visit and, within a definition, of its arguments. -/
theorem linkLoop_error {b : Container} {vs : List (key × Ptr)} {h : Heap} {e : GoError}
    (hr : linkLoop b vs h = .error e) :
    ∃ pre kp post d as a bs e0, vs = pre ++ kp :: post ∧
      (∀ kp' ∈ pre, ∀ d', h[kp'.2]? = some d' → ∀ x ∈ d'.provider.args, ∃ q, b.get x = .ok q) ∧
      h[kp.2]? = some d ∧ d.provider.args = as ++ a :: bs ∧
      (∀ x ∈ as, ∃ q, b.get x = .ok q) ∧ b.get a = .error e0 ∧ e = .withStack e0 := by
  induction vs generalizing h with
  | nil => simp [linkLoop] at hr
  | cons kp rest ih =>
    obtain ⟨k, p⟩ := kp
    unfold linkLoop at hr
    cases hd : h[p]? with
    | none => simp [hd] at hr
    | some d =>
      simp only [hd] at hr
      cases hl : linkArgs b p d.provider.args h with
      | panic m => simp [hl] at hr
      | error e1 =>
        simp only [hl, Result.error.injEq] at hr
        subst hr
        obtain ⟨as, a, bs, e0, hks, has, ha, he⟩ := linkArgs_error hd hl
        exact ⟨[], (k, p), rest, d, as, a, bs, e0, rfl, by simp, hd, hks, has, ha, he⟩
      | ok h1 =>
        simp only [hl] at hr
        obtain ⟨pre, kp, post, d1, as, a, bs, e0, hvs, hpre, hd1, hks, has, ha, he⟩ := ih hr
        have hs := linkArgs_unlinked hd hl
        obtain ⟨d0, hd0, hu⟩ := getElem?_of_unlinked hs hd1
        refine ⟨(k, p) :: pre, kp, post, d0, as, a, bs, e0, by simp [hvs], ?_, hd0,
          by rw [← (unlinked_fields hu).2.1]; exact hks, has, ha, he⟩
        intro kp' hkp' d' hd' x hx
        rcases List.mem_cons.mp hkp' with rfl | hmem
        · rw [hd] at hd'
          cases hd'
          obtain ⟨qs, _, hq⟩ := linkArgs_ok hd hl
          have hmap : b.get x ∈ d.provider.args.map b.get := List.mem_map_of_mem _ hx
          rw [hq] at hmap
          obtain ⟨q, _, hq'⟩ := List.mem_map.mp hmap
          exact ⟨q, hq'.symm⟩
        · obtain ⟨d1', hd1', hu'⟩ := getElem?_unlinked hs hd'
          exact hpre kp' hmem d1' hd1' x (by rw [(unlinked_fields hu').2.1]; exact hx)

/-- The error of a `New` whose registration loop returned normally is the
error of the linking loop, wrapped. -/
theorem New_link_error {env : Env} {options : List Option_} {h0 : Heap} {b : Container}
    {e : GoError}
    (hreg : registerLoop env (applyAll options Container.zero).providers []
      (applyAll options Container.zero) = .ok (h0, b))
    (hnew : New env options = .error e) :
    ∃ e1, linkLoop b (env.rangeNodes b.nodes.entries) h0 = .error e1 ∧
      e = .withMessage e1 "could not compile container" := by
  unfold New Container.compile at hnew
  simp only [hreg] at hnew
  cases hl : linkLoop b (env.rangeNodes b.nodes.entries) h0 with
  | panic m => simp [hl] at hnew
  | ok h1 => simp [hl] at hnew
  | error e1 =>
    simp only [hl, returnErr, Wrapf, Result.error.injEq] at hnew
    exact ⟨e1, rfl, hnew.symm⟩

/-- C13. The error of `New` for an unresolved argument does not name the
requesting key: `New(Provide(func(Y) X))` and `New(Provide(func(Y) Z))` return
the same error, built from the missing key `Y` alone, so nothing computed from
the error tells `X` from `Z`. -/
theorem C13_error_does_not_name_the_requester :
    New exampleEnv [.Provide (funcValue [tY] [tX]) []] =
      .error (.withMessage (.withStack (.new "Y[] not provided yet"))
        "could not compile container") ∧
    New exampleEnv [.Provide (funcValue [tY] [tZ]) []] =
      .error (.withMessage (.withStack (.new "Y[] not provided yet"))
        "could not compile container") ∧
    (GoError.withMessage (.withStack (.new "Y[] not provided yet"))
        "could not compile container").Error =
      "could not compile container: Y[] not provided yet" ∧
    ¬ ∃ requester : GoError → key,
      requester (.withMessage (.withStack (.new "Y[] not provided yet"))
          "could not compile container") = { typ := tX, name := "" } ∧
      requester (.withMessage (.withStack (.new "Y[] not provided yet"))
          "could not compile container") = { typ := tZ, name := "" } := by
  refine ⟨by decide, by decide, by decide, ?_⟩
  rintro ⟨requester, hX, hZ⟩
  rw [hX] at hZ
  exact absurd hZ (by decide)

/-- C13, amended. When the registration loop of `New` returns normally and
`New` returns an error, the error is the one of `get` for an argument key `y`
of a definition of the node table that neither the node table nor the binding
registry resolves, with a stack and the message of `New`: it is built from the
missing key alone and names the missing key only. -/
theorem C13_link_error_names_the_missing_key (env : Env) (hrange : env.RangeOk)
    (options : List Option_) (h0 : Heap) (b : Container) (e : GoError)
    (hreg : registerLoop env (applyAll options Container.zero).providers []
      (applyAll options Container.zero) = .ok (h0, b))
    (hnew : New env options = .error e) :
    ∃ k p d y, b.nodes.get k = some p ∧ h0[p]? = some d ∧ y ∈ d.provider.args ∧
      b.nodes.get y = none ∧ (b.implementations.get y).getD [] = [] ∧
      e = .withMessage (.withStack (.new (y.String ++ " not provided yet")))
        "could not compile container" := by
  have happ : applyAll options Container.zero =
      { Container.zero with providers := flattenOptions options } := by
    rw [applyAll_eq]
    simp [Container.zero]
  have hreg' := hreg
  rw [happ] at hreg'
  have inv := (registerLoop_ok (RegInv.zero env (flattenOptions options)) hreg').1
  obtain ⟨e1, hl, he⟩ := New_link_error hreg hnew
  obtain ⟨pre, kp, post, d, as, a, bs, e0, hvs, _, hd, hargs, _, ha, he1⟩ := linkLoop_error hl
  obtain ⟨hno, himpl, he0⟩ := Container.get_error ha
  have hmem : (kp.1, kp.2) ∈ b.nodes.entries := by
    apply (hrange b.nodes.entries).mem_iff.mp
    rw [hvs]
    simp
  refine ⟨kp.1, kp.2, d, a, lookupEntries_of_mem inv.node_nodup hmem, hd, ?_, hno, himpl, ?_⟩
  · rw [hargs]
    simp
  · rw [he, he1, he0]

/-- C13, amended, on `New(Provide(func(Y) X))`: the error names `Y`. -/
theorem C13_link_error_names_the_missing_key_witness :
    ∃ k p d y, GoMap.get (some [(({ typ := tX, name := "" } : key), 0)] : GoMap key Ptr) k
        = some p ∧
      ([{ key := { typ := tX, name := "" },
          provider := { resultType := tX, args := [{ typ := tY, name := "" }] },
          implements := [], in_ := [] }] : Heap)[p]? = some d ∧ y ∈ d.provider.args ∧
      GoMap.get (some [(({ typ := tX, name := "" } : key), 0)] : GoMap key Ptr) y = none ∧
      (GoMap.get (some [] : GoMap key (List Ptr)) y).getD [] = [] ∧
      GoError.withMessage (.withStack (.new "Y[] not provided yet"))
          "could not compile container" =
        .withMessage (.withStack (.new (y.String ++ " not provided yet")))
          "could not compile container" :=
  C13_link_error_names_the_missing_key exampleEnv (specEnv_rangeOk _)
    [.Provide (funcValue [tY] [tX]) []]
    [{ key := { typ := tX, name := "" },
       provider := { resultType := tX, args := [{ typ := tY, name := "" }] },
       implements := [], in_ := [] }]
    { init := true,
      providers := [{ provider := funcValue [tY] [tX], name := "", implements := [] }],
      nodes := some [({ typ := tX, name := "" }, 0)],
      implementations := some [] }
    _ (by decide) (by decide)

/-- C14. The error of `New` for unresolved arguments depends on the order in
which the node table is visited: on `New(Provide(func(Y) X), Provide(func(Z) A))`
a `range` in insertion order reports the missing `Y`, a `range` in the reverse
order reports the missing `Z`; both visit every entry once, and the two
environments differ in nothing else. -/
theorem C14_error_depends_on_the_visit_order :
    New exampleEnv [.Provide (funcValue [tY] [tX]) [], .Provide (funcValue [tZ] [tA]) []] =
      .error (.withMessage (.withStack (.new "Y[] not provided yet"))
        "could not compile container") ∧
    New reversedEnv [.Provide (funcValue [tY] [tX]) [], .Provide (funcValue [tZ] [tA]) []] =
      .error (.withMessage (.withStack (.new "Z[] not provided yet"))
        "could not compile container") ∧
    exampleEnv.RangeOk ∧ reversedEnv.RangeOk := by
  refine ⟨by decide, by decide, specEnv_rangeOk _, ?_⟩
  intro l
  exact List.reverse_perm l

/-- C14, amended. `New` returns the first error that `compile` meets, in the
order of `compile`. A registration fault wins over every unresolved argument
and does not depend on the visit of the node table: when the declarations
before a declaration all register, a nil provider of that declaration gives
the error `could not provide nil` and a failing `definition` gives its error
with the message `provide failed`. When registration returns normally, the
error of `New` is the one of the first unresolved argument key in the order of
the visit of the node table and, within a definition, of its arguments. -/
theorem C14_first_error_in_the_order_of_compile (env : Env) (options : List Option_) :
    (∀ pre po post, flattenOptions options = pre ++ po :: post →
      (∀ x ∈ pre, x.provider ≠ none ∧ ∃ d, x.definition env = .ok d) →
      (po.provider = none →
        New env options = .error (.withMessage (.new "could not provide nil")
          "could not compile container")) ∧
      (∀ e, po.provider ≠ none → po.definition env = .error e →
        New env options = .error (.withMessage (.withMessage e "provide failed")
          "could not compile container"))) ∧
    (∀ h0 b e,
      registerLoop env (applyAll options Container.zero).providers []
        (applyAll options Container.zero) = .ok (h0, b) →
      New env options = .error e →
      ∃ pre kp post d as a bs, env.rangeNodes b.nodes.entries = pre ++ kp :: post ∧
        (∀ kp' ∈ pre, ∀ d', h0[kp'.2]? = some d' →
          ∀ x ∈ d'.provider.args, ∃ q, b.get x = .ok q) ∧
        h0[kp.2]? = some d ∧ d.provider.args = as ++ a :: bs ∧
        (∀ x ∈ as, ∃ q, b.get x = .ok q) ∧
        b.nodes.get a = none ∧ (b.implementations.get a).getD [] = [] ∧
        e = .withMessage (.withStack (.new (a.String ++ " not provided yet")))
          "could not compile container") := by
  constructor
  · intro pre po post hpos hpre
    have htotal : ∃ r, registerLoop env pre []
        { Container.zero with providers := flattenOptions options } = .ok r :=
      registerLoop_total (RegInv.zero env (flattenOptions options)) hpre
    obtain ⟨r, hr⟩ := htotal
    obtain ⟨h1, b1⟩ := r
    have happ := registerLoop_append env pre (po :: post) []
      { Container.zero with providers := flattenOptions options }
    rw [hr] at happ
    simp only at happ
    rw [← hpos, registerLoop_cons] at happ
    constructor
    · intro hnil
      simp only [hnil, ↓reduceIte] at happ
      exact (New_of_registerLoop env options).2 _ happ
    · intro e hnn hdef
      simp only [hnn, ↓reduceIte, hdef] at happ
      exact (New_of_registerLoop env options).2 _ happ
  · intro h0 b e hreg hnew
    obtain ⟨e1, hl, he⟩ := New_link_error hreg hnew
    obtain ⟨pre, kp, post, d, as, a, bs, e0, hvs, hpre, hd, hargs, has, ha, he1⟩ :=
      linkLoop_error hl
    obtain ⟨hno, himpl, he0⟩ := Container.get_error ha
    exact ⟨pre, kp, post, d, as, a, bs, hvs, hpre, hd, hargs, has, hno, himpl,
      by rw [he, he1, he0]⟩

/-- C14, amended, on `New(Provide(func(Y) X), Provide(nil))`: the nil provider
of the second declaration is reported, not the unresolved `Y` of the first. -/
theorem C14_first_error_in_the_order_of_compile_witness :
    New exampleEnv [.Provide (funcValue [tY] [tX]) [], .Provide none []] =
      .error (.withMessage (.new "could not provide nil") "could not compile container") :=
  ((C14_first_error_in_the_order_of_compile exampleEnv
    [.Provide (funcValue [tY] [tX]) [], .Provide none []]).1
    [{ provider := funcValue [tY] [tX], name := "", implements := [] }]
    { provider := none, name := "", implements := [] } [] (by decide)
    (by
      intro x hx
      rw [List.mem_singleton] at hx
      subst hx
      exact ⟨by decide,
        { key := { typ := tX, name := "" },
          provider := { resultType := tX, args := [{ typ := tY, name := "" }] },
          implements := [], in_ := [] }, by decide⟩)).1 (by decide)

/-! ## `Populate` -/

/-- C11. `Populate` on a key that is not provided: for every container, and
so for every compiled one, when the unnamed key of the target type has no
entry in the node table and no implementer in the binding registry, `Populate`
returns the error of `get` with a stack, does not panic, does not write the
target slot and leaves the instances as they were, whatever the method
`instance` is; it reads the node table and the binding registry and writes
neither. The container compiled from no declaration, whose maps are nil, is
one of them. -/
theorem C11_populate_not_provided (env : Env)
    (inst : Ptr → Instances → Option (Result Value × Instances)) (b : Container)
    (s : Instances) (typ : GoType) (options : List ProvideOption)
    (hno : b.nodes.get { typ := typ, name := "" } = none)
    (himpl : (b.implementations.get { typ := typ, name := "" }).getD [] = []) :
    b.Populate env inst s (.pointer typ) options =
      some (.returned (some (.withStack
        (.new (({ typ := typ, name := "" } : key).String ++ " not provided yet")))) none s) ∧
    ((env.RangeOk → New env [] = .ok ([], Container.zero)) ∧ Container.zero.nodes = none ∧
      Container.zero.implementations = none ∧
      Container.zero.Populate env inst s (.pointer typ) options =
        some (.returned (some (.withStack
          (.new (({ typ := typ, name := "" } : key).String ++ " not provided yet")))) none s)) := by
  refine ⟨?_, ?_, rfl, rfl, ?_⟩
  · simp [Container.Populate, Container.get, hno, himpl]
  · intro hrange
    have hnil : env.rangeNodes [] = [] := List.Perm.eq_nil (hrange [])
    simp [New, applyAll, Container.compile, Container.zero, registerLoop, GoMap.entries,
      linkLoop, hnil]
  · simp [Container.Populate, Container.get, Container.zero, GoMap.get, GoMap.entries,
      lookupEntries]

/-- C11, on the container compiled from `Provide(&A{})`, for a target of type
`X`. -/
theorem C11_populate_not_provided_witness :
    ({ init := true, providers := [{ provider := pointerTo tA, name := "", implements := [] }],
       nodes := some [({ typ := tA, name := "" }, 0)],
       implementations := some [] } : Container).Populate exampleEnv
        (instanceFuel (fun _ _ => .error (.new "unused")) [] 1) Instances.fresh
        (.pointer tX) [] =
      some (.returned (some (.withStack
        (.new (({ typ := tX, name := "" } : key).String ++ " not provided yet")))) none
        Instances.fresh) :=
  (C11_populate_not_provided exampleEnv _ _ Instances.fresh tX [] (by decide) (by decide)).1

/-- The definition that `get` returns in a compiled container has the key
asked for, or declares it. -/
theorem New_ok_get {env : Env} {options : List Option_} {h : Heap} {b : Container}
    (hnew : New env options = .ok (h, b)) {c : key} {p : Ptr} (hget : b.get c = .ok p) :
    ∃ d, h[p]? = some d ∧ (d.key = c ∨ c ∈ d.implements) := by
  obtain ⟨h0, inv, hl⟩ := New_ok_inv hnew
  have hs := linkLoop_unlinked hl
  cases hn : b.nodes.get c with
  | some q =>
    rw [Container.get_of_node hn] at hget
    cases hget
    obtain ⟨d, hd, hk⟩ := New_ok_node hnew (mem_of_lookupEntries hn)
    exact ⟨d, hd, Or.inl hk⟩
  | none =>
    rw [Container.get_of_no_node hn, inv.impls c] at hget
    cases hil : implList h0 b c with
    | nil => simp [hil] at hget
    | cons x xs =>
      simp only [hil, Result.ok.injEq] at hget
      subst hget
      have hdec := (mem_implList (show x ∈ implList h0 b c by rw [hil]; simp)).2
      rw [← declares_of_unlinked hs] at hdec
      unfold declares at hdec
      cases hd : h[x]? with
      | none => simp [hd] at hdec
      | some d =>
        simp only [hd, decide_eq_true_eq] at hdec
        exact ⟨d, rfl, Or.inr hdec⟩

/-- C20. `Populate` ignores its modifiers and resolves the definition that
`get` returns for the unnamed key of the target type. Two calls that differ in
the modifiers only have the same outcome. When `get` fails, `Populate` returns
its error with a stack. When `get` returns the definition `p`, `Populate` calls
`instance` on `p`: it stores the value of `p` in the target slot and returns a
nil error, or returns the error of `p` with the target type as message, and
does not return when the call does not; the outcome depends on `instance`
through its result on `p` only. In a container that `New` returns, `p` has an
empty name or declares a capability, so a definition with a name and no `As`
capability is never the one resolved. -/
theorem C20_populate_ignores_modifiers (env : Env)
    (inst : Ptr → Instances → Option (Result Value × Instances)) (b : Container)
    (s : Instances) (target : Target) (options₁ options₂ : List ProvideOption) :
    b.Populate env inst s target options₁ = b.Populate env inst s target options₂ ∧
    (∀ typ e, target = .pointer typ → b.get { typ := typ, name := "" } = .error e →
      b.Populate env inst s target options₁ = some (.returned (some (.withStack e)) none s)) ∧
    (∀ typ p v s', target = .pointer typ → b.get { typ := typ, name := "" } = .ok p →
      inst p s = some (.ok v, s') → assignable env v.typ typ = true →
      b.Populate env inst s target options₁ = some (.returned none (some v) s')) ∧
    (∀ typ p e s', target = .pointer typ → b.get { typ := typ, name := "" } = .ok p →
      inst p s = some (.error e, s') →
      b.Populate env inst s target options₁ =
        some (.returned (some (.withMessage e typ.String)) none s')) ∧
    (∀ typ p, target = .pointer typ → b.get { typ := typ, name := "" } = .ok p →
      inst p s = none → b.Populate env inst s target options₁ = none) ∧
    (∀ typ p, target = .pointer typ → b.get { typ := typ, name := "" } = .ok p →
      ∀ inst' : Ptr → Instances → Option (Result Value × Instances), inst' p s = inst p s →
        b.Populate env inst' s target options₁ = b.Populate env inst s target options₂) ∧
    (∀ typ, target = .pointer typ → (∀ p, b.get { typ := typ, name := "" } ≠ .ok p) →
      ∀ inst' : Ptr → Instances → Option (Result Value × Instances),
        b.Populate env inst' s target options₁ = b.Populate env inst s target options₂) ∧
    (∀ options h typ p d, New env options = .ok (h, b) → target = .pointer typ →
      b.get { typ := typ, name := "" } = .ok p → h[p]? = some d →
      d.key.name = "" ∨ d.implements ≠ []) := by
  refine ⟨rfl, ?_, ?_, ?_, ?_, ?_, ?_, ?_⟩
  · intro typ e ht hget
    subst ht
    simp only [Container.Populate, hget]
  · intro typ p v s' ht hget hinst hassign
    subst ht
    simp only [Container.Populate, hget, hinst, hassign, ↓reduceIte]
  · intro typ p e s' ht hget hinst
    subst ht
    simp only [Container.Populate, hget, hinst, Wrapf]
  · intro typ p ht hget hinst
    subst ht
    simp only [Container.Populate, hget, hinst]
  · intro typ p ht hget inst' hinst
    subst ht
    simp only [Container.Populate, hget, hinst]
  · intro typ ht hget inst'
    subst ht
    cases hg : b.get { typ := typ, name := "" } with
    | ok p => exact absurd hg (hget p)
    | error e => simp only [Container.Populate, hg]
    | panic m => simp only [Container.Populate, hg]
  · intro options h typ p d hnew _ hget hd
    obtain ⟨d', hd', hcase⟩ := New_ok_get hnew hget
    rw [hd] at hd'
    cases hd'
    rcases hcase with hk | hi
    · left
      rw [hk]
    · right
      intro hnil
      rw [hnil] at hi
      simp at hi

/-- C20, on the container compiled from
`Provide(&A{}, Name("x")), Provide(&A{})`: `Populate` of a target of type `A`
with the modifier `Name("x")` stores the value of the unnamed definition, at
address 1, and does not invoke the provider of the named one, at address 0. -/
theorem C20_populate_ignores_modifiers_witness :
    containerNamed.Populate exampleEnv (instanceFuel addressInvoke heapNamed 1)
        Instances.fresh (.pointer tA) [.Name "x"] =
      some (.returned none (some { typ := tA, data := 101 })
        { cache := [(1, { typ := tA, data := 101 })], calls := [1] }) :=
  (C20_populate_ignores_modifiers exampleEnv (instanceFuel addressInvoke heapNamed 1)
    containerNamed Instances.fresh (.pointer tA) [.Name "x"] []).2.2.1 tA 1
    { typ := tA, data := 101 } { cache := [(1, { typ := tA, data := 101 })], calls := [1] }
    rfl (by decide) (by decide) (by decide)

/-! ## Resolution (`instance`, modelled from the specification) -/

theorem resolveAll_cons_some {resolve : Ptr → Instances → Option (Result Value × Instances)}
    {q : Ptr} {qs : List Ptr} {s s' : Instances} {r : Result (List Value)}
    (hr : resolveAll resolve (q :: qs) s = some (r, s')) :
    ∃ r1 s1, resolve q s = some (r1, s1) ∧
      ((∃ v ra, r1 = .ok v ∧ resolveAll resolve qs s1 = some (ra, s') ∧
          ((∃ vs, ra = .ok vs ∧ r = .ok (v :: vs)) ∨
           ((∀ vs, ra ≠ .ok vs) ∧ (∀ vs, r ≠ .ok vs)))) ∨
       ((∀ v, r1 ≠ .ok v) ∧ s' = s1 ∧ (∀ vs, r ≠ .ok vs))) := by
  unfold resolveAll at hr
  cases h1 : resolve q s with
  | none => simp [h1] at hr
  | some x =>
    obtain ⟨r1, s1⟩ := x
    refine ⟨r1, s1, rfl, ?_⟩
    cases r1 with
    | panic m =>
      simp only [h1, Option.some.injEq, Prod.mk.injEq] at hr
      obtain ⟨rfl, rfl⟩ := hr
      exact Or.inr ⟨by simp, rfl, by simp⟩
    | error e =>
      simp only [h1, Option.some.injEq, Prod.mk.injEq] at hr
      obtain ⟨rfl, rfl⟩ := hr
      exact Or.inr ⟨by simp, rfl, by simp⟩
    | ok v =>
      simp only [h1] at hr
      left
      cases h2 : resolveAll resolve qs s1 with
      | none => simp [h2] at hr
      | some y =>
        obtain ⟨ra, s2⟩ := y
        cases ra with
        | panic m =>
          simp only [h2, Option.some.injEq, Prod.mk.injEq] at hr
          obtain ⟨rfl, rfl⟩ := hr
          exact ⟨v, _, rfl, rfl, Or.inr ⟨by simp, by simp⟩⟩
        | error e =>
          simp only [h2, Option.some.injEq, Prod.mk.injEq] at hr
          obtain ⟨rfl, rfl⟩ := hr
          exact ⟨v, _, rfl, rfl, Or.inr ⟨by simp, by simp⟩⟩
        | ok vs =>
          simp only [h2, Option.some.injEq, Prod.mk.injEq] at hr
          obtain ⟨rfl, rfl⟩ := hr
          exact ⟨v, _, rfl, rfl, Or.inl ⟨vs, rfl, rfl⟩⟩

/-- The cases of a resolution that returns: a built instance; a dangling
address; the arguments did not all resolve; the provider was invoked. -/
theorem instanceFuel_succ_some {invoke : Invoke} {h : Heap} {n : Nat} {p : Ptr}
    {s s' : Instances} {r : Result Value}
    (hr : instanceFuel invoke h (n + 1) p s = some (r, s')) :
    (∃ v, lookupEntries p s.cache = some v ∧ r = .ok v ∧ s' = s) ∨
    (lookupEntries p s.cache = none ∧ h[p]? = none ∧ s' = s ∧ ∀ v, r ≠ .ok v) ∨
    (lookupEntries p s.cache = none ∧ ∃ d ra s1, h[p]? = some d ∧
      resolveAll (instanceFuel invoke h n) d.in_ s = some (ra, s1) ∧
      (((∀ args, ra ≠ .ok args) ∧ s' = s1 ∧ ∀ v, r ≠ .ok v) ∨
       (∃ args, ra = .ok args ∧ s'.calls = s1.calls ++ [p] ∧
         ((∃ v, r = .ok v ∧ invoke p args = .ok v ∧ s'.cache = setEntries p v s1.cache) ∨
          ((∀ v, r ≠ .ok v) ∧ s'.cache = s1.cache))))) := by
  unfold instanceFuel at hr
  cases hc : lookupEntries p s.cache with
  | some v =>
    simp only [hc, Option.some.injEq, Prod.mk.injEq] at hr
    exact Or.inl ⟨v, rfl, hr.1.symm, hr.2.symm⟩
  | none =>
    simp only [hc] at hr
    right
    cases hd : h[p]? with
    | none =>
      simp only [hd, Option.some.injEq, Prod.mk.injEq] at hr
      obtain ⟨rfl, rfl⟩ := hr
      exact Or.inl ⟨rfl, rfl, rfl, by simp⟩
    | some d =>
      simp only [hd] at hr
      right
      refine ⟨rfl, d, ?_⟩
      cases ha : resolveAll (instanceFuel invoke h n) d.in_ s with
      | none => simp [ha] at hr
      | some y =>
        obtain ⟨ra, s1⟩ := y
        refine ⟨ra, s1, rfl, rfl, ?_⟩
        cases ra with
        | panic m =>
          simp only [ha, Option.some.injEq, Prod.mk.injEq] at hr
          obtain ⟨rfl, rfl⟩ := hr
          exact Or.inl ⟨by simp, rfl, by simp⟩
        | error e =>
          simp only [ha, Option.some.injEq, Prod.mk.injEq] at hr
          obtain ⟨rfl, rfl⟩ := hr
          exact Or.inl ⟨by simp, rfl, by simp⟩
        | ok args =>
          simp only [ha] at hr
          right
          refine ⟨args, rfl, ?_⟩
          cases hi : invoke p args with
          | error e =>
            simp only [hi, Option.some.injEq, Prod.mk.injEq] at hr
            obtain ⟨rfl, rfl⟩ := hr
            exact ⟨rfl, Or.inr ⟨by simp, rfl⟩⟩
          | ok v =>
            simp only [hi, Option.some.injEq, Prod.mk.injEq] at hr
            obtain ⟨rfl, rfl⟩ := hr
            exact ⟨rfl, Or.inl ⟨v, rfl, rfl, rfl⟩⟩

theorem Resolves.refl (h : Heap) (roots : List Ptr) (s : Instances) : Resolves h roots s s :=
  ⟨fun _ _ hq => hq, fun hc => hc, fun _ _ _ => rfl, by
    intro x hx
    rcases hx with hx | ⟨h1, h2⟩
    · exact absurd rfl hx
    · exact absurd h1 h2⟩

theorem Resolves.trans {h : Heap} {r1 r2 : List Ptr} {s s1 s2 : Instances}
    (h1 : Resolves h r1 s s1) (h2 : Resolves h r2 s1 s2) : Resolves h (r1 ++ r2) s s2 := by
  refine ⟨fun q v hq => h2.mono q v (h1.mono q v hq), fun hc => h2.closed (h1.closed hc), ?_, ?_⟩
  · intro x v hx
    rw [h2.kept x v (h1.mono x v hx), h1.kept x v hx]
  · intro x hx
    by_cases hfirst : s1.calls.count x ≠ s.calls.count x ∨
        (lookupEntries x s.cache = none ∧ lookupEntries x s1.cache ≠ none)
    · obtain ⟨r, hr, hreach⟩ := h1.reach x hfirst
      exact ⟨r, List.mem_append_left _ hr, hreach⟩
    · rw [not_or] at hfirst
      obtain ⟨hcount, hcache⟩ := hfirst
      rw [not_not] at hcount
      have hsecond : s2.calls.count x ≠ s1.calls.count x ∨
          (lookupEntries x s1.cache = none ∧ lookupEntries x s2.cache ≠ none) := by
        rcases hx with hx | ⟨hx1, hx2⟩
        · left
          rw [hcount]
          exact hx
        · right
          refine ⟨?_, hx2⟩
          by_contra hne
          exact hcache ⟨hx1, hne⟩
      obtain ⟨r, hr, hreach⟩ := h2.reach x hsecond
      exact ⟨r, List.mem_append_right _ hr, hreach⟩

theorem count_append_singleton_ne {l : List Ptr} {x p : Ptr} (hne : x ≠ p) :
    (l ++ [p]).count x = l.count x := by
  rw [List.count_append]
  have : List.count x [p] = 0 := by
    rw [List.count_eq_zero]
    simp [hne]
  rw [this, Nat.add_zero]

theorem count_append_singleton_self (l : List Ptr) (p : Ptr) :
    (l ++ [p]).count p = l.count p + 1 := by
  rw [List.count_append]
  simp

theorem Resolves.of_edges {h : Heap} {p : Ptr} {roots : List Ptr} {s s' : Instances}
    (hedge : ∀ a ∈ roots, Edge h p a) (hr : Resolves h roots s s') : Resolves h [p] s s' := by
  refine ⟨hr.mono, hr.closed, hr.kept, ?_⟩
  intro x hx
  obtain ⟨a, ha, hreach⟩ := hr.reach x hx
  exact ⟨p, List.mem_singleton.mpr rfl, Relation.ReflTransGen.head (hedge a ha) hreach⟩

theorem Resolves.weaken {h : Heap} {roots roots' : List Ptr} {s s' : Instances}
    (hsub : ∀ a ∈ roots, a ∈ roots') (hr : Resolves h roots s s') : Resolves h roots' s s' := by
  refine ⟨hr.mono, hr.closed, hr.kept, ?_⟩
  intro x hx
  obtain ⟨a, ha, hreach⟩ := hr.reach x hx
  exact ⟨a, hsub a ha, hreach⟩

/-- The resolution of a list keeps what each resolution keeps, and when it
returns values every definition of the list is built. -/
theorem resolveAll_resolves {h : Heap}
    {resolve : Ptr → Instances → Option (Result Value × Instances)}
    (hres : ∀ q s r s', resolve q s = some (r, s') →
      Resolves h [q] s s' ∧ ∀ v, r = .ok v → lookupEntries q s'.cache = some v)
    {qs : List Ptr} {s s' : Instances} {r : Result (List Value)}
    (hr : resolveAll resolve qs s = some (r, s')) :
    Resolves h qs s s' ∧
      ∀ vs, r = .ok vs → ∀ a ∈ qs, ∃ v, lookupEntries a s'.cache = some v := by
  induction qs generalizing s s' r with
  | nil =>
    simp only [resolveAll, Option.some.injEq, Prod.mk.injEq] at hr
    obtain ⟨_, rfl⟩ := hr
    exact ⟨Resolves.refl h [] s, by simp⟩
  | cons q qs ih =>
    obtain ⟨r1, s1, h1, hcase⟩ := resolveAll_cons_some hr
    obtain ⟨hq, hqv⟩ := hres q s r1 s1 h1
    rcases hcase with ⟨v, ra, rfl, h2, hra⟩ | ⟨_, rfl, hne⟩
    · obtain ⟨hrest, hrestv⟩ := ih h2
      refine ⟨hq.trans hrest, ?_⟩
      intro vs hvs a ha
      rcases hra with ⟨vs', rfl, _⟩ | ⟨_, hne⟩
      · rcases List.mem_cons.mp ha with rfl | ha'
        · exact ⟨v, hrest.mono _ _ (hqv v rfl)⟩
        · exact hrestv vs' rfl a ha'
      · exact absurd hvs (hne vs)
    · refine ⟨hq.weaken (fun a ha => ?_), fun vs hvs => absurd hvs (hne vs)⟩
      rw [List.mem_singleton] at ha
      rw [ha]
      exact List.mem_cons_self _ _

/-- A resolution keeps built values, keeps closed instances closed, does not
invoke the provider of a built definition, touches only what the definition
reaches, and leaves the definition built when it returns a value. -/
theorem instanceFuel_resolves (invoke : Invoke) (h : Heap) (n : Nat) :
    ∀ p s r s', instanceFuel invoke h n p s = some (r, s') →
      Resolves h [p] s s' ∧ ∀ v, r = .ok v → lookupEntries p s'.cache = some v := by
  induction n with
  | zero =>
    intro p s r s' hr
    simp [instanceFuel] at hr
  | succ n ih =>
    intro p s r s' hr
    rcases instanceFuel_succ_some hr with ⟨v, hc, rfl, rfl⟩ | ⟨_, _, rfl, hne⟩ |
      ⟨hc, d, ra, s1, hd, hargs, hcase⟩
    · refine ⟨Resolves.refl h [p] s', ?_⟩
      intro w hw
      cases hw
      exact hc
    · exact ⟨Resolves.refl h [p] s', fun v hv => absurd hv (hne v)⟩
    · obtain ⟨hlist, hlistv⟩ := resolveAll_resolves ih hargs
      have hedge : ∀ a ∈ d.in_, Edge h p a := fun a ha => ⟨d, hd, ha⟩
      have hbase : Resolves h [p] s s1 := hlist.of_edges hedge
      rcases hcase with ⟨_, rfl, hne⟩ | ⟨args, rfl, hcalls, hcache⟩
      · exact ⟨hbase, fun v hv => absurd hv (hne v)⟩
      · have hlook : ∀ q, q ≠ p → lookupEntries q s'.cache = lookupEntries q s1.cache := by
          intro q hq
          rcases hcache with ⟨v, _, _, hcv⟩ | ⟨_, hcv⟩
          · rw [hcv, lookupEntries_setEntries_ne _ _ hq]
          · rw [hcv]
        have hpne : ∀ q v, lookupEntries q s.cache = some v → q ≠ p := by
          intro q v hq e
          rw [e, hc] at hq
          exact absurd hq (by simp)
        refine ⟨⟨?_, ?_, ?_, ?_⟩, ?_⟩
        · intro q v hq
          rw [hlook q (hpne q v hq)]
          exact hbase.mono q v hq
        · intro hclosed
          have hc1 := hbase.closed hclosed
          intro x v hx q hxq
          have hq1 : (∃ w, lookupEntries q s1.cache = some w) → ∃ w,
              lookupEntries q s'.cache = some w := by
            rintro ⟨w, hw⟩
            by_cases hqp : q = p
            · rcases hcache with ⟨v', _, _, hcv⟩ | ⟨_, hcv⟩
              · exact ⟨v', by rw [hcv, hqp, lookupEntries_setEntries_same]⟩
              · exact ⟨w, by rw [hcv]; exact hw⟩
            · exact ⟨w, by rw [hlook q hqp]; exact hw⟩
          by_cases hxp : x = p
          · subst hxp
            obtain ⟨d', hd', hq⟩ := hxq
            rw [hd] at hd'
            cases hd'
            exact hq1 (hlistv args rfl q hq)
          · rw [hlook x hxp] at hx
            exact hq1 (hc1 x v hx q hxq)
        · intro x v hx
          rw [hcalls, count_append_singleton_ne (hpne x v hx)]
          exact hbase.kept x v hx
        · intro x hx
          by_cases hxp : x = p
          · exact ⟨p, List.mem_singleton.mpr rfl, by rw [hxp]; exact Relation.ReflTransGen.refl⟩
          · apply hbase.reach x
            rcases hx with hx | ⟨hx1, hx2⟩
            · left
              rw [hcalls, count_append_singleton_ne hxp] at hx
              exact hx
            · right
              rw [hlook x hxp] at hx2
              exact ⟨hx1, hx2⟩
        · intro v hv
          rcases hcache with ⟨v', hv', _, hcv⟩ | ⟨hne, _⟩
          · rw [hv] at hv'
            cases hv'
            rw [hcv, lookupEntries_setEntries_same]
          · exact absurd hv (hne v)

theorem Closed.reach {h : Heap} {s : Instances} (hc : Closed h s) {q x : Ptr}
    (hreach : Reach h q x) (hq : ∃ v, lookupEntries q s.cache = some v) :
    ∃ w, lookupEntries x s.cache = some w := by
  induction hreach with
  | refl => exact hq
  | tail _ hedge ih =>
    obtain ⟨v, hv⟩ := ih
    exact hc _ v hv _ hedge

/-- A definition that becomes built during a resolution was itself resolved to
a value, from closed instances in which it was not built, with no more fuel. -/
theorem instanceFuel_extract (invoke : Invoke) (h : Heap) (x : Ptr) (n : Nat) :
    ∀ q s r s', Closed h s → instanceFuel invoke h n q s = some (r, s') →
      lookupEntries x s.cache = none → lookupEntries x s'.cache ≠ none →
      ∃ m, m ≤ n ∧ ∃ t v t', Closed h t ∧ lookupEntries x t.cache = none ∧
        instanceFuel invoke h m x t = some (.ok v, t') := by
  induction n with
  | zero =>
    intro q s r s' _ hr
    simp [instanceFuel] at hr
  | succ n ih =>
    have hlist : ∀ (qs : List Ptr) (s : Instances) (ra : Result (List Value)) (s1 : Instances),
        Closed h s → resolveAll (instanceFuel invoke h n) qs s = some (ra, s1) →
        lookupEntries x s.cache = none → lookupEntries x s1.cache ≠ none →
        ∃ m, m ≤ n ∧ ∃ t v t', Closed h t ∧ lookupEntries x t.cache = none ∧
          instanceFuel invoke h m x t = some (.ok v, t') := by
      intro qs
      induction qs with
      | nil =>
        intro s ra s1 _ hr hx hx1
        simp only [resolveAll, Option.some.injEq, Prod.mk.injEq] at hr
        rw [← hr.2] at hx1
        exact absurd hx hx1
      | cons q qs ihl =>
        intro s ra s1 hclosed hr hx hx1
        obtain ⟨r1, t1, h1, hcase⟩ := resolveAll_cons_some hr
        by_cases hmid : lookupEntries x t1.cache = none
        · rcases hcase with ⟨v, ra', _, h2, _⟩ | ⟨_, rfl, _⟩
          · exact ihl t1 ra' s1 ((instanceFuel_resolves invoke h n q s r1 t1 h1).1.closed hclosed)
              h2 hmid hx1
          · exact absurd hmid hx1
        · exact ih q s r1 t1 hclosed h1 hx hmid
    intro q s r s' hclosed hr hx hx'
    rcases instanceFuel_succ_some hr with ⟨_, _, _, rfl⟩ | ⟨_, _, rfl, _⟩ |
      ⟨hc, d, ra, s1, hd, hargs, hcase⟩
    · exact absurd hx hx'
    · exact absurd hx hx'
    · by_cases hmid : lookupEntries x s1.cache = none
      · rcases hcase with ⟨_, rfl, _⟩ | ⟨args, rfl, _, hcache⟩
        · exact absurd hmid hx'
        · rcases hcache with ⟨v, rfl, _, hcv⟩ | ⟨_, hcv⟩
          · have hxq : x = q := by
              by_contra hne
              rw [hcv, lookupEntries_setEntries_ne _ _ hne] at hx'
              exact hx' hmid
            subst hxq
            exact ⟨n + 1, Nat.le_refl _, s, v, s', hclosed, hx, hr⟩
          · rw [hcv] at hx'
            exact absurd hmid hx'
      · obtain ⟨m, hm, hrest⟩ := hlist d.in_ s ra s1 hclosed hargs hx hmid
        exact ⟨m, Nat.le_succ_of_le hm, hrest⟩

theorem resolveAll_extract (invoke : Invoke) (h : Heap) (x : Ptr) (n : Nat)
    (qs : List Ptr) : ∀ (s : Instances) (ra : Result (List Value)) (s1 : Instances),
      Closed h s → resolveAll (instanceFuel invoke h n) qs s = some (ra, s1) →
      lookupEntries x s.cache = none → lookupEntries x s1.cache ≠ none →
      ∃ m, m ≤ n ∧ ∃ t v t', Closed h t ∧ lookupEntries x t.cache = none ∧
        instanceFuel invoke h m x t = some (.ok v, t') := by
  induction qs with
  | nil =>
    intro s ra s1 _ hr hx hx1
    simp only [resolveAll, Option.some.injEq, Prod.mk.injEq] at hr
    rw [← hr.2] at hx1
    exact absurd hx hx1
  | cons q qs ihl =>
    intro s ra s1 hclosed hr hx hx1
    obtain ⟨r1, t1, h1, hcase⟩ := resolveAll_cons_some hr
    by_cases hmid : lookupEntries x t1.cache = none
    · rcases hcase with ⟨v, ra', _, h2, _⟩ | ⟨_, rfl, _⟩
      · exact ihl t1 ra' s1 ((instanceFuel_resolves invoke h n q s r1 t1 h1).1.closed hclosed)
          h2 hmid hx1
      · exact absurd hmid hx1
    · exact instanceFuel_extract invoke h x n q s r1 t1 hclosed h1 hx hmid

theorem edge_of_reach_cycle {h : Heap} {q x : Ptr} (hreach : Reach h q x)
    (hcyc : Relation.TransGen (Edge h) x x) : ∃ a, Edge h q a ∧ Reach h a x := by
  rcases Relation.ReflTransGen.cases_head hreach with rfl | ⟨a, hqa, hax⟩
  · exact Relation.TransGen.head'_iff.mp hcyc
  · exact ⟨a, hqa, hax⟩

/-- A definition on a cycle of `in` edges that is not built is never resolved
to a value from closed instances, and neither is a definition that reaches
it: the resolution needs more fuel, whatever the fuel. -/
theorem instanceFuel_cycle (invoke : Invoke) (h : Heap) (x : Ptr)
    (hcyc : Relation.TransGen (Edge h) x x) (n : Nat) :
    ∀ m, m ≤ n → ∀ q s v s', Closed h s → lookupEntries x s.cache = none → Reach h q x →
      instanceFuel invoke h m q s ≠ some (.ok v, s') := by
  induction n with
  | zero =>
    intro m hm q s v s' _ _ _
    have : m = 0 := Nat.le_zero.mp hm
    subst this
    simp [instanceFuel]
  | succ n ih =>
    intro m hm
    rcases Nat.lt_or_ge m (n + 1) with hlt | hge
    · exact ih m (Nat.le_of_lt_succ hlt)
    · have hmn : m = n + 1 := Nat.le_antisymm hm hge
      subst hmn
      have hlist : ∀ (qs : List Ptr) (s : Instances) (vs : List Value) (s1 : Instances),
          Closed h s → lookupEntries x s.cache = none → (∃ a ∈ qs, Reach h a x) →
          resolveAll (instanceFuel invoke h n) qs s ≠ some (.ok vs, s1) := by
        intro qs
        induction qs with
        | nil =>
          intro s vs s1 _ _ ha
          obtain ⟨a, ha, _⟩ := ha
          simp at ha
        | cons q qs ihl =>
          intro s vs s1 hclosed hx ha hr
          obtain ⟨r1, t1, h1, hcase⟩ := resolveAll_cons_some hr
          rcases hcase with ⟨v, ra, rfl, h2, hra⟩ | ⟨_, _, hne⟩
          · obtain ⟨a, hmem, hreach⟩ := ha
            rcases hra with ⟨vs', rfl, _⟩ | ⟨_, hne⟩
            · rcases List.mem_cons.mp hmem with rfl | hmem'
              · exact ih n (Nat.le_refl _) a s v t1 hclosed hx hreach h1
              · have hc1 := (instanceFuel_resolves invoke h n q s _ t1 h1).1.closed hclosed
                have hx1 : lookupEntries x t1.cache = none := by
                  by_contra hne
                  obtain ⟨m', hm', t, w, t', hct, hxt, hrt⟩ :=
                    instanceFuel_extract invoke h x n q s _ t1 hclosed h1 hx hne
                  exact ih m' hm' x t w t' hct hxt Relation.ReflTransGen.refl hrt
                exact ihl t1 vs' s1 hc1 hx1 ⟨a, hmem', hreach⟩ h2
            · exact hne vs rfl
          · exact hne vs rfl
      intro q s v s' hclosed hx hreach hr
      rcases instanceFuel_succ_some hr with ⟨w, hc, _, rfl⟩ | ⟨_, _, _, hne⟩ |
        ⟨hc, d, ra, s1, hd, hargs, hcase⟩
      · obtain ⟨w', hw'⟩ := hclosed.reach hreach ⟨w, hc⟩
        rw [hx] at hw'
        exact absurd hw' (by simp)
      · exact hne v rfl
      · rcases hcase with ⟨_, _, hne⟩ | ⟨args, rfl, _, _⟩
        · exact hne v rfl
        · obtain ⟨a, ⟨d', hd', ha⟩, hax⟩ := edge_of_reach_cycle hreach hcyc
          rw [hd] at hd'
          cases hd'
          exact hlist d.in_ s args s1 hclosed hx ⟨a, ha, hax⟩ hargs

/-- A resolution from closed instances that returns a value for a definition
that was not built invokes the provider of that definition once. -/
theorem instanceFuel_invokes_once (invoke : Invoke) (h : Heap) (n : Nat) (p : Ptr)
    (s s' : Instances) (v : Value) (hclosed : Closed h s)
    (hc : lookupEntries p s.cache = none)
    (hr : instanceFuel invoke h n p s = some (.ok v, s')) :
    s'.calls.count p = s.calls.count p + 1 := by
  cases n with
  | zero => simp [instanceFuel] at hr
  | succ n =>
    rcases instanceFuel_succ_some hr with ⟨w, hw, _, _⟩ | ⟨_, _, _, hne⟩ |
      ⟨_, d, ra, s1, hd, hargs, hcase⟩
    · rw [hc] at hw
      exact absurd hw (by simp)
    · exact absurd rfl (hne v)
    · rcases hcase with ⟨_, _, hne⟩ | ⟨args, rfl, hcalls, _⟩
      · exact absurd rfl (hne v)
      · have hlist := (resolveAll_resolves (instanceFuel_resolves invoke h n) hargs).1
        have hsame : s1.calls.count p = s.calls.count p := by
          by_contra hne
          obtain ⟨a, ha, hreach⟩ := hlist.reach p (Or.inl hne)
          have hcyc : Relation.TransGen (Edge h) p p :=
            Relation.TransGen.head' ⟨d, hd, ha⟩ hreach
          exact instanceFuel_cycle invoke h p hcyc (n + 1) (n + 1) (Nat.le_refl _) p s v s'
            hclosed hc Relation.ReflTransGen.refl hr
        rw [hcalls, count_append_singleton_self, hsame]

/-! ## Singleton memoization -/

theorem instanceFuel_built (invoke : Invoke) (h : Heap) (m : Nat) {p : Ptr} {s : Instances}
    {v : Value} (hc : lookupEntries p s.cache = some v) :
    instanceFuel invoke h (m + 1) p s = some (.ok v, s) := by
  simp [instanceFuel, hc]

/-- The container and the heap of the examples are the ones that `New`
returns. -/
theorem New_examples :
    New exampleEnv [.Provide (funcValue [] [tA, errorInterface]) []] =
      .ok (heapA, containerA) ∧
    New exampleEnv [.Provide (pointerTo tA) [.Name "x"], .Provide (pointerTo tA) []] =
      .ok (heapNamed, containerNamed) := by
  constructor <;> decide

/-- The resolution of section 4.4 caches nothing when the provider fails (step
4): on the container compiled from `Provide(func() (A, error))` with a
provider that fails, each of two calls of `Populate` returns the error and
invokes the provider. -/
theorem instanceFuel_retries_failed_provider :
    containerA.Populate exampleEnv (instanceFuel failingInvoke heapA 1) Instances.fresh
        (.pointer tA) [] =
      some (.returned (some (.withMessage (.withMessage (.new "provider failed") "A[]") "A"))
        none { cache := [], calls := [0] }) ∧
    containerA.Populate exampleEnv (instanceFuel failingInvoke heapA 1)
        { cache := [], calls := [0] } (.pointer tA) [] =
      some (.returned (some (.withMessage (.withMessage (.new "provider failed") "A[]") "A"))
        none { cache := [], calls := [0, 0] }) := by
  constructor <;> decide

theorem resolveAll_returns {resolve : Ptr → Instances → Option (Result Value × Instances)}
    (qs : List Ptr)
    (hres : ∀ q ∈ qs, ∀ s, ∃ v s', resolve q s = some (.ok v, s')) :
    ∀ s, ∃ vs s', resolveAll resolve qs s = some (.ok vs, s') := by
  induction qs with
  | nil => exact fun s => ⟨[], s, rfl⟩
  | cons q qs ih =>
    intro s
    obtain ⟨v, s1, h1⟩ := hres q (List.mem_cons_self _ _) s
    obtain ⟨vs, s2, h2⟩ := ih (fun a ha => hres a (List.mem_cons_of_mem _ ha)) s1
    exact ⟨v :: vs, s2, by simp [resolveAll, h1, h2]⟩

/-- Enough fuel gives the value: when the `in` edges go down a rank (the graph
has no cycle), lead to allocated definitions, and the providers return values,
the resolution of an allocated definition returns a value with any fuel above
its rank. -/
theorem instanceFuel_returns (invoke : Invoke) (h : Heap) (rank : Ptr → Nat)
    (hrank : ∀ p q, Edge h p q → rank q < rank p)
    (hvalid : ∀ p q, Edge h p q → ∃ d, h[q]? = some d)
    (hinvoke : ∀ p args, ∃ v, invoke p args = .ok v) (n : Nat) :
    ∀ p, rank p < n → (∃ d, h[p]? = some d) → ∀ s,
      ∃ v s', instanceFuel invoke h n p s = some (.ok v, s') := by
  induction n with
  | zero =>
    intro p hp
    exact absurd hp (Nat.not_lt_zero _)
  | succ n ih =>
    intro p hp hd s
    obtain ⟨d, hd⟩ := hd
    cases hc : lookupEntries p s.cache with
    | some v => exact ⟨v, s, by simp [instanceFuel, hc]⟩
    | none =>
      have hargs : ∀ q ∈ d.in_, ∀ t, ∃ v t', instanceFuel invoke h n q t = some (.ok v, t') := by
        intro q hq t
        have hedge : Edge h p q := ⟨d, hd, hq⟩
        exact ih q (Nat.lt_of_lt_of_le (hrank p q hedge) (Nat.le_of_lt_succ hp))
          (hvalid p q hedge) t
      obtain ⟨vs, s1, hres⟩ := resolveAll_returns d.in_ hargs s
      obtain ⟨v, hv⟩ := hinvoke p vs
      exact ⟨v, { cache := setEntries p v s1.cache, calls := s1.calls ++ [p] },
        by simp [instanceFuel, hc, hd, hres, hv]⟩

/-- C16. Singleton memoization, for the resolution of the specification: when
the first resolution of a definition `D` (not built yet, from closed
instances, as the fresh ones are) returns a value `v`, it has invoked the
provider of `D` exactly once and `D` is built with `v`, and the `Populate`
that selects `D` stores `v`. From then on every resolution of `D` returns `v`
without invoking any provider, every resolution of any definition, whatever
it returns, leaves `D` built with `v` and does not invoke the provider of
`D`, and every `Populate` that selects `D` stores `v` and changes nothing. -/
theorem C16_built_once_when_the_first_resolution_succeeds (invoke : Invoke) (h : Heap)
    (s s1 : Instances) (D : Ptr) (n : Nat) (v : Value) (hclosed : Closed h s)
    (hnew : lookupEntries D s.cache = none)
    (hfirst : instanceFuel invoke h n D s = some (.ok v, s1)) :
    s1.calls.count D = s.calls.count D + 1 ∧
    lookupEntries D s1.cache = some v ∧ Closed h s1 ∧
    (∀ (env : Env) (b : Container) (typ : GoType) (options : List ProvideOption),
      b.get { typ := typ, name := "" } = .ok D → assignable env v.typ typ = true →
      b.Populate env (instanceFuel invoke h n) s (.pointer typ) options =
        some (.returned none (some v) s1)) ∧
    (∀ t, lookupEntries D t.cache = some v →
      (∀ m, instanceFuel invoke h (m + 1) D t = some (.ok v, t)) ∧
      (∀ m q r t', instanceFuel invoke h m q t = some (r, t') →
        t'.calls.count D = t.calls.count D ∧ lookupEntries D t'.cache = some v) ∧
      (∀ (env : Env) (b : Container) (typ : GoType) (options : List ProvideOption) (m : Nat),
        b.get { typ := typ, name := "" } = .ok D → assignable env v.typ typ = true →
        b.Populate env (instanceFuel invoke h (m + 1)) t (.pointer typ) options =
          some (.returned none (some v) t))) := by
  obtain ⟨hres, hv⟩ := instanceFuel_resolves invoke h n D s _ s1 hfirst
  refine ⟨instanceFuel_invokes_once invoke h n D s s1 v hclosed hnew hfirst, hv v rfl,
    hres.closed hclosed, ?_, ?_⟩
  · intro env b typ options hget hassign
    simp [Container.Populate, hget, hfirst, hassign]
  · intro t ht
    refine ⟨fun m => instanceFuel_built invoke h m ht, ?_, ?_⟩
    · intro m q r t' hr
      obtain ⟨hres', _⟩ := instanceFuel_resolves invoke h m q t r t' hr
      exact ⟨hres'.kept D v ht, hres'.mono D v ht⟩
    · intro env b typ options m hget hassign
      simp [Container.Populate, hget, instanceFuel_built invoke h m ht, hassign]

/-- C16, on the container compiled from `Provide(func() (A, error))` with a
provider that returns a value: the first `Populate` stores the value and
invokes the provider, the second stores the same value and invokes nothing,
so the provider has been invoked once. -/
theorem C16_built_once_when_the_first_resolution_succeeds_witness :
    containerA.Populate exampleEnv (instanceFuel exampleInvoke heapA 1) Instances.fresh
        (.pointer tA) [] =
      some (.returned none (some { typ := tA, data := 0 })
        { cache := [(0, { typ := tA, data := 0 })], calls := [0] }) ∧
    containerA.Populate exampleEnv (instanceFuel exampleInvoke heapA 1)
        { cache := [(0, { typ := tA, data := 0 })], calls := [0] } (.pointer tA) [] =
      some (.returned none (some { typ := tA, data := 0 })
        { cache := [(0, { typ := tA, data := 0 })], calls := [0] }) ∧
    ([0] : List Ptr).count 0 = ([] : List Ptr).count 0 + 1 := by
  have hC := C16_built_once_when_the_first_resolution_succeeds exampleInvoke heapA
    Instances.fresh { cache := [(0, { typ := tA, data := 0 })], calls := [0] } 0 1
    { typ := tA, data := 0 }
    (by intro p v hp; simp [Instances.fresh, lookupEntries] at hp) (by decide) (by decide)
  exact ⟨hC.2.2.2.1 exampleEnv containerA tA [] (by decide) (by decide),
    (hC.2.2.2.2 _ (by decide)).2.2 exampleEnv containerA tA [] 0 (by decide) (by decide),
    hC.1⟩

end inject
